import Mathlib

/-!
Shallow embedding of the graph storage engine and shortest-path solver of the
Dijkstra-algorithm repository (src/src/graph.c, src/src/dijkstra.c, and the
corresponding headers), together with proofs about the embedded code.

Modelling conventions:
* C `double` values are modelled as rationals; the `DBL_MAX` infinity sentinel
  (`INFINITY_DBL`) is modelled as `⊤` in `WithTop ℚ`.
* C arrays are modelled as lists; `int` indices are modelled as `ℤ`.
  Reads through an out-of-range index are undefined behaviour in C and never
  happen in the modelled executions; the total models below return a fixed
  default in that case (`⊤` for distances, `-1` for predecessors, `true` for
  visited flags) and a `List.set` out of range is a no-op.
* Functions that report failure through `error_code_t` return
  `Except error_code_t α`; the success value `ERR_SUCCESS` corresponds to the
  `.ok` constructor.
* The hash table's bucket array is modelled as a function from bucket index to
  collision chain.
-/

/-- Error codes from src/include/error_handling.h. -/
inductive error_code_t where
  | ERR_SUCCESS
  | ERR_NULL_POINTER
  | ERR_INVALID_ARGUMENT
  | ERR_MEMORY_ALLOCATION
  | ERR_FILE_NOT_FOUND
  | ERR_FILE_READ
  | ERR_FILE_WRITE
  | ERR_TIMEOUT
  | ERR_BUFFER_OVERFLOW
  | ERR_OPERATION_FAILED
  | ERR_PERMISSION_DENIED
  | ERR_RESOURCE_BUSY
  | ERR_INVALID_FORMAT
  | ERR_NOT_FOUND
  | ERR_INVALID_DATA
  | ERR_INPUT_ERROR
  | ERR_UNKNOWN
  deriving DecidableEq, Repr

/-- Costs and tentative distances: C doubles with the `DBL_MAX` sentinel `⊤`. -/
abbrev Cost := WithTop ℚ

/-- Truncation to 32 bits, for the `unsigned int` arithmetic of the hash. -/
def u32_mask (n : ℕ) : ℕ := n % 2 ^ 32

/-- MurmurHash3 32-bit finalizer, from graph.c (`hash_murmur3_32`). -/
def hash_murmur3_32 (key : ℕ) : ℕ :=
  let k0 := u32_mask key
  let k1 := k0 ^^^ (k0 >>> 16)
  let k2 := u32_mask (k1 * 0x85ebca6b)
  let k3 := k2 ^^^ (k2 >>> 13)
  let k4 := u32_mask (k3 * 0xc2b2ae35)
  k4 ^^^ (k4 >>> 16)

/-- Hash table entry (graph.h `NodeHashEntry`); the collision chain is the
enclosing list. -/
structure NodeHashEntry where
  node_id : ℕ
  node_index : ℤ
  deriving DecidableEq, Repr

/-- Hash table (graph.h `NodeHashTable`); the bucket array is modelled as a
function from bucket index to chain. -/
structure NodeHashTable where
  buckets : ℕ → List NodeHashEntry
  size : ℕ
  count : ℕ

/-- graph.c `create_node_hash_table`: positive-size check, zeroed buckets. -/
def create_node_hash_table (size : ℕ) : Except error_code_t NodeHashTable :=
  if size ≤ 0 then .error .ERR_INVALID_ARGUMENT
  else .ok { buckets := fun _ => [], size := size, count := 0 }

/-- graph.c `insert_node_hash`: reject negative indices, then prepend the new
entry to the chain of bucket `hash_murmur3_32 id % size`. -/
def insert_node_hash (t : NodeHashTable) (node_id : ℕ) (node_index : ℤ) :
    Except error_code_t NodeHashTable :=
  if node_index < 0 then .error .ERR_INVALID_ARGUMENT
  else
    let hash_index := hash_murmur3_32 node_id % t.size
    .ok { t with
          buckets := fun b =>
            if b = hash_index then ⟨node_id, node_index⟩ :: t.buckets hash_index
            else t.buckets b,
          count := t.count + 1 }

/-- graph.c `lookup_node_hash`: walk the collision chain of the key's bucket. -/
def lookup_node_hash (t : NodeHashTable) (node_id : ℕ) : Except error_code_t ℤ :=
  let hash_index := hash_murmur3_32 node_id % t.size
  match (t.buckets hash_index).find? (fun e => e.node_id == node_id) with
  | some e => .ok e.node_index
  | none => .error .ERR_NOT_FOUND

/-- Node record (graph.h `Node`). -/
structure Node where
  node_id : ℕ
  latitude : ℚ
  longitude : ℚ
  deriving DecidableEq, Repr

instance : Inhabited Node := ⟨⟨0, 0, 0⟩⟩

/-- Edge record (graph.h `Edge`). -/
structure Edge where
  from_node : ℕ
  to_node : ℕ
  length : ℕ
  reserved : ℕ
  speed_limit : ℕ
  highway_type : ℕ
  one_way : Bool
  deriving DecidableEq, Repr

instance : Inhabited Edge := ⟨⟨0, 0, 0, 0, 0, 0, false⟩⟩

/-- Graph (graph.h `Graph`).  The C `num_nodes` and `num_edges` fields always
equal the lengths of the fully loaded node and edge arrays, so they are
modelled as `nodes.length` and `edges.length`. -/
structure Graph where
  nodes : List Node
  edges : List Edge
  adj_offsets : List ℕ
  adj_indices : List ℕ
  node_hash : NodeHashTable

/-- graph.h `HASH_TABLE_SIZE`. -/
def HASH_TABLE_SIZE : ℕ := 65536

/-- Hash-table size chosen by graph.c `create_graph` (line 175):
`(num_nodes > HASH_TABLE_SIZE) ? num_nodes * 2 : HASH_TABLE_SIZE`. -/
def create_graph_hash_size (num_nodes : ℕ) : ℕ :=
  if num_nodes > HASH_TABLE_SIZE then num_nodes * 2 else HASH_TABLE_SIZE

/-- graph.c `create_graph`: dimension checks, array allocation
(`adj_offsets` zeroed with `num_nodes + 1` slots, `adj_indices` with
`2 * num_edges` slots, modelled zero-filled), hash table creation.  The node
and edge arrays are uninitialised in C until the loader fills them; the model
fills them with defaults. -/
def create_graph (num_nodes num_edges : ℕ) : Except error_code_t Graph :=
  if num_nodes ≤ 0 ∨ num_edges ≤ 0 then .error .ERR_INVALID_ARGUMENT
  else
    match create_node_hash_table (create_graph_hash_size num_nodes) with
    | .error e => .error e
    | .ok t =>
        .ok { nodes := List.replicate num_nodes default
              edges := List.replicate num_edges default
              adj_offsets := List.replicate (num_nodes + 1) 0
              adj_indices := List.replicate (2 * num_edges) 0
              node_hash := t }

/-- graph.c `find_node_index`: delegate to the hash lookup. -/
def find_node_index (g : Graph) (node_id : ℕ) : Except error_code_t ℤ :=
  lookup_node_hash g.node_hash node_id

/-- First pass of graph.c `build_csr_representation` (lines 234-258): per-node
degree counting.  An edge counts once for its `from` endpoint and again for
its `to` endpoint iff it is not one-way. -/
def csr_count (g : Graph) : List Edge → List ℕ → Except error_code_t (List ℕ)
  | [], degree => .ok degree
  | e :: rest, degree =>
    match find_node_index g e.from_node with
    | .error err => .error err
    | .ok from_index =>
      match find_node_index g e.to_node with
      | .error err => .error err
      | .ok to_index =>
        let degree :=
          if 0 ≤ from_index then
            degree.set from_index.toNat (degree.getD from_index.toNat 0 + 1)
          else degree
        let degree :=
          if ¬ e.one_way ∧ 0 ≤ to_index then
            degree.set to_index.toNat (degree.getD to_index.toNat 0 + 1)
          else degree
        csr_count g rest degree

/-- Second pass of graph.c `build_csr_representation` (lines 270-298): place
each edge index at `offsets[node] + cursor[node]`, bumping the cursor. -/
def csr_fill (g : Graph) :
    ℕ → List Edge → List ℕ → List ℕ → List ℕ → Except error_code_t (List ℕ × List ℕ)
  | _, [], _, indices, degree => .ok (indices, degree)
  | i, e :: rest, offsets, indices, degree =>
    match find_node_index g e.from_node with
    | .error err => .error err
    | .ok from_index =>
      match find_node_index g e.to_node with
      | .error err => .error err
      | .ok to_index =>
        let st :=
          if 0 ≤ from_index then
            let pos := offsets.getD from_index.toNat 0 + degree.getD from_index.toNat 0
            (indices.set pos i,
             degree.set from_index.toNat (degree.getD from_index.toNat 0 + 1))
          else (indices, degree)
        let st :=
          if ¬ e.one_way ∧ 0 ≤ to_index then
            let pos := offsets.getD to_index.toNat 0 + st.2.getD to_index.toNat 0
            (st.1.set pos i,
             st.2.set to_index.toNat (st.2.getD to_index.toNat 0 + 1))
          else st
        csr_fill g (i + 1) rest offsets st.1 st.2

/-- graph.c `build_csr_representation`: count degrees, prefix-sum them into
the offsets array, then scatter edge indices into `adj_indices`. -/
def build_csr_representation (g : Graph) : Except error_code_t Graph :=
  match csr_count g g.edges (List.replicate g.nodes.length 0) with
  | .error err => .error err
  | .ok degree =>
    let offsets := List.scanl (· + ·) 0 degree
    match csr_fill g 0 g.edges offsets g.adj_indices (List.replicate g.nodes.length 0) with
    | .error err => .error err
    | .ok (indices, _) => .ok { g with adj_offsets := offsets, adj_indices := indices }

/-- graph.c `get_adjacent_edges_csr`: bounds check, then the CSR range
`[offsets[v], offsets[v+1])`. -/
def get_adjacent_edges_csr (g : Graph) (node_index : ℤ) : Except error_code_t (ℕ × ℕ) :=
  if node_index < 0 ∨ (g.nodes.length : ℤ) ≤ node_index then .error .ERR_INVALID_ARGUMENT
  else .ok (g.adj_offsets.getD node_index.toNat 0, g.adj_offsets.getD (node_index.toNat + 1) 0)

/-- Loading a graph the way src/src/bin_loader.c does: `create_graph`, fill the
node and edge arrays, insert every node into the hash table with its array
index (`populate_node_hash_table`, index `i` for the `i`-th node), then
`build_csr_representation`. -/
def load_graph (nodes : List Node) (edges : List Edge) : Except error_code_t Graph :=
  match create_graph nodes.length edges.length with
  | .error e => .error e
  | .ok g0 =>
    let g1 : Graph := { g0 with nodes := nodes, edges := edges }
    match fill_hash g1 nodes 0 with
    | .error e => .error e
    | .ok g2 => build_csr_representation g2
where
  /-- bin_loader.c `populate_node_hash_table`: insert node `i` with index `i`. -/
  fill_hash : Graph → List Node → ℕ → Except error_code_t Graph
  | g, [], _ => .ok g
  | g, n :: rest, i =>
    match insert_node_hash g.node_hash n.node_id (i : ℤ) with
    | .error e => .error e
    | .ok t => fill_hash { g with node_hash := t } rest (i + 1)

/-- Heap entry (dijkstra.c `HeapNode`). -/
structure HeapNode where
  node_index : ℤ
  distance : Cost
  deriving DecidableEq, Repr

/-- Binary min-heap (dijkstra.c `MinHeap`); `size` is `nodes.length`. -/
structure MinHeap where
  nodes : List HeapNode
  capacity : ℕ
  deriving DecidableEq, Repr

/-- Array read of the heap's backing store. -/
def hget (l : List HeapNode) (i : ℕ) : HeapNode := l.getD i ⟨-1, ⊤⟩

/-- dijkstra.c `swap_heap_nodes` applied at two positions of the store. -/
def hswap (l : List HeapNode) (i j : ℕ) : List HeapNode :=
  (l.set i (hget l j)).set j (hget l i)

/-- Index (among `idx` and its in-range children) holding the smallest
distance, as computed by the two comparisons of dijkstra.c `min_heapify`. -/
def heapify_smallest (l : List HeapNode) (idx : ℕ) : ℕ :=
  let s1 :=
    if 2 * idx + 1 < l.length ∧ (hget l (2 * idx + 1)).distance < (hget l idx).distance
    then 2 * idx + 1 else idx
  if 2 * idx + 2 < l.length ∧ (hget l (2 * idx + 2)).distance < (hget l s1).distance
  then 2 * idx + 2 else s1

lemma heapify_smallest_cases (l : List HeapNode) (idx : ℕ) :
    heapify_smallest l idx = idx ∨
      (idx < heapify_smallest l idx ∧ heapify_smallest l idx < l.length) := by
  unfold heapify_smallest
  set s1 := if 2 * idx + 1 < l.length ∧ (hget l (2 * idx + 1)).distance < (hget l idx).distance
    then 2 * idx + 1 else idx with hs1
  have h1 : s1 = idx ∨ (idx < s1 ∧ s1 < l.length) := by
    rw [hs1]
    split
    · rename_i h
      exact Or.inr ⟨by omega, h.1⟩
    · exact Or.inl rfl
  dsimp only
  split
  · rename_i h
    exact Or.inr ⟨by omega, h.1⟩
  · exact h1

lemma hswap_length (l : List HeapNode) (i j : ℕ) : (hswap l i j).length = l.length := by
  simp [hswap]

/-- Sift-down loop with an explicit iteration bound (the bound is chosen so
that it never runs out; structural recursion keeps concrete heaps computable
by the kernel). -/
def min_heapify_fuel : ℕ → List HeapNode → ℕ → List HeapNode
  | 0, l, _ => l
  | fuel + 1, l, idx =>
    if heapify_smallest l idx = idx then l
    else min_heapify_fuel fuel (hswap l idx (heapify_smallest l idx)) (heapify_smallest l idx)

/-- dijkstra.c `min_heapify`: sift down from `idx` (the smallest-child index
strictly increases each swap, so `l.length` iterations always suffice). -/
def min_heapify (l : List HeapNode) (idx : ℕ) : List HeapNode :=
  min_heapify_fuel l.length l idx

lemma min_heapify_fuel_congr : ∀ (f1 f2 : ℕ) (l : List HeapNode) (idx : ℕ),
    l.length - idx ≤ f1 → l.length - idx ≤ f2 →
    min_heapify_fuel f1 l idx = min_heapify_fuel f2 l idx := by
  intro f1
  induction f1 with
  | zero =>
    intro f2 l idx h1 h2
    have hs : heapify_smallest l idx = idx := by
      rcases heapify_smallest_cases l idx with h | h
      · exact h
      · omega
    cases f2 with
    | zero => rfl
    | succ f2 =>
      show _ = if heapify_smallest l idx = idx then l else _
      rw [if_pos hs]
      rfl
  | succ f1 ih =>
    intro f2 l idx h1 h2
    rcases heapify_smallest_cases l idx with hs | hs
    · cases f2 with
      | zero =>
        show (if heapify_smallest l idx = idx then l else _) = _
        rw [if_pos hs]
        rfl
      | succ f2 =>
        show (if heapify_smallest l idx = idx then l else _) =
          if heapify_smallest l idx = idx then l else _
        rw [if_pos hs, if_pos hs]
    · have hne : ¬ heapify_smallest l idx = idx := by omega
      cases f2 with
      | zero => omega
      | succ f2 =>
        show (if heapify_smallest l idx = idx then l else _) =
          if heapify_smallest l idx = idx then l else _
        rw [if_neg hne, if_neg hne]
        exact ih f2 _ _ (by rw [hswap_length]; omega) (by rw [hswap_length]; omega)

/-- Unfolding equation of `min_heapify` (the recursion of dijkstra.c lines
121-134). -/
lemma min_heapify_eq (l : List HeapNode) (idx : ℕ) :
    min_heapify l idx =
      if heapify_smallest l idx = idx then l
      else min_heapify (hswap l idx (heapify_smallest l idx)) (heapify_smallest l idx) := by
  unfold min_heapify
  rcases heapify_smallest_cases l idx with hs | hs
  · cases hl : l.length with
    | zero =>
      rw [if_pos hs]
      rfl
    | succ n =>
      rw [if_pos hs]
      show (if heapify_smallest l idx = idx then l else _) = l
      rw [if_pos hs]
  · have hne : ¬ heapify_smallest l idx = idx := by omega
    rw [if_neg hne]
    have hlpos : 0 < l.length := by omega
    cases hl : l.length with
    | zero => omega
    | succ n =>
      show (if heapify_smallest l idx = idx then l else
        min_heapify_fuel n (hswap l idx (heapify_smallest l idx))
          (heapify_smallest l idx)) = _
      rw [if_neg hne]
      exact min_heapify_fuel_congr n _ _ _
        (by rw [hswap_length]; omega) (by rw [hswap_length]; omega)

/-- Sift-up loop with an explicit iteration bound (the index `i` strictly
decreases each swap, so `i` iterations always suffice). -/
def sift_up_fuel : ℕ → List HeapNode → ℕ → List HeapNode
  | 0, l, _ => l
  | fuel + 1, l, i =>
    if i ≠ 0 ∧ (hget l i).distance < (hget l ((i - 1) / 2)).distance then
      sift_up_fuel fuel (hswap l i ((i - 1) / 2)) ((i - 1) / 2)
    else l

/-- Sift-up loop of dijkstra.c `insert_heap` (lines 162-165). -/
def sift_up (l : List HeapNode) (i : ℕ) : List HeapNode := sift_up_fuel i l i

lemma sift_up_fuel_congr : ∀ (f1 f2 : ℕ) (l : List HeapNode) (i : ℕ),
    i ≤ f1 → i ≤ f2 → sift_up_fuel f1 l i = sift_up_fuel f2 l i := by
  intro f1
  induction f1 with
  | zero =>
    intro f2 l i h1 h2
    have hi : i = 0 := by omega
    subst hi
    cases f2 with
    | zero => rfl
    | succ f2 =>
      show _ = if (0 : ℕ) ≠ 0 ∧ _ then _ else l
      rw [if_neg (by simp)]
      rfl
  | succ f1 ih =>
    intro f2 l i h1 h2
    cases f2 with
    | zero =>
      have hi : i = 0 := by omega
      subst hi
      show (if (0 : ℕ) ≠ 0 ∧ _ then _ else l) = _
      rw [if_neg (by simp)]
      rfl
    | succ f2 =>
      show (if i ≠ 0 ∧ _ then _ else l) = if i ≠ 0 ∧ _ then _ else l
      split
      · rename_i hc
        exact ih f2 _ _ (by omega) (by omega)
      · rfl

/-- Unfolding equation of `sift_up` (the recursion of dijkstra.c lines
162-165). -/
lemma sift_up_eq (l : List HeapNode) (i : ℕ) :
    sift_up l i =
      if i ≠ 0 ∧ (hget l i).distance < (hget l ((i - 1) / 2)).distance then
        sift_up (hswap l i ((i - 1) / 2)) ((i - 1) / 2)
      else l := by
  unfold sift_up
  cases hi : i with
  | zero =>
    rw [if_neg (by simp)]
    rfl
  | succ n =>
    show (if n + 1 ≠ 0 ∧ _ then sift_up_fuel n _ _ else l) = _
    split
    · rename_i hc
      exact sift_up_fuel_congr n ((n + 1 - 1) / 2) _ _ (by omega) (le_refl _)
    · rfl

/-- dijkstra.c `create_heap`: capacity check, empty store. -/
def create_heap (capacity : ℕ) : Except error_code_t MinHeap :=
  if capacity ≤ 0 then .error .ERR_INVALID_ARGUMENT
  else .ok { nodes := [], capacity := capacity }

/-- dijkstra.c `insert_heap`: fail with `ERR_MEMORY_ALLOCATION` when full,
otherwise append and sift up. -/
def insert_heap (h : MinHeap) (node_index : ℤ) (distance : Cost) :
    Except error_code_t MinHeap :=
  if h.capacity ≤ h.nodes.length then .error .ERR_MEMORY_ALLOCATION
  else .ok { h with nodes := sift_up (h.nodes ++ [⟨node_index, distance⟩]) h.nodes.length }

/-- dijkstra.c `extract_min`: on an empty heap return the sentinel
`(-1, INFINITY_DBL)`; otherwise pop the root, move the last element to the
root and sift down. -/
def extract_min (h : MinHeap) : HeapNode × MinHeap :=
  match hn : h.nodes with
  | [] => (⟨-1, ⊤⟩, h)
  | [x] => (x, { h with nodes := [] })
  | x :: _ :: _ =>
    let last := hget h.nodes (h.nodes.length - 1)
    (x, { h with nodes := min_heapify ((h.nodes.set 0 last).dropLast) 0 })

/-- Solver mode (dijkstra.h `DijkstraMode`). -/
inductive DijkstraMode where
  | DIJKSTRA_SHORTEST_DISTANCE
  | DIJKSTRA_FASTEST_TIME
  deriving DecidableEq, Repr

/-- Result record (dijkstra.h `DijkstraResult`). -/
structure DijkstraResult where
  distances : List Cost
  predecessors : List ℤ
  visited : List Bool
  source_index : ℤ
  target_index : ℤ
  num_nodes : ℕ
  target_found : Bool
  deriving DecidableEq, Repr

/-- Read of a C `double` array through an `int` index. -/
def dGet (l : List Cost) (i : ℤ) : Cost :=
  if 0 ≤ i then l.getD i.toNat ⊤ else ⊤

/-- Read of a C `int` array through an `int` index. -/
def pGet (l : List ℤ) (i : ℤ) : ℤ :=
  if 0 ≤ i then l.getD i.toNat (-1) else -1

/-- Read of a C `bool` array through an `int` index. -/
def vGet (l : List Bool) (i : ℤ) : Bool :=
  if 0 ≤ i then l.getD i.toNat true else true

/-- Write of a C array through an `int` index. -/
def lSet {α : Type} (l : List α) (i : ℤ) (x : α) : List α :=
  if 0 ≤ i then l.set i.toNat x else l

/-- Mutable state of a running solve: the three result arrays, the heap and
the `target_found` flag. -/
structure DState where
  distances : List Cost
  predecessors : List ℤ
  visited : List Bool
  heap : MinHeap
  target_found : Bool
  deriving DecidableEq, Repr

/-- Cost of one edge under a mode, as computed by dijkstra.c lines 358-362:
`(length / 1000) / speed_limit * 60` in Time mode, `length` in Distance
mode.  (In Time mode the solver rejects `speed_limit = 0` before ever
evaluating this formula.) -/
def edge_cost (mode : DijkstraMode) (e : Edge) : ℚ :=
  match mode with
  | .DIJKSTRA_FASTEST_TIME => (e.length : ℚ) / 1000 / (e.speed_limit : ℚ) * 60
  | .DIJKSTRA_SHORTEST_DISTANCE => (e.length : ℚ)

/-- Relaxation update of dijkstra.c lines 366-375: on improvement set the
distance and predecessor and push the neighbor. -/
def relax_update (st : DState) (neighbor current_index : ℤ) (new_distance : Cost) :
    Except error_code_t DState :=
  if new_distance < dGet st.distances neighbor then
    match insert_heap st.heap neighbor new_distance with
    | .error e => .error e
    | .ok heap' =>
        .ok { st with
              distances := lSet st.distances neighbor new_distance,
              predecessors := lSet st.predecessors neighbor current_index,
              heap := heap' }
  else .ok st

/-- Neighbor determination of dijkstra.c lines 322-342: the edge's other
endpoint if it may be traversed from `current_index`, and the `-1` sentinel
otherwise (one-way edge taken backwards, or an edge not incident to the
current node). -/
def edge_neighbor (from_index to_index current_index : ℤ) (one_way : Bool) : ℤ :=
  if from_index = current_index then to_index
  else if to_index = current_index ∧ ¬ one_way then from_index
  else -1

/-- Body of the adjacency loop of dijkstra.c lines 318-376 for one edge index:
resolve the endpoints, determine the neighbor, skip visited or out-of-range
neighbors, compute the tentative distance (failing with `ERR_INVALID_DATA`
on a zero speed limit in Time mode), and relax. -/
def relax_edge (g : Graph) (mode : DijkstraMode) (current_index : ℤ) (edge_idx : ℕ)
    (st : DState) : Except error_code_t DState :=
  match find_node_index g (g.edges.getD edge_idx default).from_node with
  | .error e => .error e
  | .ok from_index =>
    match find_node_index g (g.edges.getD edge_idx default).to_node with
    | .error e => .error e
    | .ok to_index =>
      if edge_neighbor from_index to_index current_index
            (g.edges.getD edge_idx default).one_way = -1 ∨
          edge_neighbor from_index to_index current_index
            (g.edges.getD edge_idx default).one_way < 0 ∨
          (g.nodes.length : ℤ) ≤
            edge_neighbor from_index to_index current_index
              (g.edges.getD edge_idx default).one_way then .ok st
      else if vGet st.visited (edge_neighbor from_index to_index current_index
          (g.edges.getD edge_idx default).one_way) then .ok st
      else
        match mode with
        | .DIJKSTRA_FASTEST_TIME =>
          if (g.edges.getD edge_idx default).speed_limit ≤ 0 then .error .ERR_INVALID_DATA
          else
            relax_update st
              (edge_neighbor from_index to_index current_index
                (g.edges.getD edge_idx default).one_way) current_index
              (dGet st.distances current_index +
                (edge_cost mode (g.edges.getD edge_idx default) : Cost))
        | .DIJKSTRA_SHORTEST_DISTANCE =>
          relax_update st
            (edge_neighbor from_index to_index current_index
              (g.edges.getD edge_idx default).one_way) current_index
            (dGet st.distances current_index +
              (edge_cost mode (g.edges.getD edge_idx default) : Cost))

/-- The adjacency loop over a list of edge indices. -/
def relax_edges (g : Graph) (mode : DijkstraMode) (current_index : ℤ) :
    List ℕ → DState → Except error_code_t DState
  | [], st => .ok st
  | ei :: rest, st =>
    match relax_edge g mode current_index ei st with
    | .error e => .error e
    | .ok st' => relax_edges g mode current_index rest st'

/-- The slice `adj_indices[s .. e)` iterated by the adjacency loop. -/
def adj_slice (g : Graph) (s e : ℕ) : List ℕ := (g.adj_indices.drop s).take (e - s)

/-- Main loop of dijkstra.c `dijkstra_shortest_path` (lines 288-377), with a
fuel parameter standing in for the C `while`: the fuel passed by
`dijkstra_shortest_path` provably dominates the loop's iteration count, so
the `none` (out-of-fuel) value never arises there. -/
def dijkstra_loop (g : Graph) (mode : DijkstraMode) (target_index : ℤ) :
    ℕ → DState → Option (Except error_code_t DState)
  | 0, _ => none
  | fuel + 1, st =>
    if st.heap.nodes = [] then some (.ok st)
    else
      let mh := extract_min st.heap
      let st1 : DState := { st with heap := mh.2 }
      let current_index := mh.1.node_index
      if vGet st1.visited current_index then dijkstra_loop g mode target_index fuel st1
      else
        let st2 : DState := { st1 with visited := lSet st1.visited current_index true }
        if current_index = target_index then some (.ok { st2 with target_found := true })
        else
          match get_adjacent_edges_csr g current_index with
          | .error e => some (.error e)
          | .ok (start_idx, end_idx) =>
            match relax_edges g mode current_index (adj_slice g start_idx end_idx) st2 with
            | .error e => some (.error e)
            | .ok st3 => dijkstra_loop g mode target_index fuel st3

/-- Fuel bound for the main loop: each iteration strictly decreases
`unvisited-count * (adj_indices.length + 1) + heap size`
(see `dijkstra_loop_isSome`). -/
def dijkstra_fuel (g : Graph) : ℕ :=
  g.nodes.length * (g.adj_indices.length + 1) + 2

/-- dijkstra.c `dijkstra_shortest_path`: argument checks, id resolution, array
initialisation, heap creation (capacity `num_nodes`), initial push of the
source at distance 0, then the main loop. -/
def dijkstra_shortest_path (g : Graph) (source_node_id target_node_id : ℕ)
    (mode : DijkstraMode) : Except error_code_t DijkstraResult :=
  if mode ≠ .DIJKSTRA_SHORTEST_DISTANCE ∧ mode ≠ .DIJKSTRA_FASTEST_TIME then
    .error .ERR_INVALID_ARGUMENT
  else if source_node_id = target_node_id then .error .ERR_INVALID_ARGUMENT
  else
    match find_node_index g source_node_id with
    | .error e => .error e
    | .ok source_index =>
      match find_node_index g target_node_id with
      | .error e => .error e
      | .ok target_index =>
        let distances := lSet (List.replicate g.nodes.length (⊤ : Cost)) source_index 0
        let predecessors := List.replicate g.nodes.length (-1 : ℤ)
        let visited := List.replicate g.nodes.length false
        match create_heap g.nodes.length with
        | .error e => .error e
        | .ok heap0 =>
          match insert_heap heap0 source_index 0 with
          | .error e => .error e
          | .ok heap1 =>
            let st0 : DState := ⟨distances, predecessors, visited, heap1, false⟩
            match dijkstra_loop g mode target_index (dijkstra_fuel g) st0 with
            | none => .error .ERR_UNKNOWN
            | some (.error e) => .error e
            | some (.ok st') =>
              .ok { distances := st'.distances
                    predecessors := st'.predecessors
                    visited := st'.visited
                    source_index := source_index
                    target_index := target_index
                    num_nodes := g.nodes.length
                    target_found := st'.target_found }

/-- dijkstra.c `get_shortest_distance`: `INFINITY_DBL` when the target was not
found, else `distances[target_index]`. -/
def get_shortest_distance (result : DijkstraResult) : Except error_code_t Cost :=
  if result.target_found = false then .ok ⊤
  else .ok (dGet result.distances result.target_index)

/-- Backtracking loop of dijkstra.c `get_shortest_path` (lines 421-449),
walking predecessors from the target and accumulating the path in
source-to-target order.  The fuel stands in for the C `while`; on a result
produced by a successful solve the predecessor chain reaches the source in
at most `num_nodes` steps (distances strictly decrease along it). -/
def path_backtrack (result : DijkstraResult) :
    ℕ → ℤ → List ℤ → Option (Except error_code_t (List ℤ))
  | fuel, current, acc =>
    if current = result.source_index then some (.ok (current :: acc))
    else
      match fuel with
      | 0 => none
      | fuel + 1 =>
        let nxt := pGet result.predecessors current
        if nxt = -1 then some (.error .ERR_NOT_FOUND)
        else path_backtrack result fuel nxt (current :: acc)

/-- Outcome of `get_shortest_path`: the returned code, the value stored in
`*path_length`, and the path array (empty on failure, when C leaves it
unallocated). -/
structure PathResult where
  code : error_code_t
  path_length : ℕ
  path : List ℤ
  deriving DecidableEq, Repr

/-- dijkstra.c `get_shortest_path`: `ERR_NOT_FOUND` with `*path_length = 0`
when the target was not found or a `-1` predecessor is hit before the
source; otherwise the source-to-target index sequence and its length. -/
def get_shortest_path (result : DijkstraResult) : PathResult :=
  if result.target_found = false then ⟨.ERR_NOT_FOUND, 0, []⟩
  else
    match path_backtrack result (result.num_nodes + 1) result.target_index [] with
    | none => ⟨.ERR_UNKNOWN, 0, []⟩
    | some (.error e) => ⟨e, 0, []⟩
    | some (.ok p) => ⟨.ERR_SUCCESS, p.length, p⟩

/-! ### Heap access lemmas -/

lemma hget_eq_getElem? (l : List HeapNode) (i : ℕ) : hget l i = (l[i]?).getD ⟨-1, ⊤⟩ :=
  List.getD_eq_getElem?_getD l i _

lemma hget_set_self {l : List HeapNode} {i : ℕ} (x : HeapNode) (h : i < l.length) :
    hget (l.set i x) i = x := by
  rw [hget_eq_getElem?, List.getElem?_set_eq_of_lt x h]
  rfl

lemma hget_set_ne {l : List HeapNode} {i j : ℕ} (x : HeapNode) (h : i ≠ j) :
    hget (l.set i x) j = hget l j := by
  rw [hget_eq_getElem?, List.getElem?_set_ne h, ← hget_eq_getElem?]

lemma hget_append_lt {l : List HeapNode} {i : ℕ} (x : HeapNode) (h : i < l.length) :
    hget (l ++ [x]) i = hget l i := by
  rw [hget_eq_getElem?, List.getElem?_append_left h, ← hget_eq_getElem?]

lemma hget_append_len (l : List HeapNode) (x : HeapNode) :
    hget (l ++ [x]) l.length = x := by
  rw [hget_eq_getElem?]
  simp

lemma hget_of_lt {l : List HeapNode} {i : ℕ} (h : i < l.length) :
    hget l i = l.get ⟨i, h⟩ := by
  rw [hget_eq_getElem?, List.getElem?_eq_getElem h]
  rfl

lemma hget_mem {l : List HeapNode} {i : ℕ} (h : i < l.length) : hget l i ∈ l := by
  rw [hget_of_lt h]
  exact List.get_mem l i h

lemma hswap_get_left {l : List HeapNode} {i j : ℕ} (hi : i < l.length) (hj : j < l.length) :
    hget (hswap l i j) i = if i = j then hget l i else hget l j := by
  by_cases h : i = j
  · subst h
    rw [if_pos rfl]
    unfold hswap
    rw [hget_set_self _ (by simpa using hi)]
  · rw [if_neg h]
    unfold hswap
    rw [hget_set_ne _ (Ne.symm h), hget_set_self _ hi]

lemma hswap_get_right {l : List HeapNode} {i j : ℕ} (hj : j < l.length) :
    hget (hswap l i j) j = hget l i := by
  unfold hswap
  rw [hget_set_self _ (by simpa using hj)]

lemma hswap_get_other {l : List HeapNode} {i j k : ℕ} (h1 : k ≠ i) (h2 : k ≠ j) :
    hget (hswap l i j) k = hget l k := by
  unfold hswap
  rw [hget_set_ne _ (Ne.symm h2), hget_set_ne _ (Ne.symm h1)]

lemma hswap_get_left' {l : List HeapNode} {i j : ℕ} (hi : i < l.length) (hj : j < l.length) :
    hget (hswap l i j) i = hget l j := by
  rw [hswap_get_left hi hj]
  split
  · rename_i h; rw [h]
  · rfl

lemma hget_eq_getElem {l : List HeapNode} {n : ℕ} (h : n < l.length) : hget l n = l[n] := by
  rw [hget_eq_getElem?, List.getElem?_eq_getElem h]
  rfl

lemma mem_hswap {l : List HeapNode} {i j : ℕ} (hi : i < l.length) (hj : j < l.length)
    (x : HeapNode) : x ∈ hswap l i j ↔ x ∈ l := by
  have hlen : (hswap l i j).length = l.length := hswap_length l i j
  constructor
  · intro hx
    obtain ⟨n, hn, he⟩ := List.mem_iff_getElem.mp hx
    rw [← hget_eq_getElem hn] at he
    by_cases h1 : n = i
    · rw [h1, hswap_get_left' hi hj] at he
      exact he ▸ hget_mem hj
    · by_cases h2 : n = j
      · rw [h2, hswap_get_right hj] at he
        exact he ▸ hget_mem hi
      · rw [hswap_get_other h1 h2] at he
        exact he ▸ hget_mem (hlen ▸ hn)
  · intro hx
    obtain ⟨n, hn, he⟩ := List.mem_iff_getElem.mp hx
    rw [← hget_eq_getElem hn] at he
    by_cases h1 : n = i
    · have hx2 : hget (hswap l i j) j = x := by
        rw [hswap_get_right hj, ← h1]; exact he
      exact hx2 ▸ hget_mem (hlen ▸ hj)
    · by_cases h2 : n = j
      · have hx2 : hget (hswap l i j) i = x := by
          rw [hswap_get_left' hi hj, ← h2]; exact he
        exact hx2 ▸ hget_mem (hlen ▸ hi)
      · have hx2 : hget (hswap l i j) n = x := by
          rw [hswap_get_other h1 h2]; exact he
        exact hx2 ▸ hget_mem (hlen ▸ hn)

/-! ### Heap property -/

/-- The binary min-heap invariant on the backing store: every non-root element
is at least its parent. -/
def HeapProp (l : List HeapNode) : Prop :=
  ∀ j, j < l.length → 0 < j → (hget l ((j - 1) / 2)).distance ≤ (hget l j).distance

lemma heapProp_nil : HeapProp [] := by
  intro j hj
  simp at hj

lemma heapProp_singleton (x : HeapNode) : HeapProp [x] := by
  intro j hj hj0
  simp only [List.length_singleton] at hj
  omega

/-- In a heap the root is minimal. -/
lemma heapProp_root_le (l : List HeapNode) (hp : HeapProp l) :
    ∀ j, j < l.length → (hget l 0).distance ≤ (hget l j).distance := by
  intro j
  induction j using Nat.strong_induction_on with
  | _ j ih =>
    intro hj
    rcases Nat.eq_zero_or_pos j with h0 | h0
    · subst h0; exact le_refl _
    · exact le_trans (ih ((j - 1) / 2) (by omega) (by omega)) (hp j hj h0)

lemma heapProp_min (l : List HeapNode) (hp : HeapProp l) :
    ∀ x ∈ l, (hget l 0).distance ≤ x.distance := by
  intro x hx
  obtain ⟨n, hn, he⟩ := List.mem_iff_getElem.mp hx
  rw [← List.getD_eq_getElem _ ⟨-1, ⊤⟩ hn] at he
  exact he ▸ heapProp_root_le l hp n hn

/-! ### Sift-up correctness -/

/-- Heap property everywhere except possibly on the edge from `i`'s parent
to `i`. -/
def UpInv (l : List HeapNode) (i : ℕ) : Prop :=
  ∀ j, j < l.length → 0 < j → j ≠ i →
    (hget l ((j - 1) / 2)).distance ≤ (hget l j).distance

/-- The children of `i` are at least `i`'s parent. -/
def GrandInv (l : List HeapNode) (i : ℕ) : Prop :=
  0 < i → ∀ j, j < l.length → (j - 1) / 2 = i →
    (hget l ((i - 1) / 2)).distance ≤ (hget l j).distance

lemma hget_out_of_range {l : List HeapNode} {i : ℕ} (h : l.length ≤ i) :
    hget l i = ⟨-1, ⊤⟩ := by
  rw [hget_eq_getElem?, List.getElem?_eq_none h]
  rfl

lemma sift_up_heapProp (i : ℕ) :
    ∀ l, UpInv l i → GrandInv l i → HeapProp (sift_up l i) := by
  induction i using Nat.strong_induction_on with
  | _ i ih =>
    intro l hup hgrand
    rw [sift_up_eq]
    split
    · rename_i hcond
      obtain ⟨hi0, hlt⟩ := hcond
      have hi : i < l.length := by
        by_contra hge
        push_neg at hge
        rw [hget_out_of_range hge] at hlt
        exact absurd hlt (by simp)
      have hpi : (i - 1) / 2 < l.length := lt_of_le_of_lt (by omega) hi
      have hpi_lt : (i - 1) / 2 < i := by omega
      have hlen : (hswap l i ((i - 1) / 2)).length = l.length := hswap_length _ _ _
      have hl'_i : hget (hswap l i ((i - 1) / 2)) i = hget l ((i - 1) / 2) :=
        hswap_get_left' hi hpi
      have hl'_p : hget (hswap l i ((i - 1) / 2)) ((i - 1) / 2) = hget l i :=
        hswap_get_right hpi
      have hl'_o : ∀ k, k ≠ i → k ≠ (i - 1) / 2 →
          hget (hswap l i ((i - 1) / 2)) k = hget l k := fun k h1 h2 =>
        hswap_get_other h1 h2
      apply ih ((i - 1) / 2) hpi_lt
      · -- UpInv of the swapped list at the parent position
        intro j hj hj0 hjp
        rw [hlen] at hj
        by_cases hji : j = i
        · subst hji
          rw [hl'_i, hl'_p]
          exact le_of_lt hlt
        · have hlj : hget (hswap l i ((i - 1) / 2)) j = hget l j := hl'_o j hji hjp
          by_cases hpj_i : (j - 1) / 2 = i
          · rw [hpj_i, hl'_i, hlj]
            exact hgrand (by omega) j hj hpj_i
          · by_cases hpj_p : (j - 1) / 2 = (i - 1) / 2
            · rw [hpj_p, hl'_p, hlj]
              exact le_trans (le_of_lt hlt) (hpj_p ▸ hup j hj hj0 hji)
            · rw [hl'_o _ hpj_i hpj_p, hlj]
              exact hup j hj hj0 hji
      · -- GrandInv of the swapped list at the parent position
        intro hp0 j hj hpj
        rw [hlen] at hj
        have hpp : ((i - 1) / 2 - 1) / 2 ≠ i := by omega
        have hpp' : ((i - 1) / 2 - 1) / 2 ≠ (i - 1) / 2 := by omega
        rw [hl'_o _ hpp hpp']
        by_cases hji : j = i
        · rw [hji, hl'_i]
          exact hup ((i - 1) / 2) hpi hp0 (by omega)
        · have hjp : j ≠ (i - 1) / 2 := by omega
          rw [hl'_o j hji hjp]
          exact le_trans (hup ((i - 1) / 2) hpi hp0 (by omega))
            (hpj ▸ hup j hj (by omega) hji)
    · rename_i hcond
      intro j hj hj0
      by_cases hji : j = i
      · subst hji
        rcases not_and_or.mp hcond with h | h
        · omega
        · exact le_of_not_lt h
      · exact hup j hj hj0 hji

lemma sift_up_length (i : ℕ) : ∀ l : List HeapNode, (sift_up l i).length = l.length := by
  induction i using Nat.strong_induction_on with
  | _ i ih =>
    intro l
    rw [sift_up_eq]
    split
    · rename_i hcond
      rw [ih ((i - 1) / 2) (by omega), hswap_length]
    · rfl

lemma mem_sift_up (i : ℕ) :
    ∀ (l : List HeapNode) (x : HeapNode), x ∈ sift_up l i ↔ x ∈ l := by
  induction i using Nat.strong_induction_on with
  | _ i ih =>
    intro l x
    rw [sift_up_eq]
    split
    · rename_i hcond
      obtain ⟨hi0, hlt⟩ := hcond
      have hi : i < l.length := by
        by_contra hge
        push_neg at hge
        rw [hget_out_of_range hge] at hlt
        exact absurd hlt (by simp)
      have hpi : (i - 1) / 2 < l.length := lt_of_le_of_lt (by omega) hi
      rw [ih ((i - 1) / 2) (by omega), mem_hswap hi hpi]
    · exact Iff.rfl

/-- Effect of a successful `insert_heap`. -/
lemma insert_heap_ok {h : MinHeap} {v : ℤ} {d : Cost} {h' : MinHeap}
    (hins : insert_heap h v d = .ok h') :
    h'.nodes.length = h.nodes.length + 1 ∧ h'.capacity = h.capacity ∧
      (∀ y, y ∈ h'.nodes ↔ y ∈ h.nodes ∨ y = ⟨v, d⟩) ∧
      (HeapProp h.nodes → HeapProp h'.nodes) := by
  unfold insert_heap at hins
  split at hins
  · exact absurd hins (by simp)
  · rename_i hcap
    have hh' : h' = { h with nodes := sift_up (h.nodes ++ [⟨v, d⟩]) h.nodes.length } := by
      cases hins; rfl
    subst hh'
    refine ⟨?_, rfl, ?_, ?_⟩
    · rw [sift_up_length]
      simp
    · intro y
      rw [mem_sift_up]
      simp
    · intro hp
      apply sift_up_heapProp
      · intro j hj hj0 hjn
        simp only [List.length_append, List.length_singleton] at hj
        have hjlen : j < h.nodes.length := by omega
        rw [hget_append_lt _ hjlen, hget_append_lt _ (by omega)]
        exact hp j hjlen hj0
      · intro h0 j hj hpj
        simp only [List.length_append, List.length_singleton] at hj
        omega

/-- `insert_heap` fails (with `ERR_MEMORY_ALLOCATION`) iff the heap is full. -/
lemma insert_heap_error {h : MinHeap} {v : ℤ} {d : Cost} {e : error_code_t}
    (hins : insert_heap h v d = .error e) :
    e = .ERR_MEMORY_ALLOCATION ∧ h.capacity ≤ h.nodes.length := by
  unfold insert_heap at hins
  split at hins
  · cases hins
    constructor
    · rfl
    · assumption
  · exact absurd hins (by simp)

/-! ### Sift-down correctness -/

lemma heapify_smallest_le_idx (l : List HeapNode) (idx : ℕ) :
    (hget l (heapify_smallest l idx)).distance ≤ (hget l idx).distance := by
  unfold heapify_smallest
  set s1 := if 2 * idx + 1 < l.length ∧ (hget l (2 * idx + 1)).distance < (hget l idx).distance
    then 2 * idx + 1 else idx with hs1
  have key1 : (hget l s1).distance ≤ (hget l idx).distance := by
    rw [hs1]
    split
    · rename_i h1
      exact le_of_lt h1.2
    · exact le_refl _
  dsimp only
  split
  · rename_i h2
    exact le_trans (le_of_lt h2.2) key1
  · exact key1

lemma heapify_smallest_le_child (l : List HeapNode) (idx j : ℕ)
    (hj : j = 2 * idx + 1 ∨ j = 2 * idx + 2) (hjl : j < l.length) :
    (hget l (heapify_smallest l idx)).distance ≤ (hget l j).distance := by
  unfold heapify_smallest
  set s1 := if 2 * idx + 1 < l.length ∧ (hget l (2 * idx + 1)).distance < (hget l idx).distance
    then 2 * idx + 1 else idx with hs1
  have key2 : 2 * idx + 1 < l.length →
      (hget l s1).distance ≤ (hget l (2 * idx + 1)).distance := by
    intro hlen1
    rw [hs1]
    split
    · exact le_refl _
    · rename_i h1
      rw [not_and_or] at h1
      rcases h1 with h1 | h1
      · exact absurd hlen1 h1
      · exact le_of_not_lt h1
  dsimp only
  rcases hj with hj | hj
  · subst hj
    split
    · rename_i h2
      exact le_trans (le_of_lt h2.2) (key2 hjl)
    · exact key2 hjl
  · subst hj
    split
    · exact le_refl _
    · rename_i h2
      rw [not_and_or] at h2
      rcases h2 with h2 | h2
      · exact absurd hjl h2
      · exact le_of_not_lt h2

lemma heapify_smallest_mem (l : List HeapNode) (idx : ℕ) :
    heapify_smallest l idx = idx ∨ heapify_smallest l idx = 2 * idx + 1 ∨
      heapify_smallest l idx = 2 * idx + 2 := by
  unfold heapify_smallest
  set s1 := if 2 * idx + 1 < l.length ∧ (hget l (2 * idx + 1)).distance < (hget l idx).distance
    then 2 * idx + 1 else idx with hs1
  have h1 : s1 = idx ∨ s1 = 2 * idx + 1 := by
    rw [hs1]
    split
    · exact Or.inr rfl
    · exact Or.inl rfl
  dsimp only
  split
  · right; right; rfl
  · rcases h1 with h | h
    · exact Or.inl h
    · exact Or.inr (Or.inl h)

lemma min_heapify_go (n : ℕ) :
    ∀ l idx, l.length - idx ≤ n →
      (∀ j, j < l.length → 0 < j → (j - 1) / 2 ≠ idx →
        (hget l ((j - 1) / 2)).distance ≤ (hget l j).distance) →
      GrandInv l idx →
      HeapProp (min_heapify l idx) ∧ (min_heapify l idx).length = l.length ∧
        (∀ x, x ∈ min_heapify l idx ↔ x ∈ l) := by
  induction n with
  | zero =>
    intro l idx hn hdown hgrand
    rw [min_heapify_eq]
    rcases heapify_smallest_cases l idx with hs | hs
    · rw [if_pos hs]
      refine ⟨?_, rfl, fun x => Iff.rfl⟩
      intro j hj hj0
      by_cases hpj : (j - 1) / 2 = idx
      · have hj' : j = 2 * idx + 1 ∨ j = 2 * idx + 2 := by omega
        rw [hpj, ← hs]
        exact heapify_smallest_le_child l idx j hj' hj
      · exact hdown j hj hj0 hpj
    · omega
  | succ n ih =>
    intro l idx hn hdown hgrand
    rw [min_heapify_eq]
    rcases heapify_smallest_cases l idx with hs | hs
    · rw [if_pos hs]
      refine ⟨?_, rfl, fun x => Iff.rfl⟩
      intro j hj hj0
      by_cases hpj : (j - 1) / 2 = idx
      · have hj' : j = 2 * idx + 1 ∨ j = 2 * idx + 2 := by omega
        rw [hpj, ← hs]
        exact heapify_smallest_le_child l idx j hj' hj
      · exact hdown j hj hj0 hpj
    · obtain ⟨hlt, hsl⟩ := hs
      have hne : ¬ heapify_smallest l idx = idx := by omega
      rw [if_neg hne]
      set s := heapify_smallest l idx with hs_def
      have hidx : idx < l.length := lt_trans hlt hsl
      have hchild : s = 2 * idx + 1 ∨ s = 2 * idx + 2 := by
        rcases heapify_smallest_mem l idx with h | h
        · exact absurd (hs_def.trans h) (by omega)
        · rw [hs_def]
          exact h
      have hps : (s - 1) / 2 = idx := by omega
      have hlen : (hswap l idx s).length = l.length := hswap_length _ _ _
      have hl'_idx : hget (hswap l idx s) idx = hget l s := hswap_get_left' hidx hsl
      have hl'_s : hget (hswap l idx s) s = hget l idx := hswap_get_right hsl
      have hl'_o : ∀ k, k ≠ idx → k ≠ s → hget (hswap l idx s) k = hget l k :=
        fun k h1 h2 => hswap_get_other h1 h2
      have hrec := ih (hswap l idx s) s (by omega) ?_ ?_
      · refine ⟨hrec.1, ?_, ?_⟩
        · rw [hrec.2.1, hlen]
        · intro x
          rw [hrec.2.2 x, mem_hswap hidx hsl]
      · -- the down invariant for the swapped list at s
        intro j hj hj0 hpj
        rw [hlen] at hj
        by_cases hji : j = idx
        · rcases Nat.eq_zero_or_pos idx with h0 | h0
          · omega
          · have hpp1 : (idx - 1) / 2 ≠ idx := by omega
            have hpp2 : (idx - 1) / 2 ≠ s := by omega
            rw [hji, hl'_idx, hl'_o _ hpp1 hpp2]
            exact hgrand h0 s hsl hps
        · by_cases hjs : j = s
          · rw [hjs, hps, hl'_idx, hl'_s]
            exact heapify_smallest_le_idx l idx
          · rw [hl'_o j hji hjs]
            by_cases hpj_idx : (j - 1) / 2 = idx
            · have hj' : j = 2 * idx + 1 ∨ j = 2 * idx + 2 := by omega
              rw [hpj_idx, hl'_idx]
              exact heapify_smallest_le_child l idx j hj' hj
            · have hpj_s : (j - 1) / 2 ≠ s := hpj
              have hpj_ne : (j - 1) / 2 ≠ idx := hpj_idx
              rw [hl'_o _ hpj_ne hpj_s]
              exact hdown j hj hj0 hpj_idx
      · -- the grand invariant for the swapped list at s
        intro h0 j hj hpj
        rw [hlen] at hj
        have hjs : j ≠ s := by omega
        have hji : j ≠ idx := by omega
        rw [hps, hl'_idx, hl'_o j hji hjs]
        have hd := hdown j hj (by omega) (by omega)
        rw [hpj] at hd
        exact hd

/-- Full specification of `min_heapify` from the root with an almost-heap
input. -/
lemma min_heapify_spec (l : List HeapNode)
    (hdown : ∀ j, j < l.length → 0 < j → (j - 1) / 2 ≠ 0 →
      (hget l ((j - 1) / 2)).distance ≤ (hget l j).distance) :
    HeapProp (min_heapify l 0) ∧ (min_heapify l 0).length = l.length ∧
      (∀ x, x ∈ min_heapify l 0 ↔ x ∈ l) :=
  min_heapify_go l.length l 0 (by omega) hdown (by intro h; omega)

/-! ### Extraction correctness -/

/-- The interior list handed to `min_heapify` by `extract_min`. -/
lemma extract_shrunk_facts (l : List HeapNode) (hlen : 2 ≤ l.length) :
    ((l.set 0 (hget l (l.length - 1))).dropLast).length = l.length - 1 ∧
      hget ((l.set 0 (hget l (l.length - 1))).dropLast) 0 = hget l (l.length - 1) ∧
      (∀ k, 0 < k → k < l.length - 1 →
        hget ((l.set 0 (hget l (l.length - 1))).dropLast) k = hget l k) := by
  have hset_len : (l.set 0 (hget l (l.length - 1))).length = l.length := by simp
  have hd_len : ((l.set 0 (hget l (l.length - 1))).dropLast).length = l.length - 1 := by
    rw [List.length_dropLast, hset_len]
  refine ⟨hd_len, ?_, ?_⟩
  · rw [hget_eq_getElem (by omega)]
    rw [List.getElem_dropLast]
    have h0 : (0 : ℕ) < (l.set 0 (hget l (l.length - 1))).length := by omega
    rw [← hget_eq_getElem h0, hget_set_self _ (by omega)]
  · intro k hk0 hklt
    rw [hget_eq_getElem (by omega), List.getElem_dropLast,
      ← hget_eq_getElem (show k < (l.set 0 (hget l (l.length - 1))).length by omega),
      hget_set_ne _ (by omega)]

lemma extract_min_spec (nodes : List HeapNode) (cap : ℕ) (hne : nodes ≠ [])
    (hp : HeapProp nodes) :
    (extract_min ⟨nodes, cap⟩).1 = hget nodes 0 ∧
      (extract_min ⟨nodes, cap⟩).2.capacity = cap ∧
      (extract_min ⟨nodes, cap⟩).2.nodes.length = nodes.length - 1 ∧
      HeapProp (extract_min ⟨nodes, cap⟩).2.nodes ∧
      (∀ y ∈ (extract_min ⟨nodes, cap⟩).2.nodes, y ∈ nodes) ∧
      (∀ y ∈ nodes, y = hget nodes 0 ∨ y ∈ (extract_min ⟨nodes, cap⟩).2.nodes) := by
  rcases nodes with _ | ⟨x, nodes0⟩
  · exact absurd rfl hne
  rcases nodes0 with _ | ⟨y, rest⟩
  · refine ⟨rfl, rfl, rfl, heapProp_nil, ?_, ?_⟩
    · intro z hz
      exact absurd hz (by simp [extract_min])
    · intro z hz
      left
      simp only [List.mem_singleton] at hz
      rw [hz]
      rfl
  · set l := x :: y :: rest with hl
    have hlen2 : 2 ≤ l.length := by rw [hl]; simp only [List.length_cons]; omega
    obtain ⟨hd_len, hd0, hdk⟩ := extract_shrunk_facts l hlen2
    set l1 := (l.set 0 (hget l (l.length - 1))).dropLast with hl1
    have halmost : ∀ j, j < l1.length → 0 < j → (j - 1) / 2 ≠ 0 →
        (hget l1 ((j - 1) / 2)).distance ≤ (hget l1 j).distance := by
      intro j hj hj0 hpj
      rw [hd_len] at hj
      rw [hdk j hj0 hj, hdk ((j - 1) / 2) (by omega) (by omega)]
      exact hp j (by omega) hj0
    obtain ⟨hprop, hmlen, hmem⟩ := min_heapify_spec l1 halmost
    have hx0 : x = hget l 0 := by rw [hl]; rfl
    have hres : extract_min ⟨l, cap⟩ = (x, ⟨min_heapify l1 0, cap⟩) := by
      rw [hl, hl1, hl]
      rfl
    rw [hres]
    dsimp only
    refine ⟨hx0, rfl, ?_, hprop, ?_, ?_⟩
    · rw [hmlen, hd_len]
    · intro z hz
      rw [hmem z] at hz
      obtain ⟨k, hk, hzk⟩ := List.mem_iff_getElem.mp hz
      rw [← hget_eq_getElem hk] at hzk
      rw [hd_len] at hk
      rcases Nat.eq_zero_or_pos k with hk0 | hk0
      · rw [hk0, hd0] at hzk
        exact hzk ▸ hget_mem (by omega)
      · rw [hdk k hk0 hk] at hzk
        exact hzk ▸ hget_mem (by omega)
    · intro z hz
      obtain ⟨k, hk, hzk⟩ := List.mem_iff_getElem.mp hz
      rw [← hget_eq_getElem hk] at hzk
      rcases Nat.eq_zero_or_pos k with hk0 | hk0
      · left
        rw [hk0] at hzk
        exact hzk.symm
      · right
        rw [hmem z]
        by_cases hklast : k = l.length - 1
        · have hz1 : hget l1 0 = z := by rw [hd0, ← hklast]; exact hzk
          exact hz1 ▸ hget_mem (by omega)
        · have hz1 : hget l1 k = z := by rw [hdk k hk0 (by omega)]; exact hzk
          exact hz1 ▸ hget_mem (by rw [hd_len]; omega)

/-! ### Array access lemmas -/

lemma lSet_length {α : Type} (l : List α) (i : ℤ) (x : α) : (lSet l i x).length = l.length := by
  unfold lSet
  split <;> simp

lemma getD_lSet_self {α : Type} {l : List α} {i : ℤ} (x d : α) (h0 : 0 ≤ i)
    (hl : i.toNat < l.length) : (lSet l i x).getD i.toNat d = x := by
  unfold lSet
  rw [if_pos h0, List.getD_eq_getElem?_getD, List.getElem?_set_eq_of_lt x hl]
  rfl

lemma getD_lSet_ne {α : Type} {l : List α} {i v : ℤ} (x d : α) (h : v ≠ i) (hv : 0 ≤ v) :
    (lSet l i x).getD v.toNat d = l.getD v.toNat d := by
  unfold lSet
  split
  · rename_i h0
    rw [List.getD_eq_getElem?_getD, List.getElem?_set_ne, ← List.getD_eq_getElem?_getD]
    omega
  · rfl

lemma dGet_lSet_self {l : List Cost} {i : ℤ} (x : Cost) (h0 : 0 ≤ i)
    (hl : i.toNat < l.length) : dGet (lSet l i x) i = x := by
  unfold dGet
  rw [if_pos h0]
  exact getD_lSet_self x ⊤ h0 hl

lemma dGet_lSet_ne {l : List Cost} {i v : ℤ} (x : Cost) (h : v ≠ i) :
    dGet (lSet l i x) v = dGet l v := by
  unfold dGet
  split
  · rename_i hv
    exact getD_lSet_ne x ⊤ h hv
  · rfl

lemma pGet_lSet_self {l : List ℤ} {i : ℤ} (x : ℤ) (h0 : 0 ≤ i)
    (hl : i.toNat < l.length) : pGet (lSet l i x) i = x := by
  unfold pGet
  rw [if_pos h0]
  exact getD_lSet_self x (-1) h0 hl

lemma pGet_lSet_ne {l : List ℤ} {i v : ℤ} (x : ℤ) (h : v ≠ i) :
    pGet (lSet l i x) v = pGet l v := by
  unfold pGet
  split
  · rename_i hv
    exact getD_lSet_ne x (-1) h hv
  · rfl

lemma vGet_lSet_self {l : List Bool} {i : ℤ} (x : Bool) (h0 : 0 ≤ i)
    (hl : i.toNat < l.length) : vGet (lSet l i x) i = x := by
  unfold vGet
  rw [if_pos h0]
  exact getD_lSet_self x true h0 hl

lemma vGet_lSet_ne {l : List Bool} {i v : ℤ} (x : Bool) (h : v ≠ i) :
    vGet (lSet l i x) v = vGet l v := by
  unfold vGet
  split
  · rename_i hv
    exact getD_lSet_ne x true h hv
  · rfl

lemma dGet_replicate (n : ℕ) (v : ℤ) : dGet (List.replicate n (⊤ : Cost)) v = ⊤ := by
  unfold dGet
  split
  · rw [List.getD_eq_getElem?_getD]
    rcases lt_or_le v.toNat n with h | h
    · rw [List.getElem?_replicate_of_lt h]
      rfl
    · rw [List.getElem?_eq_none (by simpa using h)]
      rfl
  · rfl

lemma pGet_replicate (n : ℕ) (v : ℤ) : pGet (List.replicate n (-1 : ℤ)) v = -1 := by
  unfold pGet
  split
  · rw [List.getD_eq_getElem?_getD]
    rcases lt_or_le v.toNat n with h | h
    · rw [List.getElem?_replicate_of_lt h]
      rfl
    · rw [List.getElem?_eq_none (by simpa using h)]
      rfl
  · rfl

lemma vGet_replicate_false {n : ℕ} {v : ℤ} (h0 : 0 ≤ v) (hv : v.toNat < n) :
    vGet (List.replicate n false) v = false := by
  unfold vGet
  rw [if_pos h0, List.getD_eq_getElem?_getD, List.getElem?_replicate_of_lt hv]
  rfl

lemma vGet_out_of_range {l : List Bool} {v : ℤ} (h : l.length ≤ v.toNat ∨ v < 0) :
    vGet l v = true := by
  unfold vGet
  split
  · rename_i h0
    rw [List.getD_eq_getElem?_getD, List.getElem?_eq_none (by omega)]
    rfl
  · rfl

lemma dGet_out_of_range {l : List Cost} {v : ℤ} (h : l.length ≤ v.toNat ∨ v < 0) :
    dGet l v = ⊤ := by
  unfold dGet
  split
  · rename_i h0
    rw [List.getD_eq_getElem?_getD, List.getElem?_eq_none (by omega)]
    rfl
  · rfl

/-- Count of unvisited slots, the outer component of the loop measure. -/
def unvisited_count (l : List Bool) : ℕ := l.count false

lemma count_false_set_true : ∀ (l : List Bool) (n : ℕ) (h : n < l.length),
    l.get ⟨n, h⟩ = false → (l.set n true).count false < l.count false := by
  intro l
  induction l with
  | nil =>
    intro n h
    simp at h
  | cons a t ih =>
    intro n h hval
    cases n with
    | zero =>
      simp only [List.get] at hval
      subst hval
      simp [List.count_cons]
    | succ m =>
      have hrec := ih m (by simpa using h) (by simpa using hval)
      simp only [List.set, List.count_cons]
      by_cases ha : a = false
      · simp only [ha]
        omega
      · simp only [ha]
        omega

lemma unvisited_count_lSet_true {l : List Bool} {u : ℤ} (hu : vGet l u = false) :
    unvisited_count (lSet l u true) < unvisited_count l := by
  have h0 : 0 ≤ u := by
    by_contra h
    rw [vGet_out_of_range (Or.inr (by omega))] at hu
    exact absurd hu (by simp)
  have hl : u.toNat < l.length := by
    by_contra h
    rw [vGet_out_of_range (Or.inl (by omega))] at hu
    exact absurd hu (by simp)
  have hval : l.get ⟨u.toNat, hl⟩ = false := by
    unfold vGet at hu
    rw [if_pos h0, List.getD_eq_getElem _ _ hl] at hu
    exact hu
  unfold unvisited_count lSet
  rw [if_pos h0]
  exact count_false_set_true l u.toNat hl hval

/-! ### Frame lemmas for relaxation -/

lemma lSet_out {α : Type} {l : List α} {i : ℤ} (x : α)
    (h : l.length ≤ i.toNat ∨ i < 0) : lSet l i x = l := by
  unfold lSet
  split
  · rename_i h0
    exact List.set_eq_of_length_le (by omega)
  · rfl

lemma relax_update_frame {st : DState} {nb cur : ℤ} {nd : Cost} {st' : DState}
    (h : relax_update st nb cur nd = .ok st') :
    st'.visited = st.visited ∧ st'.target_found = st.target_found ∧
    st'.distances.length = st.distances.length ∧
    st'.predecessors.length = st.predecessors.length ∧
    st'.heap.capacity = st.heap.capacity ∧
    st'.heap.nodes.length ≤ st.heap.nodes.length + 1 ∧
    (∀ v, dGet st'.distances v ≤ dGet st.distances v) ∧
    (∀ v, v ≠ nb → dGet st'.distances v = dGet st.distances v ∧
      pGet st'.predecessors v = pGet st.predecessors v) := by
  unfold relax_update at h
  split at h
  · rename_i himp
    match hins : insert_heap st.heap nb nd with
    | .error e =>
      rw [hins] at h
      exact absurd h (by simp)
    | .ok heap' =>
      rw [hins] at h
      obtain ⟨hlen1, hcap, _, _⟩ := insert_heap_ok hins
      cases h
      refine ⟨rfl, rfl, lSet_length _ _ _, lSet_length _ _ _, hcap, by dsimp only; omega, ?_, ?_⟩
      · intro v
        by_cases hv : v = nb
        · subst hv
          by_cases hrange : 0 ≤ v ∧ v.toNat < st.distances.length
          · rw [dGet_lSet_self nd hrange.1 hrange.2]
            exact le_of_lt himp
          · rw [lSet_out nd (by omega)]
        · rw [dGet_lSet_ne nd hv]
      · intro v hv
        exact ⟨dGet_lSet_ne nd hv, pGet_lSet_ne cur hv⟩
  · cases h
    exact ⟨rfl, rfl, rfl, rfl, rfl, by omega, fun v => le_refl _, fun v _ => ⟨rfl, rfl⟩⟩

lemma relax_edge_frame {g : Graph} {mode : DijkstraMode} {cur : ℤ} {ei : ℕ}
    {st st' : DState} (h : relax_edge g mode cur ei st = .ok st') :
    st'.visited = st.visited ∧ st'.target_found = st.target_found ∧
    st'.distances.length = st.distances.length ∧
    st'.predecessors.length = st.predecessors.length ∧
    st'.heap.capacity = st.heap.capacity ∧
    st'.heap.nodes.length ≤ st.heap.nodes.length + 1 ∧
    (∀ v, dGet st'.distances v ≤ dGet st.distances v) ∧
    (∀ v, vGet st.visited v = true → dGet st'.distances v = dGet st.distances v ∧
      pGet st'.predecessors v = pGet st.predecessors v) := by
  unfold relax_edge at h
  cases hfi : find_node_index g (g.edges.getD ei default).from_node with
  | error e =>
    rw [hfi] at h
    exact absurd h (by simp)
  | ok fi =>
    rw [hfi] at h
    dsimp only at h
    cases hti : find_node_index g (g.edges.getD ei default).to_node with
    | error e =>
      rw [hti] at h
      exact absurd h (by simp)
    | ok ti =>
      rw [hti] at h
      dsimp only at h
      split at h
      · cases h
        exact ⟨rfl, rfl, rfl, rfl, rfl, by omega, fun v => le_refl _, fun v _ => ⟨rfl, rfl⟩⟩
      · split at h
        · cases h
          exact ⟨rfl, rfl, rfl, rfl, rfl, by omega, fun v => le_refl _, fun v _ => ⟨rfl, rfl⟩⟩
        · rename_i hrange hnvis
          have hkey : ∀ nbv : ℤ, vGet st.visited nbv = false →
              relax_update st nbv cur
                (dGet st.distances cur +
                  (edge_cost mode (g.edges.getD ei default) : Cost)) = .ok st' →
              st'.visited = st.visited ∧ st'.target_found = st.target_found ∧
              st'.distances.length = st.distances.length ∧
              st'.predecessors.length = st.predecessors.length ∧
              st'.heap.capacity = st.heap.capacity ∧
              st'.heap.nodes.length ≤ st.heap.nodes.length + 1 ∧
              (∀ v, dGet st'.distances v ≤ dGet st.distances v) ∧
              (∀ v, vGet st.visited v = true →
                dGet st'.distances v = dGet st.distances v ∧
                pGet st'.predecessors v = pGet st.predecessors v) := by
            intro nbv hnb hupd
            obtain ⟨h1, h2, h3, h4, h5, h6, h7, h8⟩ := relax_update_frame hupd
            refine ⟨h1, h2, h3, h4, h5, h6, h7, ?_⟩
            intro v hv
            apply h8
            intro hveq
            rw [hveq, hnb] at hv
            exact absurd hv (by simp)
          cases mode with
          | DIJKSTRA_FASTEST_TIME =>
            dsimp only at h
            split at h
            · exact absurd h (by simp)
            · exact hkey _ (by simpa using hnvis) h
          | DIJKSTRA_SHORTEST_DISTANCE =>
            dsimp only at h
            exact hkey _ (by simpa using hnvis) h

lemma relax_edges_frame {g : Graph} {mode : DijkstraMode} {cur : ℤ} :
    ∀ (l : List ℕ) (st st' : DState), relax_edges g mode cur l st = .ok st' →
    st'.visited = st.visited ∧ st'.target_found = st.target_found ∧
    st'.distances.length = st.distances.length ∧
    st'.predecessors.length = st.predecessors.length ∧
    st'.heap.capacity = st.heap.capacity ∧
    st'.heap.nodes.length ≤ st.heap.nodes.length + l.length ∧
    (∀ v, dGet st'.distances v ≤ dGet st.distances v) ∧
    (∀ v, vGet st.visited v = true → dGet st'.distances v = dGet st.distances v ∧
      pGet st'.predecessors v = pGet st.predecessors v) := by
  intro l
  induction l with
  | nil =>
    intro st st' h
    unfold relax_edges at h
    cases h
    exact ⟨rfl, rfl, rfl, rfl, rfl, by omega, fun v => le_refl _, fun v _ => ⟨rfl, rfl⟩⟩
  | cons ei rest ih =>
    intro st st' h
    unfold relax_edges at h
    cases hstep : relax_edge g mode cur ei st with
    | error e =>
      rw [hstep] at h
      exact absurd h (by simp)
    | ok st1 =>
      rw [hstep] at h
      obtain ⟨e1, e2, e3, e4, e5, e6, e7, e8⟩ := relax_edge_frame hstep
      obtain ⟨f1, f2, f3, f4, f5, f6, f7, f8⟩ := ih st1 st' h
      refine ⟨f1.trans e1, f2.trans e2, f3.trans e3, f4.trans e4, f5.trans e5, ?_, ?_, ?_⟩
      · simp only [List.length_cons]
        omega
      · intro v
        exact le_trans (f7 v) (e7 v)
      · intro v hv
        have hv1 : vGet st1.visited v = true := by rw [e1]; exact hv
        obtain ⟨fa, fb⟩ := f8 v hv1
        obtain ⟨ea, eb⟩ := e8 v hv
        exact ⟨fa.trans ea, fb.trans eb⟩

/-! ### Loop termination measure -/

lemma min_heapify_length (n : ℕ) : ∀ l idx, l.length - idx ≤ n →
    (min_heapify l idx).length = l.length := by
  induction n with
  | zero =>
    intro l idx hn
    rw [min_heapify_eq]
    rcases heapify_smallest_cases l idx with hs | hs
    · rw [if_pos hs]
    · omega
  | succ n ih =>
    intro l idx hn
    rw [min_heapify_eq]
    rcases heapify_smallest_cases l idx with hs | hs
    · rw [if_pos hs]
    · have hne : ¬ heapify_smallest l idx = idx := by omega
      rw [if_neg hne]
      rw [ih (hswap l idx (heapify_smallest l idx)) (heapify_smallest l idx)
        (by rw [hswap_length]; omega)]
      exact hswap_length _ _ _

lemma extract_min_shrink (h : MinHeap) (hne : h.nodes ≠ []) :
    (extract_min h).2.nodes.length = h.nodes.length - 1 ∧
      (extract_min h).2.capacity = h.capacity := by
  obtain ⟨nodes, cap⟩ := h
  rcases nodes with _ | ⟨x, nodes0⟩
  · exact absurd rfl hne
  rcases nodes0 with _ | ⟨y, rest⟩
  · exact ⟨rfl, rfl⟩
  · set l := x :: y :: rest with hl
    have hlen2 : 2 ≤ l.length := by rw [hl]; simp only [List.length_cons]; omega
    have hres : extract_min ⟨l, cap⟩ =
        (x, ⟨min_heapify ((l.set 0 (hget l (l.length - 1))).dropLast) 0, cap⟩) := by
      rw [hl]
      rfl
    rw [hres]
    dsimp only
    constructor
    · rw [min_heapify_length ((l.set 0 (hget l (l.length - 1))).dropLast).length _ 0 (by omega)]
      simp
    · rfl

lemma adj_slice_length_le (g : Graph) (s e : ℕ) :
    (adj_slice g s e).length ≤ g.adj_indices.length := by
  unfold adj_slice
  calc ((g.adj_indices.drop s).take (e - s)).length
      ≤ (g.adj_indices.drop s).length := by
        rw [List.length_take]
        omega
    _ ≤ g.adj_indices.length := by
        rw [List.length_drop]
        omega

/-- The fuel passed by `dijkstra_shortest_path` dominates the loop: each
iteration strictly decreases
`unvisited_count · (adj_indices.length + 1) + heap size`. -/
lemma dijkstra_loop_isSome (g : Graph) (mode : DijkstraMode) (tgt : ℤ) :
    ∀ (fuel : ℕ) (st : DState),
      unvisited_count st.visited * (g.adj_indices.length + 1) + st.heap.nodes.length < fuel →
      (dijkstra_loop g mode tgt fuel st).isSome := by
  intro fuel
  induction fuel with
  | zero =>
    intro st hst
    omega
  | succ fuel ih =>
    intro st hst
    rw [dijkstra_loop]
    split
    · simp
    · rename_i hne
      dsimp only
      set mh := extract_min st.heap with hmh
      obtain ⟨hshrink, hcap⟩ := extract_min_shrink st.heap hne
      have hpos : 1 ≤ st.heap.nodes.length := by
        rcases Nat.eq_zero_or_pos st.heap.nodes.length with h0 | h0
        · exact absurd (List.length_eq_zero.mp h0) hne
        · exact h0
      split
      · apply ih
        dsimp only
        rw [← hmh] at hshrink
        omega
      · rename_i hnvis
        split
        · simp
        · split
          · simp
          · rename_i htgt si ei2 hadj
            split
            · simp
            · rename_i st3 hrelax
              apply ih
              obtain ⟨f1, _, _, _, _, f6, _, _⟩ := relax_edges_frame _ _ _ hrelax
              have hcount : unvisited_count
                  (lSet ({ st with heap := mh.2 } : DState).visited mh.1.node_index true) <
                    unvisited_count st.visited := by
                exact unvisited_count_lSet_true (by simpa using hnvis)
              have hslice := adj_slice_length_le g si ei2
              have hcount1 : 1 ≤ unvisited_count st.visited := by omega
              rw [f1]
              dsimp only at hcount f6 ⊢
              rw [← hmh] at hshrink
              have hf6 : st3.heap.nodes.length ≤
                  mh.2.nodes.length + (adj_slice g si ei2).length := by
                exact f6
              calc unvisited_count (lSet st.visited mh.1.node_index true) *
                    (g.adj_indices.length + 1) + st3.heap.nodes.length
                  ≤ (unvisited_count st.visited - 1) * (g.adj_indices.length + 1) +
                    (st.heap.nodes.length - 1 + g.adj_indices.length) := by
                    have h1 : unvisited_count (lSet st.visited mh.1.node_index true) ≤
                        unvisited_count st.visited - 1 := by omega
                    have h2 : st3.heap.nodes.length ≤
                        st.heap.nodes.length - 1 + g.adj_indices.length := by omega
                    exact Nat.add_le_add (Nat.mul_le_mul_right _ h1) h2
                _ < fuel := by
                    have hexp : (unvisited_count st.visited - 1) * (g.adj_indices.length + 1) +
                        (g.adj_indices.length + 1) =
                          unvisited_count st.visited * (g.adj_indices.length + 1) := by
                      rw [← Nat.succ_mul]
                      congr 1
                      omega
                    omega

/-! ### CSR specification -/

instance {ε α : Type} [DecidableEq ε] [DecidableEq α] : DecidableEq (Except ε α) := fun a b =>
  match a, b with
  | .error e, .error f =>
    if h : e = f then isTrue (by rw [h]) else isFalse (fun hc => by cases hc; exact h rfl)
  | .error _, .ok _ => isFalse (fun hc => by cases hc)
  | .ok _, .error _ => isFalse (fun hc => by cases hc)
  | .ok x, .ok y =>
    if h : x = y then isTrue (by rw [h]) else isFalse (fun hc => by cases hc; exact h rfl)

/-- Edge `i`'s traversal may start at node position `p` through its `from`
endpoint. -/
def from_side (g : Graph) (p : ℕ) (i : ℕ) : Prop :=
  find_node_index g (g.edges.getD i default).from_node = .ok (p : ℤ)

/-- Edge `i`'s traversal may start at node position `p` through its `to`
endpoint (bidirectional edges only). -/
def to_side (g : Graph) (p : ℕ) (i : ℕ) : Prop :=
  (g.edges.getD i default).one_way = false ∧
    find_node_index g (g.edges.getD i default).to_node = .ok (p : ℤ)

instance (g : Graph) (p i : ℕ) : Decidable (from_side g p i) := by
  unfold from_side
  infer_instance

instance (g : Graph) (p i : ℕ) : Decidable (to_side g p i) := by
  unfold to_side
  exact instDecidableAnd

/-- Occurrences of edge `i` in node `p`'s adjacency list, in the order the
second CSR pass writes them (from side first). -/
def per_edge (g : Graph) (p : ℕ) (i : ℕ) : List ℕ :=
  (if from_side g p i then [i] else []) ++ (if to_side g p i then [i] else [])

/-- Node `p`'s adjacency list contributed by the first `k` edges, in
edge-array order. -/
def polist (g : Graph) (p : ℕ) (k : ℕ) : List ℕ :=
  ((List.range k).map (per_edge g p)).flatten

/-- Node `p`'s full adjacency list in edge-array order. -/
def orig_list (g : Graph) (p : ℕ) : List ℕ := polist g p g.edges.length

/-- Contribution count of the first `k` edges to node `p`. -/
def pc (g : Graph) (p : ℕ) (k : ℕ) : ℕ := (polist g p k).length

lemma polist_zero (g : Graph) (p : ℕ) : polist g p 0 = [] := rfl

lemma polist_succ (g : Graph) (p : ℕ) (k : ℕ) :
    polist g p (k + 1) = polist g p k ++ per_edge g p k := by
  unfold polist
  rw [List.range_succ, List.map_append, List.flatten_append]
  simp

lemma pc_succ (g : Graph) (p : ℕ) (k : ℕ) :
    pc g p (k + 1) = pc g p k + (per_edge g p k).length := by
  unfold pc
  rw [polist_succ, List.length_append]

lemma pc_mono (g : Graph) (p : ℕ) {k m : ℕ} (h : k ≤ m) : pc g p k ≤ pc g p m := by
  induction m with
  | zero =>
    have hk : k = 0 := by omega
    rw [hk]
  | succ m ih =>
    rcases Nat.lt_or_ge k (m + 1) with hlt | hge
    · exact le_trans (ih (by omega)) (by rw [pc_succ]; omega)
    · have hk : k = m + 1 := by omega
      rw [hk]

lemma polist_getD_stable (g : Graph) (p : ℕ) {k m q : ℕ} (hkm : k ≤ m) (hq : q < pc g p k) :
    (polist g p m).getD q 0 = (polist g p k).getD q 0 := by
  induction m, hkm using Nat.le_induction with
  | base => rfl
  | succ m hkm ih =>
    rw [polist_succ, List.getD_eq_getElem?_getD, List.getElem?_append_left, 
      ← List.getD_eq_getElem?_getD, ih]
    calc q < pc g p k := hq
      _ ≤ pc g p m := pc_mono g p hkm
      _ = (polist g p m).length := rfl

lemma per_edge_length (g : Graph) (p : ℕ) (i : ℕ) :
    (per_edge g p i).length =
      (if from_side g p i then 1 else 0) + (if to_side g p i then 1 else 0) := by
  unfold per_edge
  rw [List.length_append]
  congr 1 <;> split <;> rfl

lemma drop_eq_cons_facts {α : Type} [Inhabited α] {l : List α} {k : ℕ} {e : α} {rest : List α}
    (h : l.drop k = e :: rest) :
    k < l.length ∧ l.getD k default = e ∧ l.drop (k + 1) = rest := by
  have hlen : k < l.length := by
    by_contra hk
    rw [List.drop_eq_nil_of_le (by omega)] at h
    exact absurd h (by simp)
  refine ⟨hlen, ?_, ?_⟩
  · have hh := List.head?_drop l k
    rw [h] at hh
    rw [List.getD_eq_getElem?_getD, ← hh]
    rfl
  · have ht : l.drop (k + 1) = (l.drop k).tail := (List.tail_drop l k).symm
    rw [ht, h]
    rfl

/-- Resolvability and index range for one edge of a well-formed graph. -/
def edge_resolved (g : Graph) (e : Edge) : Prop :=
  (∃ j : ℤ, find_node_index g e.from_node = .ok j ∧ 0 ≤ j ∧ j < (g.nodes.length : ℤ)) ∧
  (∃ j : ℤ, find_node_index g e.to_node = .ok j ∧ 0 ≤ j ∧ j < (g.nodes.length : ℤ))

lemma from_side_iff (g : Graph) {k : ℕ} {fi : ℤ}
    (hfi : find_node_index g (g.edges.getD k default).from_node = .ok fi) (h0 : 0 ≤ fi)
    (p : ℕ) : from_side g p k ↔ p = fi.toNat := by
  unfold from_side
  rw [hfi]
  constructor
  · intro h
    have : fi = (p : ℤ) := by
      cases h
      rfl
    omega
  · intro h
    subst h
    congr 1
    omega

lemma to_side_iff (g : Graph) {k : ℕ} {ti : ℤ}
    (hti : find_node_index g (g.edges.getD k default).to_node = .ok ti) (h0 : 0 ≤ ti)
    (p : ℕ) : to_side g p k ↔ ((g.edges.getD k default).one_way = false ∧ p = ti.toNat) := by
  unfold to_side
  rw [hti]
  constructor
  · intro ⟨how, h⟩
    refine ⟨how, ?_⟩
    have : ti = (p : ℤ) := by
      cases h
      rfl
    omega
  · intro ⟨how, h⟩
    subst h
    refine ⟨how, ?_⟩
    congr 1
    omega

lemma csr_count_spec (g : Graph)
    (hres : ∀ e ∈ g.edges, edge_resolved g e) :
    ∀ (rest : List Edge) (k : ℕ) (cur : List ℕ),
      g.edges.drop k = rest →
      k ≤ g.edges.length →
      cur.length = g.nodes.length →
      (∀ p, p < g.nodes.length → cur.getD p 0 = pc g p k) →
      ∃ D, csr_count g rest cur = .ok D ∧ D.length = g.nodes.length ∧
        (∀ p, p < g.nodes.length → D.getD p 0 = pc g p g.edges.length) := by
  intro rest
  induction rest with
  | nil =>
    intro k cur hdrop hk hlen hcur
    have hkM : k = g.edges.length := by
      have := List.drop_eq_nil_iff.mp hdrop
      omega
    subst hkM
    exact ⟨cur, rfl, hlen, hcur⟩
  | cons e rest ih =>
    intro k cur hdrop hk hlen hcur
    obtain ⟨hkM, hgetD, hdrop'⟩ := drop_eq_cons_facts hdrop
    have hemem : e ∈ g.edges := by
      rw [← hgetD]
      rw [List.getD_eq_getElem _ _ hkM]
      exact List.getElem_mem hkM
    obtain ⟨⟨fi, hfi, hfi0, hfiN⟩, ⟨ti, hti, hti0, htiN⟩⟩ := hres e hemem
    have hfi' : find_node_index g (g.edges.getD k default).from_node = .ok fi := by
      rw [hgetD]; exact hfi
    have hti' : find_node_index g (g.edges.getD k default).to_node = .ok ti := by
      rw [hgetD]; exact hti
    unfold csr_count
    rw [hfi, hti]
    dsimp only
    simp only [if_pos hfi0]
    set cur1 := cur.set fi.toNat (cur.getD fi.toNat 0 + 1) with hcur1
    have hlen1 : cur1.length = g.nodes.length := by rw [hcur1, List.length_set, hlen]
    have hcur1get : ∀ p, p < g.nodes.length →
        cur1.getD p 0 = pc g p k + (if from_side g p k then 1 else 0) := by
      intro p hp
      by_cases hpfi : p = fi.toNat
      · have hfs : from_side g p k := (from_side_iff g hfi' hfi0 p).mpr hpfi
        subst hpfi
        rw [if_pos hfs, hcur1, List.getD_eq_getElem?_getD,
          List.getElem?_set_eq_of_lt _ (by rw [hlen]; omega)]
        dsimp only [Option.getD_some]
        rw [hcur _ hp]
      · have hfs : ¬ from_side g p k := fun hc => hpfi ((from_side_iff g hfi' hfi0 p).mp hc)
        rw [if_neg hfs, hcur1, List.getD_eq_getElem?_getD, List.getElem?_set_ne (by omega),
          ← List.getD_eq_getElem?_getD, hcur p hp]
        omega
    by_cases how : e.one_way = true
    · have hnot : ¬ (¬ e.one_way = true ∧ 0 ≤ ti) := by
        simp [how]
      simp only [if_neg hnot]
      apply ih (k + 1) cur1 hdrop' (by omega) hlen1
      intro p hp
      rw [pc_succ, per_edge_length, hcur1get p hp]
      have hts : ¬ to_side g p k := by
        rw [to_side_iff g hti' hti0 p, hgetD]
        simp [how]
      rw [if_neg hts, Nat.add_zero]
    · have hyes : (¬ e.one_way = true ∧ 0 ≤ ti) := ⟨how, hti0⟩
      simp only [if_pos hyes]
      set cur2 := cur1.set ti.toNat (cur1.getD ti.toNat 0 + 1) with hcur2
      apply ih (k + 1) cur2 hdrop' (by omega) (by rw [hcur2, List.length_set, hlen1])
      intro p hp
      have hts : to_side g p k ↔ p = ti.toNat := by
        rw [to_side_iff g hti' hti0 p, hgetD]
        simp only [Bool.not_eq_true] at how
        simp [how]
      rw [pc_succ, per_edge_length]
      by_cases hpti : p = ti.toNat
      · subst hpti
        rw [hcur2, List.getD_eq_getElem?_getD,
          List.getElem?_set_eq_of_lt _ (by rw [hlen1]; omega), if_pos (hts.mpr rfl)]
        dsimp only [Option.getD_some]
        rw [hcur1get _ hp]
        omega
      · have hnts : ¬ to_side g p k := fun hc => hpti (hts.mp hc)
        rw [hcur2, List.getD_eq_getElem?_getD, List.getElem?_set_ne (by omega),
          ← List.getD_eq_getElem?_getD, hcur1get p hp, if_neg hnts, Nat.add_zero]

/-- Total contribution count (CSR degree) of node `p`. -/
def deg (g : Graph) (p : ℕ) : ℕ := pc g p g.edges.length

/-- Start of node `p`'s slice in the CSR index array. -/
def spec_off (g : Graph) (p : ℕ) : ℕ :=
  ((List.range p).map (fun q => deg g q)).sum

lemma spec_off_zero (g : Graph) : spec_off g 0 = 0 := rfl

lemma spec_off_succ (g : Graph) (p : ℕ) :
    spec_off g (p + 1) = spec_off g p + deg g p := by
  unfold spec_off
  rw [List.range_succ, List.map_append, List.sum_append]
  simp

lemma spec_off_mono (g : Graph) {p p' : ℕ} (h : p ≤ p') : spec_off g p ≤ spec_off g p' := by
  induction p', h using Nat.le_induction with
  | base => exact le_refl _
  | succ p' hp ih =>
    rw [spec_off_succ]
    omega

lemma spec_off_disj (g : Graph) {p p' : ℕ} (h : p < p') :
    spec_off g p + deg g p ≤ spec_off g p' := by
  rw [← spec_off_succ]
  exact spec_off_mono g h

/-- Positions in distinct nodes' slices are distinct. -/
lemma slice_pos_ne (g : Graph) {p w q r : ℕ} (hne : p ≠ w)
    (hq : q < deg g p) (hr : r < deg g w) :
    spec_off g p + q ≠ spec_off g w + r := by
  rcases Nat.lt_or_ge p w with hlt | hge
  · have := spec_off_disj g hlt
    omega
  · have hwp : w < p := by omega
    have := spec_off_disj g hwp
    omega

/-- One scatter write extends the slice-agreement invariant. -/
lemma write_step (g : Graph) (ind : List ℕ) (cnt : ℕ → ℕ) (k : ℕ)
    (hlen : spec_off g g.nodes.length ≤ ind.length)
    (hinv : ∀ p, p < g.nodes.length → ∀ q, q < cnt p →
      ind.getD (spec_off g p + q) 0 = (orig_list g p).getD q 0)
    (hcnt_le : ∀ p, p < g.nodes.length → cnt p ≤ deg g p)
    (w : ℕ) (hw : w < g.nodes.length)
    (hval : (orig_list g w).getD (cnt w) 0 = k) (hlt : cnt w < deg g w) :
    ∀ p, p < g.nodes.length → ∀ q, q < (if p = w then cnt w + 1 else cnt p) →
      (ind.set (spec_off g w + cnt w) k).getD (spec_off g p + q) 0 =
        (orig_list g p).getD q 0 := by
  have hpos_lt : spec_off g w + cnt w < ind.length := by
    have h1 : spec_off g w + deg g w ≤ spec_off g g.nodes.length := by
      rw [← spec_off_succ]
      exact spec_off_mono g (by omega)
    omega
  intro p hp q hq
  by_cases hpw : p = w
  · subst hpw
    rw [if_pos rfl] at hq
    rcases Nat.lt_or_ge q (cnt p) with hqlt | hqge
    · rw [List.getD_eq_getElem?_getD, List.getElem?_set_ne (by omega),
        ← List.getD_eq_getElem?_getD]
      exact hinv p hp q hqlt
    · have hqe : q = cnt p := by omega
      subst hqe
      rw [List.getD_eq_getElem?_getD, List.getElem?_set_eq_of_lt _ hpos_lt]
      exact hval.symm ▸ rfl
  · rw [if_neg hpw] at hq
    have hne : spec_off g p + q ≠ spec_off g w + cnt w :=
      slice_pos_ne g hpw (by have := hcnt_le p hp; omega) hlt
    rw [List.getD_eq_getElem?_getD, List.getElem?_set_ne (by omega),
      ← List.getD_eq_getElem?_getD]
    exact hinv p hp q hq

lemma pc_le_deg (g : Graph) (p : ℕ) {k : ℕ} (hk : k ≤ g.edges.length) : pc g p k ≤ deg g p :=
  pc_mono g p hk

lemma per_edge_getD_from (g : Graph) {p k : ℕ} (hf : from_side g p k) :
    (per_edge g p k).getD 0 0 = k := by
  unfold per_edge
  rw [if_pos hf]
  rfl

lemma per_edge_getD_to (g : Graph) {p k : ℕ} (ht : to_side g p k) :
    (per_edge g p k).getD (if from_side g p k then 1 else 0) 0 = k := by
  unfold per_edge
  rw [if_pos ht]
  by_cases hf : from_side g p k
  · rw [if_pos hf, if_pos hf]
    rfl
  · rw [if_neg hf, if_neg hf]
    rfl

lemma orig_getD_of_contrib (g : Graph) {p k j : ℕ} (hk : k < g.edges.length)
    (hj : j < (per_edge g p k).length) :
    (orig_list g p).getD (pc g p k + j) 0 = (per_edge g p k).getD j 0 := by
  unfold orig_list
  rw [polist_getD_stable g p (show k + 1 ≤ g.edges.length by omega)
    (by rw [pc_succ]; omega)]
  rw [polist_succ]
  unfold pc
  rw [List.getD_eq_getElem?_getD, List.getElem?_append_right (by omega),
    ← List.getD_eq_getElem?_getD]
  congr 1
  omega

lemma from_contrib_lt (g : Graph) {p k : ℕ} (hk : k < g.edges.length)
    (hf : from_side g p k) : pc g p k < deg g p := by
  have h1 : pc g p k + 1 ≤ pc g p (k + 1) := by
    rw [pc_succ, per_edge_length, if_pos hf]
    omega
  have h2 := pc_mono g p (show k + 1 ≤ g.edges.length by omega)
  unfold deg
  omega

lemma to_contrib_lt (g : Graph) {p k : ℕ} (hk : k < g.edges.length)
    (ht : to_side g p k) : pc g p k + (if from_side g p k then 1 else 0) < deg g p := by
  have h1 : pc g p (k + 1) =
      pc g p k + (if from_side g p k then 1 else 0) + 1 := by
    rw [pc_succ, per_edge_length, if_pos ht]
    omega
  have h2 := pc_mono g p (show k + 1 ≤ g.edges.length by omega)
  unfold deg
  omega

lemma csr_fill_spec (g : Graph) (offs : List ℕ)
    (hres : ∀ e ∈ g.edges, edge_resolved g e)
    (hoffs : ∀ p, p < g.nodes.length → offs.getD p 0 = spec_off g p) :
    ∀ (rest : List Edge) (k : ℕ) (ind cur : List ℕ),
      g.edges.drop k = rest →
      k ≤ g.edges.length →
      cur.length = g.nodes.length →
      (∀ p, p < g.nodes.length → cur.getD p 0 = pc g p k) →
      spec_off g g.nodes.length ≤ ind.length →
      (∀ p, p < g.nodes.length → ∀ q, q < pc g p k →
        ind.getD (spec_off g p + q) 0 = (orig_list g p).getD q 0) →
      ∃ indc, csr_fill g k rest offs ind cur = .ok indc ∧
        indc.1.length = ind.length ∧
        (∀ p, p < g.nodes.length → ∀ q, q < deg g p →
          indc.1.getD (spec_off g p + q) 0 = (orig_list g p).getD q 0) := by
  intro rest
  induction rest with
  | nil =>
    intro k ind cur hdrop hk hclen hcur hilen hinv
    have hkM : k = g.edges.length := by
      have := List.drop_eq_nil_iff.mp hdrop
      omega
    subst hkM
    exact ⟨(ind, cur), rfl, rfl, fun p hp q hq => hinv p hp q hq⟩
  | cons e rest ih =>
    intro k ind cur hdrop hk hclen hcur hilen hinv
    obtain ⟨hkM, hgetD, hdrop'⟩ := drop_eq_cons_facts hdrop
    have hemem : e ∈ g.edges := by
      rw [← hgetD, List.getD_eq_getElem _ _ hkM]
      exact List.getElem_mem hkM
    obtain ⟨⟨fi, hfi, hfi0, hfiN⟩, ⟨ti, hti, hti0, htiN⟩⟩ := hres e hemem
    have hfi' : find_node_index g (g.edges.getD k default).from_node = .ok fi := by
      rw [hgetD]; exact hfi
    have hti' : find_node_index g (g.edges.getD k default).to_node = .ok ti := by
      rw [hgetD]; exact hti
    have hfpN : fi.toNat < g.nodes.length := by omega
    have htpN : ti.toNat < g.nodes.length := by omega
    have hfs : from_side g fi.toNat k := (from_side_iff g hfi' hfi0 _).mpr rfl
    unfold csr_fill
    rw [hfi, hti]
    dsimp only
    simp only [if_pos hfi0]
    -- the from-side write
    set ind1 := ind.set (offs.getD fi.toNat 0 + cur.getD fi.toNat 0) k with hind1
    set cur1 := cur.set fi.toNat (cur.getD fi.toNat 0 + 1) with hcur1
    have hpos_f : offs.getD fi.toNat 0 + cur.getD fi.toNat 0 =
        spec_off g fi.toNat + pc g fi.toNat k := by
      rw [hoffs _ hfpN, hcur _ hfpN]
    have hilen1 : ind1.length = ind.length := by rw [hind1, List.length_set]
    have hclen1 : cur1.length = g.nodes.length := by rw [hcur1, List.length_set, hclen]
    have hinv1 : ∀ p, p < g.nodes.length →
        ∀ q, q < (if p = fi.toNat then pc g fi.toNat k + 1 else pc g p k) →
        ind1.getD (spec_off g p + q) 0 = (orig_list g p).getD q 0 := by
      rw [hind1, hpos_f]
      exact write_step g ind (fun p => pc g p k) k hilen hinv
        (fun p hp => pc_le_deg g p (by omega)) fi.toNat hfpN
        (by
          have := orig_getD_of_contrib g (p := fi.toNat) hkM
            (j := 0) (by rw [per_edge_length, if_pos hfs]; omega)
          rw [Nat.add_zero] at this
          rw [this, per_edge_getD_from g hfs])
        (from_contrib_lt g hkM hfs)
    have hcur1get : ∀ p, p < g.nodes.length →
        cur1.getD p 0 = pc g p k + (if from_side g p k then 1 else 0) := by
      intro p hp
      by_cases hpfi : p = fi.toNat
      · have hfsp : from_side g p k := (from_side_iff g hfi' hfi0 p).mpr hpfi
        subst hpfi
        rw [if_pos hfsp, hcur1, List.getD_eq_getElem?_getD,
          List.getElem?_set_eq_of_lt _ (by rw [hclen]; omega)]
        dsimp only [Option.getD_some]
        rw [hcur _ hp]
      · have hfsp : ¬ from_side g p k := fun hc => hpfi ((from_side_iff g hfi' hfi0 p).mp hc)
        rw [if_neg hfsp, hcur1, List.getD_eq_getElem?_getD, List.getElem?_set_ne (by omega),
          ← List.getD_eq_getElem?_getD, hcur p hp]
        omega
    have hmid_counts : ∀ p, p < g.nodes.length →
        (if p = fi.toNat then pc g fi.toNat k + 1 else pc g p k) =
          pc g p k + (if from_side g p k then 1 else 0) := by
      intro p hp
      by_cases hpfi : p = fi.toNat
      · have hfsp : from_side g p k := (from_side_iff g hfi' hfi0 p).mpr hpfi
        rw [if_pos hpfi, if_pos hfsp, hpfi]
      · have hfsp : ¬ from_side g p k := fun hc => hpfi ((from_side_iff g hfi' hfi0 p).mp hc)
        rw [if_neg hpfi, if_neg hfsp]
        omega
    by_cases how : e.one_way = true
    · have hnot : ¬ (¬ e.one_way = true ∧ 0 ≤ ti) := by simp [how]
      simp only [if_neg hnot]
      obtain ⟨indc, hfill, hlen', hfin⟩ := ih (k + 1) ind1 cur1 hdrop' (by omega) hclen1
        (by
          intro p hp
          rw [hcur1get p hp, pc_succ, per_edge_length]
          have hts : ¬ to_side g p k := by
            rw [to_side_iff g hti' hti0 p, hgetD]
            simp [how]
          rw [if_neg hts, Nat.add_zero])
        (by omega)
        (by
          intro p hp q hq
          apply hinv1 p hp
          rw [hmid_counts p hp]
          have hts : ¬ to_side g p k := by
            rw [to_side_iff g hti' hti0 p, hgetD]
            simp [how]
          rw [pc_succ, per_edge_length, if_neg hts, Nat.add_zero] at hq
          exact hq)
      exact ⟨indc, hfill, by rw [hlen', hilen1], hfin⟩
    · have hyes : (¬ e.one_way = true ∧ 0 ≤ ti) := ⟨how, hti0⟩
      simp only [if_pos hyes]
      have hts : to_side g ti.toNat k := by
        rw [to_side_iff g hti' hti0 ti.toNat]
        constructor
        · rw [hgetD]
          simpa using how
        · rfl
      have htsiff : ∀ p, to_side g p k ↔ p = ti.toNat := by
        intro p
        rw [to_side_iff g hti' hti0 p, hgetD]
        simp only [Bool.not_eq_true] at how
        simp [how]
      -- the to-side write
      have hinv2 : ∀ p, p < g.nodes.length →
          ∀ q, q < (if p = ti.toNat then
              (pc g ti.toNat k + (if from_side g ti.toNat k then 1 else 0)) + 1
            else pc g p k + (if from_side g p k then 1 else 0)) →
          (ind1.set (offs.getD ti.toNat 0 + cur1.getD ti.toNat 0) k).getD
              (spec_off g p + q) 0 = (orig_list g p).getD q 0 := by
        have hpos_t : offs.getD ti.toNat 0 + cur1.getD ti.toNat 0 =
            spec_off g ti.toNat +
              (pc g ti.toNat k + (if from_side g ti.toNat k then 1 else 0)) := by
          rw [hoffs _ htpN, hcur1get _ htpN]
        rw [hpos_t]
        apply write_step g ind1
          (fun p => pc g p k + (if from_side g p k then 1 else 0)) k (by omega)
          ?_ ?_ ti.toNat htpN ?_ (to_contrib_lt g hkM hts)
        · intro p hp q hq
          apply hinv1 p hp
          rw [hmid_counts p hp]
          exact hq
        · intro p hp
          have h1 : pc g p k + (if from_side g p k then 1 else 0) ≤ pc g p (k + 1) := by
            rw [pc_succ, per_edge_length]
            omega
          exact le_trans h1 (pc_le_deg g p (by omega))
        · have := orig_getD_of_contrib g (p := ti.toNat) hkM
            (j := if from_side g ti.toNat k then 1 else 0)
            (by rw [per_edge_length, if_pos hts]; split <;> omega)
          rw [this, per_edge_getD_to g hts]
      obtain ⟨indc, hfill, hlen', hfin⟩ := ih (k + 1)
        (ind1.set (offs.getD ti.toNat 0 + cur1.getD ti.toNat 0) k)
        (cur1.set ti.toNat (cur1.getD ti.toNat 0 + 1)) hdrop' (by omega)
        (by rw [List.length_set, hclen1])
        (by
          intro p hp
          by_cases hpti : p = ti.toNat
          · subst hpti
            rw [List.getD_eq_getElem?_getD,
              List.getElem?_set_eq_of_lt _ (by rw [hclen1]; omega)]
            dsimp only [Option.getD_some]
            rw [hcur1get _ hp, pc_succ, per_edge_length, if_pos ((htsiff ti.toNat).mpr rfl)]
            omega
          · rw [List.getD_eq_getElem?_getD, List.getElem?_set_ne (by omega),
              ← List.getD_eq_getElem?_getD, hcur1get p hp, pc_succ, per_edge_length,
              if_neg (fun hc => hpti ((htsiff p).mp hc)), Nat.add_zero])
        (by rw [List.length_set]; omega)
        (by
          intro p hp q hq
          apply hinv2 p hp
          rw [pc_succ, per_edge_length] at hq
          by_cases hpti : p = ti.toNat
          · rw [if_pos hpti]
            rw [if_pos ((htsiff p).mpr hpti)] at hq
            subst hpti
            omega
          · rw [if_neg hpti]
            rw [if_neg (fun hc => hpti ((htsiff p).mp hc)), Nat.add_zero] at hq
            exact hq)
      exact ⟨indc, hfill, by rw [hlen', List.length_set, hilen1], hfin⟩

lemma scanl_add_getD : ∀ (D : List ℕ) (a : ℕ) (p : ℕ), p ≤ D.length →
    (List.scanl (· + ·) a D).getD p 0 = a + (D.take p).sum := by
  intro D
  induction D with
  | nil =>
    intro a p hp
    have hp0 : p = 0 := by simpa using hp
    subst hp0
    simp
  | cons d D ih =>
    intro a p hp
    cases p with
    | zero => simp
    | succ q =>
      rw [List.scanl_cons]
      have hq : q ≤ D.length := by simpa using hp
      have hih := ih (a + d) q hq
      rw [List.singleton_append, List.getD_eq_getElem?_getD, List.getElem?_cons_succ,
        ← List.getD_eq_getElem?_getD, hih, List.take_succ_cons, List.sum_cons]
      omega

lemma take_sum_spec_off (g : Graph) (D : List ℕ) (hlen : D.length = g.nodes.length)
    (hD : ∀ p, p < g.nodes.length → D.getD p 0 = deg g p) :
    ∀ p, p ≤ g.nodes.length → (D.take p).sum = spec_off g p := by
  intro p
  induction p with
  | zero =>
    intro _
    simp [spec_off_zero]
  | succ q ih =>
    intro hq
    rw [List.sum_take_succ D q (by omega), spec_off_succ, ih (by omega)]
    congr 1
    rw [← hD q (by omega), List.getD_eq_getElem _ _ (by omega)]

/-- Characterization of a successful `build_csr_representation`: the offsets
array holds the degree prefix sums, and node `p`'s slice of `adj_indices`
holds exactly the contributing edge indices in edge-array order. -/
lemma build_csr_spec (g g2 : Graph)
    (hres : ∀ e ∈ g.edges, edge_resolved g e)
    (hilen : spec_off g g.nodes.length ≤ g.adj_indices.length)
    (hbuild : build_csr_representation g = .ok g2) :
    g2.nodes = g.nodes ∧ g2.edges = g.edges ∧ g2.node_hash = g.node_hash ∧
    g2.adj_offsets.length = g.nodes.length + 1 ∧
    (∀ p, p ≤ g.nodes.length → g2.adj_offsets.getD p 0 = spec_off g p) ∧
    g2.adj_indices.length = g.adj_indices.length ∧
    (∀ p, p < g.nodes.length → ∀ q, q < deg g p →
      g2.adj_indices.getD (spec_off g p + q) 0 = (orig_list g p).getD q 0) := by
  unfold build_csr_representation at hbuild
  obtain ⟨D, hcount, hDlen, hD⟩ := csr_count_spec g hres g.edges 0
    (List.replicate g.nodes.length 0) rfl (by omega) (by simp)
    (by
      intro p hp
      simp [polist_zero, pc])
  rw [hcount] at hbuild
  dsimp only at hbuild
  have hoffs : ∀ p, p ≤ g.nodes.length →
      (List.scanl (· + ·) 0 D).getD p 0 = spec_off g p := by
    intro p hp
    rw [scanl_add_getD D 0 p (by omega), take_sum_spec_off g D hDlen hD p hp]
    omega
  obtain ⟨indc, hfill, hflen, hfin⟩ := csr_fill_spec g (List.scanl (· + ·) 0 D) hres
    (fun p hp => hoffs p (by omega)) g.edges 0 g.adj_indices
    (List.replicate g.nodes.length 0) rfl (by omega) (by simp)
    (by
      intro p hp
      simp [polist_zero, pc])
    hilen
    (by
      intro p hp q hq
      rw [pc] at hq
      simp [polist_zero] at hq)
  rw [hfill] at hbuild
  dsimp only at hbuild
  cases hbuild
  refine ⟨rfl, rfl, rfl, ?_, hoffs, hflen, hfin⟩
  dsimp only
  rw [List.length_scanl, hDlen]

/-! ### Well-formed graphs and traversability -/

/-- What the loading path (create_graph, hash population, CSR build)
establishes for a graph handed to the solver: positive node count, positive
edge lengths (a load-time invariant), resolvable edge endpoints, and CSR
arrays holding the degree prefix sums and the per-node edge slices
characterized by `build_csr_spec`. -/
structure WFGraph (g : Graph) : Prop where
  nodes_pos : 0 < g.nodes.length
  len_pos : ∀ e ∈ g.edges, 0 < e.length
  resolved : ∀ e ∈ g.edges, edge_resolved g e
  offsets_spec : ∀ p, p ≤ g.nodes.length → g.adj_offsets.getD p 0 = spec_off g p
  cap_ok : spec_off g g.nodes.length ≤ g.adj_indices.length
  indices_spec : ∀ p, p < g.nodes.length → ∀ q, q < deg g p →
    g.adj_indices.getD (spec_off g p + q) 0 = (orig_list g p).getD q 0

lemma orig_list_length (g : Graph) (p : ℕ) : (orig_list g p).length = deg g p := rfl

/-- Under `WFGraph`, the CSR slice of node `p` is exactly its contribution
list. -/
lemma adj_slice_spec {g : Graph} (hwf : WFGraph g) {p : ℕ} (hp : p < g.nodes.length) :
    adj_slice g (g.adj_offsets.getD p 0) (g.adj_offsets.getD (p + 1) 0) = orig_list g p := by
  rw [hwf.offsets_spec p (by omega), hwf.offsets_spec (p + 1) (by omega), spec_off_succ]
  have hsub : spec_off g p + deg g p - spec_off g p = deg g p := by omega
  have hcap : spec_off g p + deg g p ≤ g.adj_indices.length := by
    have h1 : spec_off g p + deg g p ≤ spec_off g g.nodes.length := by
      rw [← spec_off_succ]
      exact spec_off_mono g (by omega)
    have := hwf.cap_ok
    omega
  unfold adj_slice
  rw [hsub]
  apply List.ext_getElem
  · rw [List.length_take, List.length_drop, orig_list_length]
    omega
  · intro n h1 h2
    have hn : n < deg g p := by
      rw [orig_list_length] at h2
      exact h2
    rw [List.getElem_take, List.getElem_drop]
    have hidx := hwf.indices_spec p hp n hn
    rw [List.getD_eq_getElem _ _ (by omega)] at hidx
    rw [← List.getD_eq_getElem _ 0 h2, hidx]

lemma mem_per_edge {g : Graph} {p i j : ℕ} :
    j ∈ per_edge g p i ↔ (j = i ∧ (from_side g p i ∨ to_side g p i)) := by
  unfold per_edge
  rw [List.mem_append]
  constructor
  · intro h
    rcases h with h | h
    · split at h
      · simp only [List.mem_singleton] at h
        exact ⟨h, Or.inl (by assumption)⟩
      · exact absurd h (by simp)
    · split at h
      · simp only [List.mem_singleton] at h
        exact ⟨h, Or.inr (by assumption)⟩
      · exact absurd h (by simp)
  · intro ⟨hj, hside⟩
    subst hj
    rcases hside with hs | hs
    · left
      rw [if_pos hs]
      simp
    · right
      rw [if_pos hs]
      simp

lemma mem_orig_list {g : Graph} {p i : ℕ} :
    i ∈ orig_list g p ↔ i < g.edges.length ∧ (from_side g p i ∨ to_side g p i) := by
  unfold orig_list polist
  rw [List.mem_flatten]
  constructor
  · intro ⟨l, hl, hil⟩
    rw [List.mem_map] at hl
    obtain ⟨j, hj, hlj⟩ := hl
    rw [List.mem_range] at hj
    rw [← hlj] at hil
    obtain ⟨hij, hside⟩ := mem_per_edge.mp hil
    subst hij
    exact ⟨hj, hside⟩
  · intro ⟨hi, hside⟩
    refine ⟨per_edge g p i, ?_, mem_per_edge.mpr ⟨rfl, hside⟩⟩
    rw [List.mem_map]
    exact ⟨i, List.mem_range.mpr hi, rfl⟩

/-- Edge `i` of the graph may be traversed from node index `u` to node index
`v`: either `u` and `v` are the resolved `from`/`to` endpoints, or the edge
is bidirectional and they are the resolved `to`/`from` endpoints. -/
def TraversableEdge (g : Graph) (i : ℕ) (u v : ℤ) : Prop :=
  i < g.edges.length ∧
    ((find_node_index g (g.edges.getD i default).from_node = .ok u ∧
      find_node_index g (g.edges.getD i default).to_node = .ok v) ∨
     ((g.edges.getD i default).one_way = false ∧
      find_node_index g (g.edges.getD i default).to_node = .ok u ∧
      find_node_index g (g.edges.getD i default).from_node = .ok v))

instance (g : Graph) (i : ℕ) (u v : ℤ) : Decidable (TraversableEdge g i u v) := by
  unfold TraversableEdge
  exact instDecidableAnd

lemma traversable_mem_orig {g : Graph} {i : ℕ} {u v : ℤ} (ht : TraversableEdge g i u v)
    (hu : 0 ≤ u) : i ∈ orig_list g u.toNat := by
  rcases ht with ⟨hi, hcase | hcase⟩
  · rw [mem_orig_list]
    refine ⟨hi, Or.inl ?_⟩
    unfold from_side
    rw [hcase.1]
    congr 1
    omega
  · rw [mem_orig_list]
    refine ⟨hi, Or.inr ?_⟩
    unfold to_side
    refine ⟨hcase.1, ?_⟩
    rw [hcase.2.1]
    congr 1
    omega

lemma traversable_neighbor {g : Graph} {i : ℕ} {u v fi ti : ℤ} (ht : TraversableEdge g i u v)
    (hfi : find_node_index g (g.edges.getD i default).from_node = .ok fi)
    (hti : find_node_index g (g.edges.getD i default).to_node = .ok ti) :
    edge_neighbor fi ti u (g.edges.getD i default).one_way = v := by
  rcases ht with ⟨_, ⟨hf, htv⟩ | ⟨how, htu, hfv⟩⟩
  · have hfiu : fi = u := by
      rw [hfi] at hf
      cases hf
      rfl
    have htiv : ti = v := by
      rw [hti] at htv
      cases htv
      rfl
    unfold edge_neighbor
    rw [if_pos hfiu, htiv]
  · have htiu : ti = u := by
      rw [hti] at htu
      cases htu
      rfl
    have hfiv : fi = v := by
      rw [hfi] at hfv
      cases hfv
      rfl
    unfold edge_neighbor
    by_cases hfu : fi = u
    · rw [if_pos hfu]
      omega
    · rw [if_neg hfu, if_pos ⟨htiu, by simpa [List.getD_eq_getElem?_getD] using how⟩]
      exact hfiv

lemma neighbor_traversable {g : Graph} {i : ℕ} {u v fi ti : ℤ} (hi : i < g.edges.length)
    (hfi : find_node_index g (g.edges.getD i default).from_node = .ok fi)
    (hti : find_node_index g (g.edges.getD i default).to_node = .ok ti)
    (hnb : edge_neighbor fi ti u (g.edges.getD i default).one_way = v)
    (hv : v ≠ -1) : TraversableEdge g i u v := by
  unfold edge_neighbor at hnb
  refine ⟨hi, ?_⟩
  by_cases hfu : fi = u
  · rw [if_pos hfu] at hnb
    left
    rw [hfu] at hfi
    rw [hnb] at hti
    exact ⟨hfi, hti⟩
  · rw [if_neg hfu] at hnb
    split at hnb
    · rename_i hcond
      right
      refine ⟨by simpa using hcond.2, ?_, ?_⟩
      · rw [hcond.1] at hti
        exact hti
      · rw [hnb] at hfi
        exact hfi
    · exact absurd hnb.symm hv

/-! ### Walks and shortest costs -/

/-- A walk through the graph: a chained list of steps `(edge index, tail,
head)`, each traversable in that direction. -/
inductive IsWalk (g : Graph) : ℤ → ℤ → List (ℕ × ℤ × ℤ) → Prop
  | nil (u : ℤ) : IsWalk g u u []
  | cons {u v w : ℤ} {i : ℕ} {rest : List (ℕ × ℤ × ℤ)} :
      TraversableEdge g i u v → IsWalk g v w rest → IsWalk g u w ((i, u, v) :: rest)

/-- Cost of one walk step under a mode. -/
def step_cost (g : Graph) (mode : DijkstraMode) (s : ℕ × ℤ × ℤ) : ℚ :=
  edge_cost mode (g.edges.getD s.1 default)

/-- Total cost of a walk under a mode. -/
def walk_cost (g : Graph) (mode : DijkstraMode) (w : List (ℕ × ℤ × ℤ)) : ℚ :=
  (w.map (step_cost g mode)).sum

/-- An edge usable under the mode: in Time mode its speed limit must be
positive (the solver aborts on such an edge otherwise). -/
def admissible_edge (mode : DijkstraMode) (e : Edge) : Prop :=
  mode = .DIJKSTRA_FASTEST_TIME → 0 < e.speed_limit

/-- All of the walk's edges are usable under the mode. -/
def walk_admissible (g : Graph) (mode : DijkstraMode) (w : List (ℕ × ℤ × ℤ)) : Prop :=
  ∀ s ∈ w, admissible_edge mode (g.edges.getD s.1 default)

/-- Node index `v` is reachable from `u`. -/
def Reachable (g : Graph) (u v : ℤ) : Prop := ∃ w, IsWalk g u v w

/-- `c` is the cost of a cheapest walk from `u` to `v` under the mode. -/
def IsShortestCost (g : Graph) (mode : DijkstraMode) (u v : ℤ) (c : ℚ) : Prop :=
  (∃ w, IsWalk g u v w ∧ walk_cost g mode w = c) ∧
  (∀ w, IsWalk g u v w → c ≤ walk_cost g mode w)

lemma walk_cost_nil (g : Graph) (mode : DijkstraMode) : walk_cost g mode [] = 0 := rfl

lemma walk_cost_cons (g : Graph) (mode : DijkstraMode) (s : ℕ × ℤ × ℤ)
    (w : List (ℕ × ℤ × ℤ)) :
    walk_cost g mode (s :: w) = step_cost g mode s + walk_cost g mode w := by
  unfold walk_cost
  rw [List.map_cons, List.sum_cons]

lemma walk_cost_append (g : Graph) (mode : DijkstraMode) (w1 w2 : List (ℕ × ℤ × ℤ)) :
    walk_cost g mode (w1 ++ w2) = walk_cost g mode w1 + walk_cost g mode w2 := by
  unfold walk_cost
  rw [List.map_append, List.sum_append]

lemma isWalk_append {g : Graph} {u v x : ℤ} {w1 w2 : List (ℕ × ℤ × ℤ)}
    (h1 : IsWalk g u v w1) (h2 : IsWalk g v x w2) : IsWalk g u x (w1 ++ w2) := by
  induction h1 with
  | nil => exact h2
  | cons hstep htail ih => exact IsWalk.cons hstep (ih h2)

lemma step_cost_pos {g : Graph} {mode : DijkstraMode} {s : ℕ × ℤ × ℤ}
    (hlen : 0 < (g.edges.getD s.1 default).length)
    (hadm : admissible_edge mode (g.edges.getD s.1 default)) :
    0 < step_cost g mode s := by
  unfold step_cost edge_cost
  cases mode with
  | DIJKSTRA_SHORTEST_DISTANCE =>
    dsimp only
    exact_mod_cast hlen
  | DIJKSTRA_FASTEST_TIME =>
    dsimp only
    have hsp : 0 < (g.edges.getD s.1 default).speed_limit := hadm rfl
    have h1 : (0 : ℚ) < ((g.edges.getD s.1 default).length : ℚ) := by exact_mod_cast hlen
    have h2 : (0 : ℚ) < ((g.edges.getD s.1 default).speed_limit : ℚ) := by exact_mod_cast hsp
    positivity

lemma walk_cost_nonneg {g : Graph} {mode : DijkstraMode} {u v : ℤ}
    {w : List (ℕ × ℤ × ℤ)} (hwalk : IsWalk g u v w)
    (hlen : ∀ e ∈ g.edges, 0 < e.length)
    (hadm : walk_admissible g mode w) : 0 ≤ walk_cost g mode w := by
  induction hwalk with
  | nil => exact le_refl _
  | cons hstep htail ih =>
    rename_i u' v' w' i rest
    rw [walk_cost_cons]
    have hmem : g.edges.getD i default ∈ g.edges := by
      rw [List.getD_eq_getElem _ _ hstep.1]
      exact List.getElem_mem hstep.1
    have h1 : 0 < step_cost g mode (i, u', v') :=
      step_cost_pos (hlen _ hmem) (hadm _ (by simp))
    have h2 : 0 ≤ walk_cost g mode rest :=
      ih (fun s hs => hadm s (by simp [hs]))
    linarith

/-! ### The solver loop invariant -/

lemma traversable_ranges {g : Graph} (hwf : WFGraph g) {i : ℕ} {u v : ℤ}
    (ht : TraversableEdge g i u v) :
    0 ≤ u ∧ u < (g.nodes.length : ℤ) ∧ 0 ≤ v ∧ v < (g.nodes.length : ℤ) := by
  have hmem : g.edges.getD i default ∈ g.edges := by
    rw [List.getD_eq_getElem _ _ ht.1]
    exact List.getElem_mem ht.1
  obtain ⟨⟨fi, hfi, hfi0, hfiN⟩, ⟨ti, hti, hti0, htiN⟩⟩ := hwf.resolved _ hmem
  rcases ht.2 with ⟨hf, ht'⟩ | ⟨_, ht', hf⟩
  · rw [hfi] at hf
    rw [hti] at ht'
    cases hf
    cases ht'
    exact ⟨hfi0, hfiN, hti0, htiN⟩
  · rw [hti] at ht'
    rw [hfi] at hf
    cases ht'
    cases hf
    exact ⟨hti0, htiN, hfi0, hfiN⟩

/-- Invariant carried by every state of the solver's main loop (the frontier
condition is tracked separately because the early exit at the target returns
before re-establishing it). -/
structure LoopInv (g : Graph) (mode : DijkstraMode) (source : ℤ) (st : DState) : Prop where
  dist_len : st.distances.length = g.nodes.length
  pred_len : st.predecessors.length = g.nodes.length
  vis_len : st.visited.length = g.nodes.length
  heap_prop : HeapProp st.heap.nodes
  src_range : 0 ≤ source ∧ source < (g.nodes.length : ℤ)
  src_dist : dGet st.distances source = ((0 : ℚ) : Cost)
  dist_nonneg : ∀ v : ℤ, ((0 : ℚ) : Cost) ≤ dGet st.distances v
  attain : ∀ v : ℤ, ∀ c : ℚ, dGet st.distances v = (c : Cost) →
    ∃ w, IsWalk g source v w ∧ walk_admissible g mode w ∧ walk_cost g mode w = c
  entries : ∀ hn ∈ st.heap.nodes, 0 ≤ hn.node_index ∧
    hn.node_index < (g.nodes.length : ℤ) ∧
    dGet st.distances hn.node_index ≤ hn.distance ∧ hn.distance ≠ ⊤
  witness : ∀ v : ℤ, 0 ≤ v → v < (g.nodes.length : ℤ) → vGet st.visited v = false →
    dGet st.distances v ≠ ⊤ → (⟨v, dGet st.distances v⟩ : HeapNode) ∈ st.heap.nodes
  settled_fin : ∀ v : ℤ, 0 ≤ v → v < (g.nodes.length : ℤ) → vGet st.visited v = true →
    dGet st.distances v ≠ ⊤
  settled_lb : ∀ v : ℤ, 0 ≤ v → v < (g.nodes.length : ℤ) → vGet st.visited v = true →
    ∀ w, IsWalk g source v w → walk_admissible g mode w →
      dGet st.distances v ≤ (walk_cost g mode w : Cost)
  pred_spec : ∀ v : ℤ, 0 ≤ v → v < (g.nodes.length : ℤ) → v ≠ source → ∀ c : ℚ,
    dGet st.distances v = (c : Cost) →
    ∃ u i, pGet st.predecessors v = u ∧ 0 ≤ u ∧ u < (g.nodes.length : ℤ) ∧
      vGet st.visited u = true ∧ TraversableEdge g i u v ∧
      admissible_edge mode (g.edges.getD i default) ∧
      (c : Cost) = dGet st.distances u + (edge_cost mode (g.edges.getD i default) : Cost) ∧
      dGet st.distances u < (c : Cost)

/-- Every relaxation out of a settled node has been applied. -/
def FrontierInv (g : Graph) (mode : DijkstraMode) (st : DState) : Prop :=
  ∀ u : ℤ, 0 ≤ u → u < (g.nodes.length : ℤ) → vGet st.visited u = true →
    ∀ i v, TraversableEdge g i u v → 0 ≤ v → v < (g.nodes.length : ℤ) →
      vGet st.visited v = false →
      admissible_edge mode (g.edges.getD i default) →
      dGet st.distances v ≤ dGet st.distances u + (edge_cost mode (g.edges.getD i default) : Cost)

/-- A relaxation update from a settled node `u` along admissible traversable
edge `i` to the unvisited in-range neighbor `nb` preserves the loop
invariant, leaves `visited` alone, and leaves the edge relaxed. -/
lemma relax_update_inv {g : Graph} {mode : DijkstraMode} {source u nb : ℤ} {i : ℕ}
    {st st' : DState}
    (hwf : WFGraph g)
    (hinv : LoopInv g mode source st)
    (huvis : vGet st.visited u = true)
    (hiM : i < g.edges.length)
    (htrav : TraversableEdge g i u nb)
    (hnb0 : 0 ≤ nb) (hnbN : nb < (g.nodes.length : ℤ))
    (hnbvis : vGet st.visited nb = false)
    (hadm : admissible_edge mode (g.edges.getD i default))
    (hupd : relax_update st nb u
      (dGet st.distances u + (edge_cost mode (g.edges.getD i default) : Cost)) = .ok st') :
    LoopInv g mode source st' ∧ st'.visited = st.visited ∧
      dGet st'.distances nb ≤ dGet st'.distances u +
        (edge_cost mode (g.edges.getD i default) : Cost) := by
  have hmem : g.edges.getD i default ∈ g.edges := by
    rw [List.getD_eq_getElem _ _ hiM]
    exact List.getElem_mem hiM
  have hcpos : 0 < edge_cost mode (g.edges.getD i default) := by
    have := step_cost_pos (s := (i, u, nb)) (hwf.len_pos _ hmem) hadm
    simpa [step_cost] using this
  have hune : u ≠ nb := by
    intro he
    rw [he, hnbvis] at huvis
    exact absurd huvis (by simp)
  have hur := traversable_ranges hwf htrav
  have hnblt : nb.toNat < st.distances.length := by
    rw [hinv.dist_len]
    omega
  have hnbltp : nb.toNat < st.predecessors.length := by
    rw [hinv.pred_len]
    omega
  unfold relax_update at hupd
  split at hupd
  case isFalse himp =>
    cases hupd
    exact ⟨hinv, rfl, le_of_not_lt himp⟩
  case isTrue himp =>
    cases hins : insert_heap st.heap nb
        (dGet st.distances u + (edge_cost mode (g.edges.getD i default) : Cost)) with
    | error e' =>
      rw [hins] at hupd
      exact absurd hupd (by simp)
    | ok heap' =>
      rw [hins] at hupd
      obtain ⟨hhlen, hhcap, hhmem, hhprop⟩ := insert_heap_ok hins
      cases hupd
      have hnewne : dGet st.distances u +
          (edge_cost mode (g.edges.getD i default) : Cost) ≠ ⊤ := ne_top_of_lt himp
      have hdune : dGet st.distances u ≠ ⊤ := by
        intro hdu
        rw [hdu] at hnewne
        exact hnewne (by simp)
      obtain ⟨du, hdu⟩ := (WithTop.ne_top_iff_exists).mp hdune
      have hnn : ((0 : ℚ) : Cost) ≤ dGet st.distances u +
          (edge_cost mode (g.edges.getD i default) : Cost) := by
        have h1 := hinv.dist_nonneg u
        have h2 : ((0 : ℚ) : Cost) ≤ (edge_cost mode (g.edges.getD i default) : Cost) := by
          exact_mod_cast le_of_lt hcpos
        calc ((0 : ℚ) : Cost) = ((0 : ℚ) : Cost) + ((0 : ℚ) : Cost) := by norm_num
        _ ≤ dGet st.distances u + (edge_cost mode (g.edges.getD i default) : Cost) :=
            add_le_add h1 h2
      have hsrcne : source ≠ nb := by
        intro he
        have hlt := lt_of_le_of_lt hnn himp
        rw [← he, hinv.src_dist] at hlt
        exact absurd hlt (lt_irrefl _)
      have hmono : ∀ w : ℤ, dGet (lSet st.distances nb
          (dGet st.distances u + (edge_cost mode (g.edges.getD i default) : Cost))) w ≤
          dGet st.distances w := by
        intro w
        by_cases hw : w = nb
        · subst hw
          rw [dGet_lSet_self _ hnb0 hnblt]
          exact le_of_lt himp
        · rw [dGet_lSet_ne _ hw]
      have hdistu : dGet (lSet st.distances nb
          (dGet st.distances u + (edge_cost mode (g.edges.getD i default) : Cost))) u =
          dGet st.distances u := dGet_lSet_ne _ hune
      refine ⟨{ dist_len := ?_, pred_len := ?_, vis_len := hinv.vis_len,
                heap_prop := hhprop hinv.heap_prop, src_range := hinv.src_range,
                src_dist := ?_, dist_nonneg := ?_, attain := ?_, entries := ?_,
                witness := ?_, settled_fin := ?_, settled_lb := ?_,
                pred_spec := ?_ }, rfl, ?_⟩
      · dsimp only
        rw [lSet_length]
        exact hinv.dist_len
      · dsimp only
        rw [lSet_length]
        exact hinv.pred_len
      · dsimp only
        rw [dGet_lSet_ne _ hsrcne]
        exact hinv.src_dist
      · intro v
        dsimp only
        by_cases hv : v = nb
        · subst hv
          rw [dGet_lSet_self _ hnb0 hnblt]
          exact hnn
        · rw [dGet_lSet_ne _ hv]
          exact hinv.dist_nonneg v
      · intro v c' hc'
        dsimp only at hc'
        by_cases hv : v = nb
        · rw [hv] at hc' ⊢
          rw [dGet_lSet_self _ hnb0 hnblt, ← hdu] at hc'
          have hc'' : du + edge_cost mode (g.edges.getD i default) = c' := by
            exact_mod_cast hc'
          obtain ⟨w0, hw0, hw0adm, hw0cost⟩ := hinv.attain u du hdu.symm
          refine ⟨w0 ++ [(i, u, nb)],
            isWalk_append hw0 (IsWalk.cons htrav (IsWalk.nil nb)), ?_, ?_⟩
          · intro s hs
            rcases List.mem_append.mp hs with hs | hs
            · exact hw0adm s hs
            · simp only [List.mem_singleton] at hs
              subst hs
              exact hadm
          · rw [walk_cost_append, hw0cost, walk_cost_cons, walk_cost_nil]
            have hsc : step_cost g mode (i, u, nb) =
                edge_cost mode (g.edges.getD i default) := rfl
            rw [hsc, add_zero]
            exact hc''
        · rw [dGet_lSet_ne _ hv] at hc'
          exact hinv.attain v c' hc'
      · intro hn hmem'
        dsimp only at hmem' ⊢
        rcases (hhmem hn).mp hmem' with hold | hnew
        · obtain ⟨r1, r2, r3, r4⟩ := hinv.entries hn hold
          exact ⟨r1, r2, le_trans (hmono hn.node_index) r3, r4⟩
        · subst hnew
          dsimp only
          refine ⟨hnb0, hnbN, ?_, hnewne⟩
          rw [dGet_lSet_self _ hnb0 hnblt]
      · intro v hv0 hvN hvvis hvne
        dsimp only at hvvis hvne ⊢
        by_cases hv : v = nb
        · subst hv
          rw [dGet_lSet_self _ hnb0 hnblt] at hvne ⊢
          exact (hhmem _).mpr (Or.inr rfl)
        · rw [dGet_lSet_ne _ hv] at hvne ⊢
          exact (hhmem _).mpr (Or.inl (hinv.witness v hv0 hvN hvvis hvne))
      · intro v hv0 hvN hvvis
        dsimp only at hvvis ⊢
        have hvne : v ≠ nb := by
          intro he
          rw [he, hnbvis] at hvvis
          exact absurd hvvis (by simp)
        rw [dGet_lSet_ne _ hvne]
        exact hinv.settled_fin v hv0 hvN hvvis
      · intro v hv0 hvN hvvis w hw hwadm
        dsimp only at hvvis ⊢
        have hvne : v ≠ nb := by
          intro he
          rw [he, hnbvis] at hvvis
          exact absurd hvvis (by simp)
        rw [dGet_lSet_ne _ hvne]
        exact hinv.settled_lb v hv0 hvN hvvis w hw hwadm
      · intro v hv0 hvN hvsrc c' hc'
        dsimp only at hc' ⊢
        by_cases hv : v = nb
        · subst hv
          rw [dGet_lSet_self _ hnb0 hnblt, ← hdu] at hc'
          have hc'' : du + edge_cost mode (g.edges.getD i default) = c' := by
            exact_mod_cast hc'
          refine ⟨u, i, ?_, hur.1, hur.2.1, huvis, htrav, hadm, ?_, ?_⟩
          · rw [pGet_lSet_self _ hnb0 hnbltp]
          · rw [hdistu, ← hdu, ← WithTop.coe_add, hc'']
          · rw [hdistu, ← hdu]
            have hlt : du < c' := by
              rw [← hc'']
              linarith
            exact_mod_cast hlt
        · rw [dGet_lSet_ne _ hv] at hc'
          obtain ⟨u', i', hp1, hp2, hp3, hp4, hp5, hp6, hp7, hp8⟩ :=
            hinv.pred_spec v hv0 hvN hvsrc c' hc'
          have hu'ne : u' ≠ nb := by
            intro he
            rw [he, hnbvis] at hp4
            exact absurd hp4 (by simp)
          refine ⟨u', i', ?_, hp2, hp3, hp4, hp5, hp6, ?_, ?_⟩
          · rw [pGet_lSet_ne _ hv]
            exact hp1
          · rw [dGet_lSet_ne _ hu'ne]
            exact hp7
          · rw [dGet_lSet_ne _ hu'ne]
            exact hp8
      · dsimp only
        rw [dGet_lSet_self _ hnb0 hnblt, hdistu]

/-- One iteration of the adjacency loop from a settled node preserves the
loop invariant and leaves its edge relaxed. -/
lemma relax_edge_inv {g : Graph} {mode : DijkstraMode} {source u : ℤ} {i : ℕ}
    {st st' : DState}
    (hwf : WFGraph g)
    (hinv : LoopInv g mode source st)
    (huvis : vGet st.visited u = true)
    (hiM : i < g.edges.length)
    (h : relax_edge g mode u i st = .ok st') :
    LoopInv g mode source st' ∧ st'.visited = st.visited ∧
    (∀ v : ℤ, TraversableEdge g i u v → 0 ≤ v → v < (g.nodes.length : ℤ) →
      vGet st.visited v = false →
      admissible_edge mode (g.edges.getD i default) →
      dGet st'.distances v ≤ dGet st'.distances u +
        (edge_cost mode (g.edges.getD i default) : Cost)) := by
  unfold relax_edge at h
  cases hfi : find_node_index g (g.edges.getD i default).from_node with
  | error e =>
    rw [hfi] at h
    exact absurd h (by simp)
  | ok fi =>
    rw [hfi] at h
    dsimp only at h
    cases hti : find_node_index g (g.edges.getD i default).to_node with
    | error e =>
      rw [hti] at h
      exact absurd h (by simp)
    | ok ti =>
      rw [hti] at h
      dsimp only at h
      split at h
      · rename_i hskip
        cases h
        refine ⟨hinv, rfl, ?_⟩
        intro v htv hv0 hvN hvvis hadm
        have hveq := traversable_neighbor htv hfi hti
        rw [hveq] at hskip
        omega
      · split at h
        · rename_i hskip hvis
          cases h
          refine ⟨hinv, rfl, ?_⟩
          intro v htv hv0 hvN hvvis hadm
          have hveq := traversable_neighbor htv hfi hti
          rw [hveq] at hvis
          rw [hvis] at hvvis
          exact absurd hvvis (by simp)
        · rename_i hskip hnvis
          push_neg at hskip
          have hnb0 : 0 ≤ edge_neighbor fi ti u (g.edges.getD i default).one_way := by
            omega
          have hnbN : edge_neighbor fi ti u (g.edges.getD i default).one_way <
              (g.nodes.length : ℤ) := by
            omega
          have hnvis' : vGet st.visited
              (edge_neighbor fi ti u (g.edges.getD i default).one_way) = false := by
            simpa using hnvis
          have htrav : TraversableEdge g i u
              (edge_neighbor fi ti u (g.edges.getD i default).one_way) :=
            neighbor_traversable hiM hfi hti rfl hskip.1
          cases mode with
          | DIJKSTRA_FASTEST_TIME =>
            dsimp only at h
            split at h
            · exact absurd h (by simp)
            · rename_i hsp
              have hadm : admissible_edge .DIJKSTRA_FASTEST_TIME
                  (g.edges.getD i default) := by
                intro _
                omega
              obtain ⟨hinv', hvis', hbound⟩ :=
                relax_update_inv hwf hinv huvis hiM htrav hnb0 hnbN hnvis' hadm h
              refine ⟨hinv', hvis', ?_⟩
              intro v htv hv0 hvN hvvis hadm'
              have hveq := traversable_neighbor htv hfi hti
              rw [← hveq]
              exact hbound
          | DIJKSTRA_SHORTEST_DISTANCE =>
            dsimp only at h
            have hadm : admissible_edge .DIJKSTRA_SHORTEST_DISTANCE
                (g.edges.getD i default) := fun hmode => absurd hmode (by decide)
            obtain ⟨hinv', hvis', hbound⟩ :=
              relax_update_inv hwf hinv huvis hiM htrav hnb0 hnbN hnvis' hadm h
            refine ⟨hinv', hvis', ?_⟩
            intro v htv hv0 hvN hvvis hadm'
            have hveq := traversable_neighbor htv hfi hti
            rw [← hveq]
            exact hbound

/-- The whole adjacency loop from a settled node preserves the loop
invariant and leaves every processed edge relaxed in the final state. -/
lemma relax_edges_inv {g : Graph} {mode : DijkstraMode} {source u : ℤ}
    (hwf : WFGraph g) :
    ∀ (l : List ℕ) (st st' : DState),
    LoopInv g mode source st →
    vGet st.visited u = true →
    (∀ i ∈ l, i < g.edges.length) →
    relax_edges g mode u l st = .ok st' →
    LoopInv g mode source st' ∧ st'.visited = st.visited ∧
    (∀ i ∈ l, ∀ v : ℤ, TraversableEdge g i u v → 0 ≤ v → v < (g.nodes.length : ℤ) →
      vGet st.visited v = false →
      admissible_edge mode (g.edges.getD i default) →
      dGet st'.distances v ≤ dGet st'.distances u +
        (edge_cost mode (g.edges.getD i default) : Cost)) := by
  intro l
  induction l with
  | nil =>
    intro st st' hinv huvis hM h
    unfold relax_edges at h
    cases h
    exact ⟨hinv, rfl, fun i hi => absurd hi (by simp)⟩
  | cons ei rest ih =>
    intro st st' hinv huvis hM h
    unfold relax_edges at h
    cases hstep : relax_edge g mode u ei st with
    | error e =>
      rw [hstep] at h
      exact absurd h (by simp)
    | ok st1 =>
      rw [hstep] at h
      obtain ⟨hinv1, hvis1, hbound1⟩ :=
        relax_edge_inv hwf hinv huvis (hM ei (by simp)) hstep
      have huvis1 : vGet st1.visited u = true := by
        rw [hvis1]
        exact huvis
      obtain ⟨hinv', hvis', hbound'⟩ :=
        ih st1 st' hinv1 huvis1 (fun i hi => hM i (by simp [hi])) h
      obtain ⟨f1, f2, f3, f4, f5, f6, f7, f8⟩ := relax_edges_frame rest st1 st' h
      refine ⟨hinv', by rw [hvis', hvis1], ?_⟩
      intro i hi v htv hv0 hvN hvvis hadm
      rcases List.mem_cons.mp hi with hi' | hi'
      · rw [hi'] at htv hadm ⊢
        have hb := hbound1 v htv hv0 hvN hvvis hadm
        have hdu : dGet st'.distances u = dGet st1.distances u := (f8 u huvis1).1
        calc dGet st'.distances v ≤ dGet st1.distances v := f7 v
          _ ≤ dGet st1.distances u +
              (edge_cost mode (g.edges.getD ei default) : Cost) := hb
          _ = dGet st'.distances u +
              (edge_cost mode (g.edges.getD ei default) : Cost) := by rw [hdu]
      · have hvvis1 : vGet st1.visited v = false := by
          rw [hvis1]
          exact hvvis
        exact hbound' i hi' v htv hv0 hvN hvvis1 hadm

/-- Crossing lemma: an admissible walk from a settled node with distance
label `cx` to an unvisited node passes through some unvisited node whose
distance label is at most `cx` plus the walk's cost. -/
lemma frontier_path {g : Graph} {mode : DijkstraMode} {source : ℤ} {st : DState}
    (hwf : WFGraph g) (hinv : LoopInv g mode source st) (hfr : FrontierInv g mode st) :
    ∀ (w : List (ℕ × ℤ × ℤ)) (x v : ℤ) (cx : ℚ),
      IsWalk g x v w → walk_admissible g mode w →
      0 ≤ x → x < (g.nodes.length : ℤ) → vGet st.visited x = true →
      dGet st.distances x = (cx : Cost) →
      vGet st.visited v = false →
      ∃ (y : ℤ) (cy : ℚ), 0 ≤ y ∧ y < (g.nodes.length : ℤ) ∧
        vGet st.visited y = false ∧ dGet st.distances y = (cy : Cost) ∧
        cy ≤ cx + walk_cost g mode w := by
  intro w
  induction w with
  | nil =>
    intro x v cx hwalk hadm hx0 hxN hxvis hcx hvvis
    cases hwalk
    rw [hxvis] at hvvis
    exact absurd hvvis (by simp)
  | cons s rest ih =>
    intro x v cx hwalk hadm hx0 hxN hxvis hcx hvvis
    cases hwalk with
    | cons hstep htail =>
      rename_i m i
      have hmr := traversable_ranges hwf hstep
      have hadm_e : admissible_edge mode (g.edges.getD i default) :=
        hadm (i, x, m) (by simp)
      have hadm_rest : walk_admissible g mode rest := fun s hs => hadm s (by simp [hs])
      have hsc : step_cost g mode (i, x, m) = edge_cost mode (g.edges.getD i default) := rfl
      cases hm : vGet st.visited m with
      | false =>
        have hb := hfr x hx0 hxN hxvis i m hstep hmr.2.2.1 hmr.2.2.2 hm hadm_e
        rw [hcx] at hb
        have htop : ((cx : Cost) + (edge_cost mode (g.edges.getD i default) : Cost)) < ⊤ :=
          (WithTop.add_lt_top).mpr ⟨WithTop.coe_lt_top _, WithTop.coe_lt_top _⟩
        have hfin : dGet st.distances m ≠ ⊤ := ne_of_lt (lt_of_le_of_lt hb htop)
        obtain ⟨cm, hcm⟩ := (WithTop.ne_top_iff_exists).mp hfin
        rw [← hcm] at hb
        have hq : cm ≤ cx + edge_cost mode (g.edges.getD i default) := by exact_mod_cast hb
        refine ⟨m, cm, hmr.2.2.1, hmr.2.2.2, hm, hcm.symm, ?_⟩
        have hrest : 0 ≤ walk_cost g mode rest :=
          walk_cost_nonneg htail hwf.len_pos hadm_rest
        rw [walk_cost_cons, hsc]
        linarith
      | true =>
        have hfinm : dGet st.distances m ≠ ⊤ :=
          hinv.settled_fin m hmr.2.2.1 hmr.2.2.2 hm
        obtain ⟨cm, hcm⟩ := (WithTop.ne_top_iff_exists).mp hfinm
        obtain ⟨wx, hwx, hwxadm, hwxcost⟩ := hinv.attain x cx hcx
        have hwalkm : IsWalk g source m (wx ++ [(i, x, m)]) :=
          isWalk_append hwx (IsWalk.cons hstep (IsWalk.nil m))
        have hadmm : walk_admissible g mode (wx ++ [(i, x, m)]) := by
          intro s hs
          rcases List.mem_append.mp hs with hs | hs
          · exact hwxadm s hs
          · simp only [List.mem_singleton] at hs
            subst hs
            exact hadm_e
        have hlb := hinv.settled_lb m hmr.2.2.1 hmr.2.2.2 hm _ hwalkm hadmm
        have hc1 : walk_cost g mode (wx ++ [(i, x, m)]) =
            cx + edge_cost mode (g.edges.getD i default) := by
          rw [walk_cost_append, hwxcost, walk_cost_cons, walk_cost_nil, hsc, add_zero]
        rw [hc1, ← hcm] at hlb
        have hcm_le : cm ≤ cx + edge_cost mode (g.edges.getD i default) := by
          exact_mod_cast hlb
        obtain ⟨y, cy, hy0, hyN, hyvis, hcy, hle⟩ :=
          ih m v cm htail hadm_rest hmr.2.2.1 hmr.2.2.2 hm hcm.symm hvvis
        refine ⟨y, cy, hy0, hyN, hyvis, hcy, ?_⟩
        rw [walk_cost_cons, hsc]
        linarith

/-- Along any admissible walk from the source to an unvisited node there is
an unvisited node whose distance label is at most the walk's cost. -/
lemma unvisited_lower_entry {g : Graph} {mode : DijkstraMode} {source : ℤ} {st : DState}
    (hwf : WFGraph g) (hinv : LoopInv g mode source st) (hfr : FrontierInv g mode st) :
    ∀ (w : List (ℕ × ℤ × ℤ)) (v : ℤ),
      IsWalk g source v w → walk_admissible g mode w →
      vGet st.visited v = false →
      ∃ (y : ℤ) (cy : ℚ), 0 ≤ y ∧ y < (g.nodes.length : ℤ) ∧
        vGet st.visited y = false ∧ dGet st.distances y = (cy : Cost) ∧
        cy ≤ walk_cost g mode w := by
  intro w v hwalk hadm hvvis
  cases hs : vGet st.visited source with
  | true =>
    obtain ⟨y, cy, hy0, hyN, hyvis, hcy, hle⟩ :=
      frontier_path hwf hinv hfr w source v 0 hwalk hadm hinv.src_range.1
        hinv.src_range.2 hs hinv.src_dist hvvis
    exact ⟨y, cy, hy0, hyN, hyvis, hcy, by linarith⟩
  | false =>
    exact ⟨source, 0, hinv.src_range.1, hinv.src_range.2, hs, hinv.src_dist,
      walk_cost_nonneg hwalk hwf.len_pos hadm⟩

lemma LoopInv_set_tf {g : Graph} {mode : DijkstraMode} {source : ℤ} {st : DState}
    {b : Bool} (hinv : LoopInv g mode source st) :
    LoopInv g mode source { st with target_found := b } :=
  ⟨hinv.dist_len, hinv.pred_len, hinv.vis_len, hinv.heap_prop, hinv.src_range,
   hinv.src_dist, hinv.dist_nonneg, hinv.attain, hinv.entries, hinv.witness,
   hinv.settled_fin, hinv.settled_lb, hinv.pred_spec⟩

/-- The main loop preserves the invariant; on normal exit either the target
was settled (early exit) or the heap is empty and every settled-to-unvisited
edge is relaxed. -/
lemma dijkstra_loop_inv {g : Graph} {mode : DijkstraMode} {source target : ℤ}
    (hwf : WFGraph g) :
    ∀ (fuel : ℕ) (st st' : DState),
    LoopInv g mode source st →
    FrontierInv g mode st →
    st.target_found = false →
    dijkstra_loop g mode target fuel st = some (.ok st') →
    LoopInv g mode source st' ∧
    ((st'.target_found = true ∧ 0 ≤ target ∧ target < (g.nodes.length : ℤ) ∧
        vGet st'.visited target = true) ∨
     (st'.target_found = false ∧ st'.heap.nodes = [] ∧ FrontierInv g mode st')) := by
  intro fuel
  induction fuel with
  | zero =>
    intro st st' hinv hfr htf h
    rw [dijkstra_loop] at h
    exact absurd h (by simp)
  | succ fuel ih =>
    intro st st' hinv hfr htf h
    rw [dijkstra_loop] at h
    by_cases hemp : st.heap.nodes = []
    · rw [if_pos hemp] at h
      have hst' : st = st' := by
        injection h with h1
        injection h1
      subst hst'
      exact ⟨hinv, Or.inr ⟨htf, hemp, hfr⟩⟩
    · rw [if_neg hemp] at h
      dsimp only at h
      set mh := extract_min st.heap with hmh
      have hlenpos : 0 < st.heap.nodes.length := List.length_pos.mpr hemp
      have emsp := extract_min_spec st.heap.nodes st.heap.capacity hemp hinv.heap_prop
      have heta : (⟨st.heap.nodes, st.heap.capacity⟩ : MinHeap) = st.heap := rfl
      rw [heta, ← hmh] at emsp
      obtain ⟨hroot, hcap', hlen', hprop', hsub, hcover⟩ := emsp
      have hrootmem : mh.1 ∈ st.heap.nodes := by
        rw [hroot]
        exact hget_mem hlenpos
      obtain ⟨hc0, hcN, hcle, hcfin⟩ := hinv.entries mh.1 hrootmem
      have hmin : ∀ y ∈ st.heap.nodes, mh.1.distance ≤ y.distance := by
        intro y hy
        rw [hroot]
        exact heapProp_min st.heap.nodes hinv.heap_prop y hy
      split at h
      · rename_i hvis
        have hvis' : vGet st.visited mh.1.node_index = true := hvis
        have hwit1 : ∀ v : ℤ, 0 ≤ v → v < (g.nodes.length : ℤ) →
            vGet st.visited v = false → dGet st.distances v ≠ ⊤ →
            (⟨v, dGet st.distances v⟩ : HeapNode) ∈ mh.2.nodes := by
          intro v hv0 hvN hvv hvne
          have hm := hinv.witness v hv0 hvN hvv hvne
          rcases hcover _ hm with he | he
          · exfalso
            have hveq : v = mh.1.node_index := by
              rw [hroot]
              exact congrArg HeapNode.node_index he
            rw [hveq, hvis'] at hvv
            exact absurd hvv (by simp)
          · exact he
        have hinv1 : LoopInv g mode source { st with heap := mh.2 } :=
          ⟨hinv.dist_len, hinv.pred_len, hinv.vis_len, hprop', hinv.src_range,
           hinv.src_dist, hinv.dist_nonneg, hinv.attain,
           (fun hn hmem' => hinv.entries hn (hsub hn hmem')), hwit1,
           hinv.settled_fin, hinv.settled_lb, hinv.pred_spec⟩
        exact ih _ st' hinv1 hfr htf h
      · rename_i hnvis
        have hnvis' : vGet st.visited mh.1.node_index = false := by
          simpa using hnvis
        have hcurlt : mh.1.node_index.toNat < st.visited.length := by
          rw [hinv.vis_len]
          omega
        have hvismono : ∀ w : ℤ, vGet st.visited w = true →
            vGet (lSet st.visited mh.1.node_index true) w = true := by
          intro w hw
          by_cases hwc : w = mh.1.node_index
          · rw [hwc]
            exact vGet_lSet_self _ hc0 hcurlt
          · rw [vGet_lSet_ne _ hwc]
            exact hw
        have hvisnew : vGet (lSet st.visited mh.1.node_index true) mh.1.node_index = true :=
          vGet_lSet_self _ hc0 hcurlt
        have hcfinite : dGet st.distances mh.1.node_index ≠ ⊤ :=
          ne_top_of_le_ne_top hcfin hcle
        have hopt : ∀ w, IsWalk g source mh.1.node_index w → walk_admissible g mode w →
            dGet st.distances mh.1.node_index ≤ (walk_cost g mode w : Cost) := by
          intro w hw hwadm
          obtain ⟨y, cy, hy0, hyN, hyvis, hcy, hle⟩ :=
            unvisited_lower_entry hwf hinv hfr w mh.1.node_index hw hwadm hnvis'
          have hyne : dGet st.distances y ≠ ⊤ := by
            rw [hcy]
            exact WithTop.coe_ne_top
          have hymem := hinv.witness y hy0 hyN hyvis hyne
          have hyent := hmin _ hymem
          calc dGet st.distances mh.1.node_index ≤ mh.1.distance := hcle
            _ ≤ dGet st.distances y := hyent
            _ = (cy : Cost) := hcy
            _ ≤ (walk_cost g mode w : Cost) := by exact_mod_cast hle
        have hwit2 : ∀ v : ℤ, 0 ≤ v → v < (g.nodes.length : ℤ) →
            vGet (lSet st.visited mh.1.node_index true) v = false →
            dGet st.distances v ≠ ⊤ →
            (⟨v, dGet st.distances v⟩ : HeapNode) ∈ mh.2.nodes := by
          intro v hv0 hvN hvv hvne
          have hvnc : v ≠ mh.1.node_index := by
            intro he
            rw [he, hvisnew] at hvv
            exact absurd hvv (by simp)
          rw [vGet_lSet_ne _ hvnc] at hvv
          have hm := hinv.witness v hv0 hvN hvv hvne
          rcases hcover _ hm with he | he
          · exfalso
            apply hvnc
            rw [hroot]
            exact congrArg HeapNode.node_index he
          · exact he
        have hsfin2 : ∀ v : ℤ, 0 ≤ v → v < (g.nodes.length : ℤ) →
            vGet (lSet st.visited mh.1.node_index true) v = true →
            dGet st.distances v ≠ ⊤ := by
          intro v hv0 hvN hvv
          by_cases hvc : v = mh.1.node_index
          · rw [hvc]
            exact hcfinite
          · rw [vGet_lSet_ne _ hvc] at hvv
            exact hinv.settled_fin v hv0 hvN hvv
        have hslb2 : ∀ v : ℤ, 0 ≤ v → v < (g.nodes.length : ℤ) →
            vGet (lSet st.visited mh.1.node_index true) v = true →
            ∀ w, IsWalk g source v w → walk_admissible g mode w →
            dGet st.distances v ≤ (walk_cost g mode w : Cost) := by
          intro v hv0 hvN hvv w hw hwadm
          by_cases hvc : v = mh.1.node_index
          · rw [hvc] at hw ⊢
            exact hopt w hw hwadm
          · rw [vGet_lSet_ne _ hvc] at hvv
            exact hinv.settled_lb v hv0 hvN hvv w hw hwadm
        have hps2 : ∀ v : ℤ, 0 ≤ v → v < (g.nodes.length : ℤ) → v ≠ source →
            ∀ c : ℚ, dGet st.distances v = (c : Cost) →
            ∃ u i, pGet st.predecessors v = u ∧ 0 ≤ u ∧ u < (g.nodes.length : ℤ) ∧
              vGet (lSet st.visited mh.1.node_index true) u = true ∧
              TraversableEdge g i u v ∧
              admissible_edge mode (g.edges.getD i default) ∧
              (c : Cost) = dGet st.distances u +
                (edge_cost mode (g.edges.getD i default) : Cost) ∧
              dGet st.distances u < (c : Cost) := by
          intro v hv0 hvN hvs c hc
          obtain ⟨u', i', hp1, hp2, hp3, hp4, hp5, hp6, hp7, hp8⟩ :=
            hinv.pred_spec v hv0 hvN hvs c hc
          exact ⟨u', i', hp1, hp2, hp3, hvismono u' hp4, hp5, hp6, hp7, hp8⟩
        have hinv2 : LoopInv g mode source
            { st with heap := mh.2, visited := lSet st.visited mh.1.node_index true } :=
          ⟨hinv.dist_len, hinv.pred_len, by dsimp only; rw [lSet_length]; exact hinv.vis_len,
           hprop', hinv.src_range, hinv.src_dist, hinv.dist_nonneg, hinv.attain,
           (fun hn hmem' => hinv.entries hn (hsub hn hmem')), hwit2, hsfin2, hslb2, hps2⟩
        split at h
        · rename_i htgt
          cases h
          refine ⟨LoopInv_set_tf hinv2, Or.inl ⟨rfl, ?_, ?_, ?_⟩⟩
          · rw [← htgt]
            exact hc0
          · rw [← htgt]
            exact hcN
          · show vGet (lSet st.visited mh.1.node_index true) target = true
            rw [← htgt]
            exact hvisnew
        · rename_i htgt
          have hadjok : get_adjacent_edges_csr g mh.1.node_index =
              .ok (g.adj_offsets.getD mh.1.node_index.toNat 0,
                   g.adj_offsets.getD (mh.1.node_index.toNat + 1) 0) := by
            unfold get_adjacent_edges_csr
            rw [if_neg (by omega)]
          rw [hadjok] at h
          dsimp only at h
          split at h
          · rename_i e hrel
            exact absurd h (by simp)
          · rename_i st3 hrel
            have hcurN : mh.1.node_index.toNat < g.nodes.length := by omega
            have hslice : adj_slice g (g.adj_offsets.getD mh.1.node_index.toNat 0)
                (g.adj_offsets.getD (mh.1.node_index.toNat + 1) 0) =
                orig_list g mh.1.node_index.toNat := adj_slice_spec hwf hcurN
            have hM : ∀ i ∈ adj_slice g (g.adj_offsets.getD mh.1.node_index.toNat 0)
                (g.adj_offsets.getD (mh.1.node_index.toNat + 1) 0), i < g.edges.length := by
              intro i hi
              rw [hslice] at hi
              exact (mem_orig_list.mp hi).1
            obtain ⟨hinv3, hvis3, hbound3⟩ :=
              relax_edges_inv hwf _ _ st3 hinv2 hvisnew hM hrel
            obtain ⟨f1, f2, f3, f4, f5, f6, f7, f8⟩ := relax_edges_frame _ _ _ hrel
            have hfr3 : FrontierInv g mode st3 := by
              intro x hx0 hxN hxvis i v htv hv0 hvN hvvis hadm
              rw [hvis3] at hxvis hvvis
              dsimp only at hxvis hvvis
              by_cases hxc : x = mh.1.node_index
              · have hmem : i ∈ adj_slice g (g.adj_offsets.getD mh.1.node_index.toNat 0)
                    (g.adj_offsets.getD (mh.1.node_index.toNat + 1) 0) := by
                  rw [hslice]
                  exact traversable_mem_orig (hxc ▸ htv) hc0
                have hb := hbound3 i hmem v (hxc ▸ htv) hv0 hvN hvvis hadm
                rw [hxc]
                exact hb
              · rw [vGet_lSet_ne _ hxc] at hxvis
                have hvnc : v ≠ mh.1.node_index := by
                  intro he
                  rw [he, hvisnew] at hvvis
                  exact absurd hvvis (by simp)
                have hvvis0 : vGet st.visited v = false := by
                  rw [vGet_lSet_ne _ hvnc] at hvvis
                  exact hvvis
                have hold := hfr x hx0 hxN hxvis i v htv hv0 hvN hvvis0 hadm
                have hx2 : vGet (lSet st.visited mh.1.node_index true) x = true :=
                  hvismono x hxvis
                have hdx : dGet st3.distances x = dGet st.distances x := (f8 x hx2).1
                calc dGet st3.distances v ≤ dGet st.distances v := f7 v
                  _ ≤ dGet st.distances x +
                      (edge_cost mode (g.edges.getD i default) : Cost) := hold
                  _ = dGet st3.distances x +
                      (edge_cost mode (g.edges.getD i default) : Cost) := by rw [hdx]
            have htf3 : st3.target_found = false := by
              rw [f2]
              exact htf
            exact ih st3 st' hinv3 hfr3 htf3 h

/-- The state entering the main loop satisfies the loop invariant. -/
lemma initial_LoopInv {g : Graph} {source : ℤ} (mode : DijkstraMode)
    (hwf : WFGraph g) (hs0 : 0 ≤ source) (hsN : source < (g.nodes.length : ℤ)) :
    LoopInv g mode source
      ⟨lSet (List.replicate g.nodes.length (⊤ : Cost)) source 0,
       List.replicate g.nodes.length (-1 : ℤ), List.replicate g.nodes.length false,
       ⟨[⟨source, 0⟩], g.nodes.length⟩, false⟩ := by
  have hslt : source.toNat < (List.replicate g.nodes.length (⊤ : Cost)).length := by
    rw [List.length_replicate]
    omega
  have hsrc : dGet (lSet (List.replicate g.nodes.length (⊤ : Cost)) source 0) source =
      ((0 : ℚ) : Cost) := by
    rw [dGet_lSet_self _ hs0 hslt]
    norm_cast
  have hother : ∀ v : ℤ, v ≠ source →
      dGet (lSet (List.replicate g.nodes.length (⊤ : Cost)) source 0) v = ⊤ := by
    intro v hv
    rw [dGet_lSet_ne _ hv, dGet_replicate]
  refine ⟨?_, ?_, ?_, heapProp_singleton _, ⟨hs0, hsN⟩, hsrc, ?_, ?_, ?_, ?_, ?_, ?_, ?_⟩
  · dsimp only
    rw [lSet_length, List.length_replicate]
  · dsimp only
    rw [List.length_replicate]
  · dsimp only
    rw [List.length_replicate]
  · intro v
    dsimp only
    by_cases hv : v = source
    · rw [hv, hsrc]
    · rw [hother v hv]
      exact le_top
  · intro v c hc
    dsimp only at hc
    by_cases hv : v = source
    · subst hv
      rw [hsrc] at hc
      have hc0 : (0 : ℚ) = c := by exact_mod_cast hc
      refine ⟨[], IsWalk.nil v, fun s hs => absurd hs (by simp), ?_⟩
      rw [walk_cost_nil]
      exact hc0
    · rw [hother v hv] at hc
      exact absurd hc (by simp)
  · intro hn hmem
    dsimp only at hmem
    rw [List.mem_singleton] at hmem
    subst hmem
    refine ⟨hs0, hsN, ?_, ?_⟩
    · dsimp only
      rw [hsrc]
      norm_num
    · exact (by simp : ((0 : ℚ) : Cost) ≠ ⊤)
  · intro v hv0 hvN hvv hvne
    dsimp only at hvne ⊢
    by_cases hv : v = source
    · subst hv
      rw [hsrc]
      simp
    · rw [hother v hv] at hvne
      exact absurd rfl hvne
  · intro v hv0 hvN hvv
    dsimp only at hvv
    rw [vGet_replicate_false hv0 (by omega)] at hvv
    exact absurd hvv (by simp)
  · intro v hv0 hvN hvv
    dsimp only at hvv
    rw [vGet_replicate_false hv0 (by omega)] at hvv
    exact absurd hvv (by simp)
  · intro v hv0 hvN hvs c hc
    dsimp only at hc
    rw [hother v hvs] at hc
    exact absurd hc (by simp)

/-- The state entering the main loop satisfies the frontier condition
(vacuously: no node is visited). -/
lemma initial_FrontierInv {g : Graph} {source : ℤ} (mode : DijkstraMode) :
    FrontierInv g mode
      ⟨lSet (List.replicate g.nodes.length (⊤ : Cost)) source 0,
       List.replicate g.nodes.length (-1 : ℤ), List.replicate g.nodes.length false,
       ⟨[⟨source, 0⟩], g.nodes.length⟩, false⟩ := by
  intro u hu0 huN huvis
  dsimp only at huvis
  rw [vGet_replicate_false hu0 (by omega)] at huvis
  exact absurd huvis (by simp)

/-- `dijkstra_shortest_path` on a well-formed graph: its `.ok` results come
from a loop run that started in the initial state, so they carry the loop
invariant and one of the two exit conditions. -/
lemma dijkstra_shortest_path_spec {g : Graph} {sid tid : ℕ} {mode : DijkstraMode}
    {res : DijkstraResult} {source target : ℤ} (hwf : WFGraph g)
    (hfs : find_node_index g sid = .ok source)
    (hft : find_node_index g tid = .ok target)
    (hs0 : 0 ≤ source) (hsN : source < (g.nodes.length : ℤ))
    (h : dijkstra_shortest_path g sid tid mode = .ok res) :
    ∃ st' : DState,
      res.source_index = source ∧ res.target_index = target ∧
      res.num_nodes = g.nodes.length ∧
      res.distances = st'.distances ∧ res.predecessors = st'.predecessors ∧
      res.visited = st'.visited ∧ res.target_found = st'.target_found ∧
      LoopInv g mode source st' ∧
      ((st'.target_found = true ∧ 0 ≤ target ∧ target < (g.nodes.length : ℤ) ∧
          vGet st'.visited target = true) ∨
       (st'.target_found = false ∧ st'.heap.nodes = [] ∧ FrontierInv g mode st')) := by
  unfold dijkstra_shortest_path at h
  rw [if_neg (by cases mode <;> simp)] at h
  split at h
  · exact absurd h (by simp)
  · rw [hfs] at h
    dsimp only at h
    rw [hft] at h
    dsimp only at h
    have hch : create_heap g.nodes.length = .ok ⟨[], g.nodes.length⟩ := by
      unfold create_heap
      rw [if_neg (by have := hwf.nodes_pos; omega)]
    rw [hch] at h
    dsimp only at h
    have hins : insert_heap ⟨[], g.nodes.length⟩ source 0 =
        .ok ⟨[⟨source, 0⟩], g.nodes.length⟩ := by
      have hnp := hwf.nodes_pos
      unfold insert_heap
      have hcond : ¬ ((⟨[], g.nodes.length⟩ : MinHeap).capacity ≤
          (⟨[], g.nodes.length⟩ : MinHeap).nodes.length) := by
        dsimp only
        simp only [List.length_nil]
        omega
      rw [if_neg hcond]
      rfl
    rw [hins] at h
    dsimp only at h
    split at h
    · exact absurd h (by simp)
    · exact absurd h (by simp)
    · rename_i st' hrun
      obtain ⟨hinv', hdisj⟩ := dijkstra_loop_inv hwf (dijkstra_fuel g) _ st'
        (initial_LoopInv mode hwf hs0 hsN) (initial_FrontierInv mode) rfl hrun
      cases h
      exact ⟨st', rfl, rfl, rfl, rfl, rfl, rfl, rfl, hinv', hdisj⟩

/-- Settlement is final: the loop never changes the distance or predecessor
of an already-visited node, and its visited flag stays set. -/
lemma dijkstra_loop_final {g : Graph} {mode : DijkstraMode} {target : ℤ} :
    ∀ (fuel : ℕ) (st st' : DState),
    dijkstra_loop g mode target fuel st = some (.ok st') →
    ∀ v : ℤ, vGet st.visited v = true →
      vGet st'.visited v = true ∧
      dGet st'.distances v = dGet st.distances v ∧
      pGet st'.predecessors v = pGet st.predecessors v := by
  intro fuel
  induction fuel with
  | zero =>
    intro st st' h
    rw [dijkstra_loop] at h
    exact absurd h (by simp)
  | succ fuel ih =>
    intro st st' h v hv
    rw [dijkstra_loop] at h
    by_cases hemp : st.heap.nodes = []
    · rw [if_pos hemp] at h
      have hst : st = st' := by
        injection h with h1
        injection h1
      subst hst
      exact ⟨hv, rfl, rfl⟩
    · rw [if_neg hemp] at h
      dsimp only at h
      set mh := extract_min st.heap with hmh
      split at h
      · exact ih _ st' h v hv
      · rename_i hnvis
        have hnvis' : vGet st.visited mh.1.node_index = false := by simpa using hnvis
        have hrange : 0 ≤ mh.1.node_index ∧ mh.1.node_index.toNat < st.visited.length := by
          by_cases h0 : 0 ≤ mh.1.node_index
          · by_cases h1 : mh.1.node_index.toNat < st.visited.length
            · exact ⟨h0, h1⟩
            · rw [vGet_out_of_range (Or.inl (by omega))] at hnvis'
              exact absurd hnvis' (by simp)
          · rw [vGet_out_of_range (Or.inr (by omega))] at hnvis'
            exact absurd hnvis' (by simp)
        have hvne : v ≠ mh.1.node_index := by
          intro he
          rw [he, hnvis'] at hv
          exact absurd hv (by simp)
        have hv2 : vGet (lSet st.visited mh.1.node_index true) v = true := by
          rw [vGet_lSet_ne _ hvne]
          exact hv
        split at h
        · cases h
          exact ⟨hv2, rfl, rfl⟩
        · split at h
          · exact absurd h (by simp)
          · split at h
            · exact absurd h (by simp)
            · rename_i st3 hrel
              obtain ⟨f1, f2, f3, f4, f5, f6, f7, f8⟩ := relax_edges_frame _ _ _ hrel
              have hv3 : vGet st3.visited v = true := by
                rw [f1]
                exact hv2
              obtain ⟨i1, i2, i3⟩ := ih _ st' h v hv3
              obtain ⟨e1, e2⟩ := f8 v hv2
              exact ⟨i1, by rw [i2, e1], by rw [i3, e2]⟩

/-- If the loop ends without finding the target, the target was never
marked visited. -/
lemma dijkstra_loop_not_found {g : Graph} {mode : DijkstraMode} {target : ℤ} :
    ∀ (fuel : ℕ) (st st' : DState),
    dijkstra_loop g mode target fuel st = some (.ok st') →
    vGet st.visited target = false →
    st'.target_found = false →
    vGet st'.visited target = false := by
  intro fuel
  induction fuel with
  | zero =>
    intro st st' h
    rw [dijkstra_loop] at h
    exact absurd h (by simp)
  | succ fuel ih =>
    intro st st' h hv htf'
    rw [dijkstra_loop] at h
    by_cases hemp : st.heap.nodes = []
    · rw [if_pos hemp] at h
      have hst : st = st' := by
        injection h with h1
        injection h1
      subst hst
      exact hv
    · rw [if_neg hemp] at h
      dsimp only at h
      set mh := extract_min st.heap with hmh
      split at h
      · exact ih _ st' h hv htf'
      · rename_i hnvis
        split at h
        · rename_i htgt
          cases h
          exact absurd htf' (by simp)
        · rename_i htgt
          have htne : target ≠ mh.1.node_index := fun he => htgt he.symm
          have hv2 : vGet (lSet st.visited mh.1.node_index true) target = false := by
            rw [vGet_lSet_ne _ htne]
            exact hv
          split at h
          · exact absurd h (by simp)
          · split at h
            · exact absurd h (by simp)
            · rename_i st3 hrel
              obtain ⟨f1, f2, f3, f4, f5, f6, f7, f8⟩ := relax_edges_frame _ _ _ hrel
              have hv3 : vGet st3.visited target = false := by
                rw [f1]
                exact hv2
              exact ih _ st' h hv3 htf'

/-! ### Predecessor backtracking -/

/-- Number of node positions whose distance label is strictly below `v`'s:
the strictly decreasing measure of the predecessor chain. -/
def drank (g : Graph) (st : DState) (v : ℤ) : ℕ :=
  ((Finset.range g.nodes.length).filter
    (fun u : ℕ => dGet st.distances (u : ℤ) < dGet st.distances v)).card

lemma drank_lt {g : Graph} {st : DState} {u v : ℤ} (hu0 : 0 ≤ u)
    (huN : u < (g.nodes.length : ℤ))
    (hlt : dGet st.distances u < dGet st.distances v) : drank g st u < drank g st v := by
  apply Finset.card_lt_card
  rw [Finset.ssubset_def]
  have hcast : ((u.toNat : ℤ)) = u := by omega
  have hmem : u.toNat ∈ (Finset.range g.nodes.length).filter
      (fun w : ℕ => dGet st.distances (w : ℤ) < dGet st.distances v) := by
    simp only [Finset.mem_filter, Finset.mem_range]
    refine ⟨by omega, ?_⟩
    rw [hcast]
    exact hlt
  have hnot : u.toNat ∉ (Finset.range g.nodes.length).filter
      (fun w : ℕ => dGet st.distances (w : ℤ) < dGet st.distances u) := by
    simp only [Finset.mem_filter, Finset.mem_range, not_and]
    intro _
    rw [hcast]
    exact lt_irrefl _
  refine ⟨?_, fun hts => hnot (hts hmem)⟩
  intro w hw
  simp only [Finset.mem_filter, Finset.mem_range] at hw ⊢
  exact ⟨hw.1, lt_trans hw.2 hlt⟩

lemma drank_le (g : Graph) (st : DState) (v : ℤ) : drank g st v ≤ g.nodes.length := by
  calc drank g st v ≤ (Finset.range g.nodes.length).card := Finset.card_filter_le _ _
  _ = g.nodes.length := Finset.card_range _

/-- The interior node sequence of a walk: the tail endpoint of each step. -/
def walk_heads (w : List (ℕ × ℤ × ℤ)) : List ℤ := w.map (fun s => s.2.1)

lemma walk_heads_append (w1 w2 : List (ℕ × ℤ × ℤ)) :
    walk_heads (w1 ++ w2) = walk_heads w1 ++ walk_heads w2 := List.map_append _ _ _

lemma walk_nodes_head {g : Graph} {u v : ℤ} {w : List (ℕ × ℤ × ℤ)}
    (hw : IsWalk g u v w) : (walk_heads w ++ [v]).head? = some u := by
  cases hw with
  | nil => rfl
  | cons hstep htail => rfl

/-- Consecutive nodes of a walk's node sequence are joined by traversable,
admissible edges. -/
lemma walk_chain {g : Graph} {mode : DijkstraMode} {u v : ℤ} {w : List (ℕ × ℤ × ℤ)}
    (hw : IsWalk g u v w) (hadm : walk_admissible g mode w) :
    List.Chain' (fun a b => ∃ i, i < g.edges.length ∧ TraversableEdge g i a b ∧
      admissible_edge mode (g.edges.getD i default)) (walk_heads w ++ [v]) := by
  induction hw with
  | nil => simp [walk_heads]
  | cons hstep htail ih =>
    rename_i x m y i rest
    have hadm_e : admissible_edge mode (g.edges.getD i default) := hadm (i, x, m) (by simp)
    have hadm_rest : walk_admissible g mode rest := fun s hs => hadm s (by simp [hs])
    have hchain := ih hadm_rest
    show List.Chain' _ (x :: (walk_heads rest ++ [y]))
    rw [List.chain'_cons']
    refine ⟨?_, hchain⟩
    intro z hz
    rw [walk_nodes_head htail] at hz
    cases hz
    exact ⟨i, hstep.1, hstep, hadm_e⟩

/-- Backtracking from any finite-labelled in-range node returns the node
sequence of an admissible walk from the source whose cost is the node's
distance label, provided the fuel covers the chain length. -/
lemma path_backtrack_spec {g : Graph} {mode : DijkstraMode} {source : ℤ}
    {st : DState} {res : DijkstraResult} (hinv : LoopInv g mode source st)
    (hp : res.predecessors = st.predecessors)
    (hsrc : res.source_index = source) :
    ∀ (n fuel : ℕ) (v : ℤ) (acc : List ℤ) (c : ℚ),
      drank g st v ≤ n → n ≤ fuel →
      0 ≤ v → v < (g.nodes.length : ℤ) →
      dGet st.distances v = (c : Cost) →
      ∃ w, IsWalk g source v w ∧ walk_admissible g mode w ∧ walk_cost g mode w = c ∧
        path_backtrack res fuel v acc = some (.ok ((walk_heads w ++ [v]) ++ acc)) := by
  intro n
  induction n with
  | zero =>
    intro fuel v acc c hrank hfuel hv0 hvN hc
    by_cases hvs : v = source
    · subst hvs
      have hc0 : c = 0 := by
        rw [hinv.src_dist] at hc
        exact_mod_cast hc.symm
      refine ⟨[], IsWalk.nil v, fun s hs => absurd hs (by simp), by rw [walk_cost_nil, hc0], ?_⟩
      rw [path_backtrack.eq_def]
      dsimp only
      rw [if_pos (by rw [hsrc])]
      rfl
    · exfalso
      obtain ⟨u, i, hp1, hp2, hp3, hp4, hp5, hp6, hp7, hp8⟩ :=
        hinv.pred_spec v hv0 hvN hvs c hc
      have := drank_lt hp2 hp3 (by rw [hc]; exact hp8)
      omega
  | succ n ih =>
    intro fuel v acc c hrank hfuel hv0 hvN hc
    by_cases hvs : v = source
    · subst hvs
      have hc0 : c = 0 := by
        rw [hinv.src_dist] at hc
        exact_mod_cast hc.symm
      refine ⟨[], IsWalk.nil v, fun s hs => absurd hs (by simp), by rw [walk_cost_nil, hc0], ?_⟩
      rw [path_backtrack.eq_def]
      dsimp only
      rw [if_pos (by rw [hsrc])]
      rfl
    · obtain ⟨u, i, hp1, hp2, hp3, hp4, hp5, hp6, hp7, hp8⟩ :=
        hinv.pred_spec v hv0 hvN hvs c hc
      have hdufin : dGet st.distances u ≠ ⊤ := by
        intro htop
        rw [htop] at hp7
        rw [top_add] at hp7
        exact absurd hp7.symm (by simp)
      obtain ⟨cu, hcu⟩ := (WithTop.ne_top_iff_exists).mp hdufin
      have hrlt : drank g st u < drank g st v := drank_lt hp2 hp3 (by rw [hc]; exact hp8)
      have hfuel1 : 1 ≤ fuel := by omega
      obtain ⟨f, hf⟩ : ∃ f, fuel = f + 1 := ⟨fuel - 1, by omega⟩
      subst hf
      have hcsum : cu + edge_cost mode (g.edges.getD i default) = c := by
        rw [← hcu] at hp7
        exact_mod_cast hp7.symm
      obtain ⟨w0, hw0, hw0adm, hw0cost, hw0bt⟩ :=
        ih f u (v :: acc) cu (by omega) (by omega) hp2 hp3 hcu.symm
      refine ⟨w0 ++ [(i, u, v)], isWalk_append hw0 (IsWalk.cons hp5 (IsWalk.nil v)), ?_, ?_, ?_⟩
      · intro s hs
        rcases List.mem_append.mp hs with hs | hs
        · exact hw0adm s hs
        · simp only [List.mem_singleton] at hs
          subst hs
          exact hp6
      · rw [walk_cost_append, hw0cost, walk_cost_cons, walk_cost_nil]
        have hsc : step_cost g mode (i, u, v) = edge_cost mode (g.edges.getD i default) := rfl
        rw [hsc, add_zero]
        exact hcsum
      · rw [path_backtrack]
        rw [if_neg (by rw [hsrc]; exact hvs)]
        have hnxt : pGet res.predecessors v = u := by
          rw [hp]
          exact hp1
        dsimp only
        rw [hnxt]
        rw [if_neg (by omega)]
        rw [hw0bt]
        congr 1
        congr 1
        rw [walk_heads_append]
        simp [walk_heads]

/-! ### Decidability of well-formedness, and concrete test graphs -/

/-- A lookup outcome resolving to an in-range index. -/
def resolved_ok (r : Except error_code_t ℤ) (n : ℕ) : Prop :=
  ∃ j : ℤ, r = .ok j ∧ 0 ≤ j ∧ j < (n : ℤ)

instance (r : Except error_code_t ℤ) (n : ℕ) : Decidable (resolved_ok r n) :=
  match r with
  | .ok j =>
    if h : 0 ≤ j ∧ j < (n : ℤ) then isTrue ⟨j, rfl, h.1, h.2⟩
    else isFalse (by
      rintro ⟨j', hj', h1, h2⟩
      cases hj'
      exact h ⟨h1, h2⟩)
  | .error e => isFalse (by rintro ⟨j', hj', _, _⟩; cases hj')

instance (g : Graph) (e : Edge) : Decidable (edge_resolved g e) :=
  decidable_of_iff (resolved_ok (find_node_index g e.from_node) g.nodes.length ∧
    resolved_ok (find_node_index g e.to_node) g.nodes.length) Iff.rfl

instance (g : Graph) : Decidable (WFGraph g) :=
  decidable_of_iff (0 < g.nodes.length ∧ (∀ e ∈ g.edges, 0 < e.length) ∧
    (∀ e ∈ g.edges, edge_resolved g e) ∧
    (∀ p, p ≤ g.nodes.length → g.adj_offsets.getD p 0 = spec_off g p) ∧
    spec_off g g.nodes.length ≤ g.adj_indices.length ∧
    (∀ p, p < g.nodes.length → ∀ q, q < deg g p →
      g.adj_indices.getD (spec_off g p + q) 0 = (orig_list g p).getD q 0))
    ⟨fun h => ⟨h.1, h.2.1, h.2.2.1, h.2.2.2.1, h.2.2.2.2.1, h.2.2.2.2.2⟩,
     fun h => ⟨h.nodes_pos, h.len_pos, h.resolved, h.offsets_spec, h.cap_ok, h.indices_spec⟩⟩

/-- A walk between distinct endpoints ends with an edge into its endpoint. -/
lemma walk_enters {g : Graph} {u v : ℤ} {w : List (ℕ × ℤ × ℤ)}
    (hw : IsWalk g u v w) (hne : u ≠ v) : ∃ i x, TraversableEdge g i x v := by
  induction hw with
  | nil => exact absurd rfl hne
  | cons hstep htail ih =>
    rename_i x m y i rest
    by_cases hm : m = y
    · exact ⟨i, x, hm ▸ hstep⟩
    · exact ih hm

/-- No edge of the graph can be traversed into node index `v`: neither
endpoint of any edge resolves to `v` in the entering direction. -/
def no_entry (g : Graph) (v : ℤ) : Prop :=
  ∀ i, i < g.edges.length →
    find_node_index g (g.edges.getD i default).to_node ≠ .ok v ∧
    find_node_index g (g.edges.getD i default).from_node ≠ .ok v

instance (g : Graph) (v : ℤ) : Decidable (no_entry g v) := by
  unfold no_entry
  infer_instance

lemma no_entry_unreachable {g : Graph} {u v : ℤ} (hne : u ≠ v) (hno : no_entry g v) :
    ¬ ∃ w, IsWalk g u v w := by
  rintro ⟨w, hw⟩
  obtain ⟨i, x, hi, hcase⟩ := walk_enters hw hne
  rcases hcase with ⟨_, ht⟩ | ⟨_, _, hf⟩
  · exact (hno i hi).1 ht
  · exact (hno i hi).2 hf

/-- The concrete 4-node test graph of the specification (nodes 1-4; edges
1-2 length 100 bidirectional, 2-3 length 50 one-way, 1-4 length 200
bidirectional, 4-3 length 10 bidirectional), loaded through the same
pipeline as bin_loader.c. -/
def nodesA : List Node := [⟨1, 0, 0⟩, ⟨2, 0, 0⟩, ⟨3, 0, 0⟩, ⟨4, 0, 0⟩]

def edgesA : List Edge := [⟨1, 2, 100, 0, 50, 0, false⟩, ⟨2, 3, 50, 0, 50, 0, true⟩,
  ⟨1, 4, 200, 0, 50, 0, false⟩, ⟨4, 3, 10, 0, 50, 0, false⟩]

def nullGraph : Graph := ⟨[], [], [], [], ⟨fun _ => [], 0, 0⟩⟩

def gA : Graph := (load_graph nodesA edgesA).toOption.getD nullGraph

/-- A 5-node graph whose relaxation pattern overflows the `num_nodes`-sized
heap: settling node 1 pushes 4 entries next to the stale source entry. -/
def nodesB : List Node := [⟨1, 0, 0⟩, ⟨2, 0, 0⟩, ⟨3, 0, 0⟩, ⟨4, 0, 0⟩, ⟨5, 0, 0⟩]

def edgesB : List Edge := [⟨1, 2, 1, 0, 50, 0, true⟩, ⟨1, 3, 10, 0, 50, 0, true⟩,
  ⟨1, 4, 11, 0, 50, 0, true⟩, ⟨1, 5, 12, 0, 50, 0, true⟩, ⟨2, 3, 2, 0, 50, 0, true⟩,
  ⟨2, 4, 3, 0, 50, 0, true⟩, ⟨2, 5, 4, 0, 50, 0, true⟩]

def gB : Graph := (load_graph nodesB edgesB).toOption.getD nullGraph

/-- A 6-node graph with node 6 isolated; the rich 1-5 subgraph overflows the
heap before the search can terminate normally. -/
def nodesC : List Node := [⟨1, 0, 0⟩, ⟨2, 0, 0⟩, ⟨3, 0, 0⟩, ⟨4, 0, 0⟩, ⟨5, 0, 0⟩, ⟨6, 0, 0⟩]

def edgesC : List Edge := [⟨1, 2, 1, 0, 50, 0, true⟩, ⟨1, 3, 10, 0, 50, 0, true⟩,
  ⟨1, 4, 20, 0, 50, 0, true⟩, ⟨1, 5, 30, 0, 50, 0, true⟩, ⟨2, 3, 2, 0, 50, 0, true⟩,
  ⟨2, 4, 10, 0, 50, 0, true⟩, ⟨2, 5, 20, 0, 50, 0, true⟩, ⟨3, 4, 2, 0, 50, 0, true⟩,
  ⟨3, 5, 2, 0, 50, 0, true⟩]

def gC : Graph := (load_graph nodesC edgesC).toOption.getD nullGraph

/-- `gC` plus a zero-speed edge 5→6 that is the only way into node 6. -/
def edgesD : List Edge := edgesC ++ [⟨5, 6, 5, 0, 0, 0, true⟩]

def gD : Graph := (load_graph nodesC edgesD).toOption.getD nullGraph

/-- A 3-node chain whose second edge has a zero speed limit. -/
def nodesE : List Node := [⟨1, 0, 0⟩, ⟨2, 0, 0⟩, ⟨3, 0, 0⟩]

def edgesE : List Edge := [⟨1, 2, 100, 0, 50, 0, true⟩, ⟨2, 3, 100, 0, 0, 0, true⟩]

def gE : Graph := (load_graph nodesE edgesE).toOption.getD nullGraph

/-- A 3-node graph where node 3 is unreachable. -/
def edgesF : List Edge := [⟨1, 2, 100, 0, 50, 0, true⟩]

def gF : Graph := (load_graph nodesE edgesF).toOption.getD nullGraph

/-- Every concrete test graph really is the `.ok` value of its `load_graph`
call. -/
lemma load_graphs_ok :
    (load_graph nodesA edgesA).toOption.isSome ∧ (load_graph nodesB edgesB).toOption.isSome ∧
    (load_graph nodesC edgesC).toOption.isSome ∧ (load_graph nodesC edgesD).toOption.isSome ∧
    (load_graph nodesE edgesE).toOption.isSome ∧ (load_graph nodesE edgesF).toOption.isSome := by
  decide!

lemma wf_gA : WFGraph gA := by decide!

lemma wf_gB : WFGraph gB := by decide!

lemma wf_gC : WFGraph gC := by decide!

lemma wf_gD : WFGraph gD := by decide!

lemma wf_gE : WFGraph gE := by decide!

lemma wf_gF : WFGraph gF := by decide!

/-- When a solve succeeds without finding the target, the target node was
never settled. -/
lemma dijkstra_shortest_path_unvisited {g : Graph} {sid tid : ℕ} {mode : DijkstraMode}
    {res : DijkstraResult} {target : ℤ} (hwf : WFGraph g)
    (hft : find_node_index g tid = .ok target)
    (ht0 : 0 ≤ target) (htN : target < (g.nodes.length : ℤ))
    (h : dijkstra_shortest_path g sid tid mode = .ok res)
    (htf : res.target_found = false) :
    vGet res.visited target = false := by
  unfold dijkstra_shortest_path at h
  rw [if_neg (by cases mode <;> simp)] at h
  split at h
  · exact absurd h (by simp)
  · cases hfs : find_node_index g sid with
    | error e =>
      rw [hfs] at h
      exact absurd h (by simp)
    | ok source =>
      rw [hfs] at h
      dsimp only at h
      rw [hft] at h
      dsimp only at h
      have hch : create_heap g.nodes.length = .ok ⟨[], g.nodes.length⟩ := by
        unfold create_heap
        rw [if_neg (by have := hwf.nodes_pos; omega)]
      rw [hch] at h
      dsimp only at h
      have hins : insert_heap ⟨[], g.nodes.length⟩ source 0 =
          .ok ⟨[⟨source, 0⟩], g.nodes.length⟩ := by
        have hnp := hwf.nodes_pos
        unfold insert_heap
        have hcond : ¬ ((⟨[], g.nodes.length⟩ : MinHeap).capacity ≤
            (⟨[], g.nodes.length⟩ : MinHeap).nodes.length) := by
          dsimp only
          simp only [List.length_nil]
          omega
        rw [if_neg hcond]
        rfl
      rw [hins] at h
      dsimp only at h
      split at h
      · exact absurd h (by simp)
      · exact absurd h (by simp)
      · rename_i st' hrun
        have hv0 : vGet (List.replicate g.nodes.length false) target = false :=
          vGet_replicate_false ht0 (by omega)
        have := dijkstra_loop_not_found (dijkstra_fuel g) _ st' hrun hv0
        cases h
        exact this htf

/-! ### The claims -/

/-- C2: on the concrete 4-node graph (nodes 1-4, edges 1-2 length 100
bidirectional, 2-3 length 50 one-way, 1-4 length 200 bidirectional, 4-3
length 10 bidirectional), distance-mode solve(1,3) succeeds with
target_found, cost 150 and node-id path [1,2,3], and solve(3,2) succeeds
with cost 310 and node-id path [3,4,1,2]. -/
theorem C2_concrete_four_node_graph :
    ((dijkstra_shortest_path gA 1 3 .DIJKSTRA_SHORTEST_DISTANCE).map
      (fun r => (r.target_found, get_shortest_distance r, (get_shortest_path r).code,
        (get_shortest_path r).path.map (fun i => (gA.nodes.getD i.toNat default).node_id))) =
      .ok (true, .ok ((150 : ℚ) : Cost), .ERR_SUCCESS, [1, 2, 3])) ∧
    ((dijkstra_shortest_path gA 3 2 .DIJKSTRA_SHORTEST_DISTANCE).map
      (fun r => (r.target_found, get_shortest_distance r, (get_shortest_path r).code,
        (get_shortest_path r).path.map (fun i => (gA.nodes.getD i.toNat default).node_id))) =
      .ok (true, .ok ((310 : ℚ) : Cost), .ERR_SUCCESS, [3, 4, 1, 2])) := by
  constructor
  · decide!
  · decide!

/-- C3: the heap-full branch of `insert_heap` IS reachable from a
precondition-satisfying solve: on the well-formed 5-node graph `gB` (whose
target is even reachable), the solve aborts with `ERR_MEMORY_ALLOCATION`
because the `num_nodes`-sized heap overflows during re-insertions. -/
theorem C3_heap_overflow_reachable :
    WFGraph gB ∧
    find_node_index gB 1 = .ok 0 ∧ find_node_index gB 5 = .ok 4 ∧
    TraversableEdge gB 3 0 4 ∧
    dijkstra_shortest_path gB 1 5 .DIJKSTRA_SHORTEST_DISTANCE =
      .error .ERR_MEMORY_ALLOCATION := by
  refine ⟨wf_gB, by decide!, by decide!, by decide!, by decide!⟩

/-- C9: a solve is a pure function of the graph, the endpoint ids and the
mode: two calls with identical inputs return identical results, hence the
same outcome, flag, cost and path. -/
theorem C9_deterministic {g : Graph} {sid tid : ℕ} {mode : DijkstraMode}
    {r1 r2 : Except error_code_t DijkstraResult}
    (h1 : dijkstra_shortest_path g sid tid mode = r1)
    (h2 : dijkstra_shortest_path g sid tid mode = r2) :
    r1 = r2 ∧
    r1.map (fun r => (r.target_found, get_shortest_distance r, get_shortest_path r)) =
      r2.map (fun r => (r.target_found, get_shortest_distance r, get_shortest_path r)) := by
  have h := h1.symm.trans h2
  exact ⟨h, by rw [h]⟩

theorem C9_deterministic_witness :
    dijkstra_shortest_path gA 1 3 .DIJKSTRA_SHORTEST_DISTANCE =
      dijkstra_shortest_path gA 1 3 .DIJKSTRA_SHORTEST_DISTANCE :=
  (C9_deterministic rfl rfl).1

/-- C10: settlement is final: any (suffix of a) main-loop run leaves the
distance and predecessor of an already-visited node untouched, and its
visited flag set. -/
theorem C10_settled_finality {g : Graph} {mode : DijkstraMode} {target : ℤ}
    {fuel : ℕ} {st st' : DState}
    (h : dijkstra_loop g mode target fuel st = some (.ok st')) (v : ℤ)
    (hv : vGet st.visited v = true) :
    vGet st'.visited v = true ∧
    dGet st'.distances v = dGet st.distances v ∧
    pGet st'.predecessors v = pGet st.predecessors v :=
  dijkstra_loop_final fuel st st' h v hv

def stW : DState := ⟨[((5 : ℚ) : Cost)], [-1], [true], ⟨[], 1⟩, false⟩

theorem C10_settled_finality_witness :
    vGet stW.visited 0 = true ∧
    dGet stW.distances 0 = dGet stW.distances 0 ∧
    pGet stW.predecessors 0 = pGet stW.predecessors 0 := by
  have h := @C10_settled_finality gA .DIJKSTRA_SHORTEST_DISTANCE 0 1 stW stW
    (by decide!) 0 (by decide!)
  exact ⟨h.1, rfl, rfl⟩

/-- C4 counterexample: at 40000 nodes the construction picks 65536 buckets,
not max(2·N, 65536) = 80000 — the code compares N (not 2·N) against the
fixed minimum, so for 32768 < N ≤ 65536 the load factor exceeds 0.5. -/
theorem C4_counterexample :
    (create_graph 40000 1).map (fun g => g.node_hash.size) = .ok 65536 ∧
    max (2 * 40000) HASH_TABLE_SIZE = 80000 ∧ (65536 : ℕ) ≠ 80000 :=
  ⟨by decide!, by decide, by decide⟩

/-- C4 amended: graph construction sizes the hash table to 2·N only when N
itself exceeds the fixed minimum 65536, and to the fixed minimum otherwise;
this agrees with max(2·N, minimum) exactly when N ≤ 32768 or N > 65536. -/
theorem C4_amended_hash_size (num_nodes num_edges : ℕ)
    (hN : 0 < num_nodes) (hM : 0 < num_edges) :
    (create_graph num_nodes num_edges).map (fun g => g.node_hash.size) =
      .ok (if num_nodes > HASH_TABLE_SIZE then num_nodes * 2 else HASH_TABLE_SIZE) ∧
    (num_nodes ≤ HASH_TABLE_SIZE / 2 ∨ HASH_TABLE_SIZE < num_nodes →
      (create_graph num_nodes num_edges).map (fun g => g.node_hash.size) =
        .ok (max (num_nodes * 2) HASH_TABLE_SIZE)) := by
  have hkey : (create_graph num_nodes num_edges).map (fun g => g.node_hash.size) =
      .ok (create_graph_hash_size num_nodes) := by
    unfold create_graph
    rw [if_neg (by omega)]
    have hpos : 0 < create_graph_hash_size num_nodes := by
      unfold create_graph_hash_size HASH_TABLE_SIZE
      split <;> omega
    unfold create_node_hash_table
    rw [if_neg (by omega)]
    rfl
  constructor
  · rw [hkey]
    rfl
  · intro hc
    rw [hkey]
    congr 1
    unfold HASH_TABLE_SIZE at hc
    unfold create_graph_hash_size HASH_TABLE_SIZE
    split <;> omega

theorem C4_amended_hash_size_witness :
    (create_graph 4 1).map (fun g => g.node_hash.size) =
      .ok (max (4 * 2) HASH_TABLE_SIZE) :=
  (C4_amended_hash_size 4 1 (by decide) (by decide)).2 (Or.inl (by decide))

/-- C5 counterexample: on `gD` the zero-speed edge (edge 9, the only edge
into node 6) sits on the only route to the target, yet the Time-mode solve
fails with `ERR_MEMORY_ALLOCATION` (heap overflow), not `ERR_INVALID_DATA`,
and the Distance-mode solve fails the same way instead of succeeding. -/
theorem C5_counterexample :
    WFGraph gD ∧
    (gD.edges.getD 9 default).speed_limit = 0 ∧
    find_node_index gD (gD.edges.getD 9 default).to_node = .ok 5 ∧
    (∀ i, i < gD.edges.length →
      (find_node_index gD (gD.edges.getD i default).to_node = .ok 5 ∨
       find_node_index gD (gD.edges.getD i default).from_node = .ok 5) → i = 9) ∧
    IsWalk gD 0 5 [(3, 0, 4), (9, 4, 5)] ∧
    dijkstra_shortest_path gD 1 6 .DIJKSTRA_FASTEST_TIME =
      .error .ERR_MEMORY_ALLOCATION ∧
    dijkstra_shortest_path gD 1 6 .DIJKSTRA_SHORTEST_DISTANCE =
      .error .ERR_MEMORY_ALLOCATION :=
  ⟨wf_gD, by decide!, by decide!, by decide!,
   IsWalk.cons (by decide!) (IsWalk.cons (by decide!) (IsWalk.nil 5)),
   by decide!, by decide!⟩

/-- C5 amended: a Time-mode relaxation that reaches a zero-speed edge with a
usable (in-range, unvisited) neighbor aborts the solve with
`ERR_INVALID_DATA` rather than skipping the edge; on the 3-node chain `gE`
(zero-speed edge 2→3 on the only path to the target, small enough that the
heap does not overflow first) the Time-mode solve returns
`ERR_INVALID_DATA` while the Distance-mode solve succeeds with cost 200. -/
theorem C5_amended :
    (∀ (g : Graph) (cur : ℤ) (i : ℕ) (st : DState) (fi ti : ℤ),
      find_node_index g (g.edges.getD i default).from_node = .ok fi →
      find_node_index g (g.edges.getD i default).to_node = .ok ti →
      (g.edges.getD i default).speed_limit = 0 →
      ¬(edge_neighbor fi ti cur (g.edges.getD i default).one_way = -1 ∨
        edge_neighbor fi ti cur (g.edges.getD i default).one_way < 0 ∨
        (g.nodes.length : ℤ) ≤ edge_neighbor fi ti cur (g.edges.getD i default).one_way) →
      vGet st.visited (edge_neighbor fi ti cur (g.edges.getD i default).one_way) = false →
      relax_edge g .DIJKSTRA_FASTEST_TIME cur i st = .error .ERR_INVALID_DATA) ∧
    dijkstra_shortest_path gE 1 3 .DIJKSTRA_FASTEST_TIME = .error .ERR_INVALID_DATA ∧
    (dijkstra_shortest_path gE 1 3 .DIJKSTRA_SHORTEST_DISTANCE).map
      (fun r => (r.target_found, get_shortest_distance r)) =
      .ok (true, .ok ((200 : ℚ) : Cost)) := by
  refine ⟨?_, by decide!, by decide!⟩
  intro g cur i st fi ti hfi hti hsp hskip hnvis
  unfold relax_edge
  rw [hfi]
  dsimp only
  rw [hti]
  dsimp only
  rw [if_neg hskip, if_neg (by simp only [hnvis]; simp)]
  split
  · rfl
  · omega

theorem C5_amended_witness :
    relax_edge gE .DIJKSTRA_FASTEST_TIME 1 1
      ⟨[((0 : ℚ) : Cost), ((2.4 : ℚ) : Cost), ⊤], [-1, 0, -1], [true, true, false],
       ⟨[], 3⟩, false⟩ = .error .ERR_INVALID_DATA :=
  C5_amended.1 gE 1 1 _ 1 2 (by decide!) (by decide!) (by decide!) (by decide!) (by decide!)

/-- C6 counterexample: on `gC` the target (node 6) is unreachable, but the
solve does not complete with `target_found = false`: it aborts with
`ERR_MEMORY_ALLOCATION` (heap overflow) first. -/
theorem C6_counterexample :
    WFGraph gC ∧
    find_node_index gC 1 = .ok 0 ∧ find_node_index gC 6 = .ok 5 ∧
    (¬ ∃ w, IsWalk gC 0 5 w) ∧
    dijkstra_shortest_path gC 1 6 .DIJKSTRA_SHORTEST_DISTANCE =
      .error .ERR_MEMORY_ALLOCATION :=
  ⟨wf_gC, by decide!, by decide!,
   no_entry_unreachable (by decide) (by decide!), by decide!⟩

/-- C6 amended: when a solve COMPLETES (returns `.ok`), an unreachable
target yields `target_found = false`; the reported distance is `+∞` exactly
when the target was not found, and in that case `get_shortest_path` fails
with `ERR_NOT_FOUND` and a zero path length. -/
theorem C6_amended {g : Graph} {sid tid : ℕ} {mode : DijkstraMode} {res : DijkstraResult}
    {source target : ℤ} (hwf : WFGraph g)
    (hfs : find_node_index g sid = .ok source)
    (hft : find_node_index g tid = .ok target)
    (hs0 : 0 ≤ source) (hsN : source < (g.nodes.length : ℤ))
    (h : dijkstra_shortest_path g sid tid mode = .ok res) :
    ((¬ ∃ w, IsWalk g source target w ∧ walk_admissible g mode w) →
      res.target_found = false) ∧
    (get_shortest_distance res = .ok ⊤ ↔ res.target_found = false) ∧
    (res.target_found = false → get_shortest_path res = ⟨.ERR_NOT_FOUND, 0, []⟩) := by
  obtain ⟨st', hsi, hti, hnn, hdists, hpreds, hvis, htf, hinv, hdisj⟩ :=
    dijkstra_shortest_path_spec hwf hfs hft hs0 hsN h
  have hfound : res.target_found = true →
      dGet res.distances res.target_index ≠ ⊤ ∧
      (∃ w, IsWalk g source target w ∧ walk_admissible g mode w) := by
    intro htrue
    rcases hdisj with ⟨_, ht0, htN, hvt⟩ | ⟨hfalse, _, _⟩
    · have hfin : dGet st'.distances target ≠ ⊤ := by
        apply hinv.settled_fin target ht0 htN
        exact hvt
      obtain ⟨c, hc⟩ := (WithTop.ne_top_iff_exists).mp hfin
      obtain ⟨w, hw, hwadm, _⟩ := hinv.attain target c hc.symm
      refine ⟨?_, ⟨w, hw, hwadm⟩⟩
      rw [hdists, hti]
      exact hfin
    · rw [htf, hfalse] at htrue
      exact absurd htrue (by simp)
  refine ⟨?_, ⟨?_, ?_⟩, ?_⟩
  · intro hunreach
    cases htfv : res.target_found with
    | false => rfl
    | true => exact absurd (hfound htfv).2 hunreach
  · intro hdist
    cases htfv : res.target_found with
    | false => rfl
    | true =>
      exfalso
      unfold get_shortest_distance at hdist
      rw [if_neg (by rw [htfv]; simp)] at hdist
      have := (hfound htfv).1
      exact this (by injection hdist)
  · intro htfv
    unfold get_shortest_distance
    rw [if_pos htfv]
  · intro htfv
    unfold get_shortest_path
    rw [if_pos htfv]

theorem C6_amended_witness :
    ∃ res, dijkstra_shortest_path gF 1 3 .DIJKSTRA_SHORTEST_DISTANCE = .ok res ∧
      res.target_found = false ∧ get_shortest_distance res = .ok ⊤ ∧
      get_shortest_path res = ⟨.ERR_NOT_FOUND, 0, []⟩ := by
  have hok : (dijkstra_shortest_path gF 1 3 .DIJKSTRA_SHORTEST_DISTANCE).map
      (fun r => r.target_found) = .ok false := by decide!
  cases hres : dijkstra_shortest_path gF 1 3 .DIJKSTRA_SHORTEST_DISTANCE with
  | error e =>
    rw [hres] at hok
    have hok' : Except.error (α := Bool) e = Except.ok false := hok
    cases hok'
  | ok res =>
    rw [hres] at hok
    have htf : res.target_found = false := by
      have hok' : Except.ok (ε := error_code_t) res.target_found = .ok false := hok
      injection hok'
    obtain ⟨h1, h2, h3⟩ := @C6_amended gF 1 3 .DIJKSTRA_SHORTEST_DISTANCE res 0 2
      wf_gF (by decide!) (by decide!) (by decide!) (by decide!) hres
    exact ⟨res, rfl, htf, h2.2 htf, h3 htf⟩

/-- C1 counterexample: on the well-formed graph `gB` the target (node 5) is
reachable from the source (node 1) by a traversable admissible walk, yet
`dijkstra_shortest_path` does not return success: the `num_nodes`-capacity
heap overflows and the solve aborts with `ERR_MEMORY_ALLOCATION`. -/
theorem C1_counterexample :
    WFGraph gB ∧
    find_node_index gB 1 = .ok 0 ∧ find_node_index gB 5 = .ok 4 ∧
    (∃ w, IsWalk gB 0 4 w ∧ walk_admissible gB .DIJKSTRA_SHORTEST_DISTANCE w) ∧
    dijkstra_shortest_path gB 1 5 .DIJKSTRA_SHORTEST_DISTANCE =
      .error .ERR_MEMORY_ALLOCATION :=
  ⟨wf_gB, by decide!, by decide!,
   ⟨[(3, 0, 4)], IsWalk.cons (by decide!) (IsWalk.nil 4),
    fun s hs hm => absurd hm (by decide)⟩,
   by decide!⟩

/-- C1 amended: WHEN a solve on a well-formed graph returns `.ok` and the
target is reachable by an admissible walk, `target_found` is true and every
settled node's distance label (the returned path's nodes are all settled)
is exactly the minimum admissible-walk cost from the source — finite and
non-negative. -/
theorem C1_amended {g : Graph} {sid tid : ℕ} {mode : DijkstraMode} {res : DijkstraResult}
    {source target : ℤ} (hwf : WFGraph g)
    (hfs : find_node_index g sid = .ok source)
    (hft : find_node_index g tid = .ok target)
    (hs0 : 0 ≤ source) (hsN : source < (g.nodes.length : ℤ))
    (ht0 : 0 ≤ target) (htN : target < (g.nodes.length : ℤ))
    (h : dijkstra_shortest_path g sid tid mode = .ok res)
    (hreach : ∃ w, IsWalk g source target w ∧ walk_admissible g mode w) :
    res.target_found = true ∧ vGet res.visited target = true ∧
    (∀ v : ℤ, 0 ≤ v → v < (g.nodes.length : ℤ) → vGet res.visited v = true →
      ∃ c : ℚ, dGet res.distances v = (c : Cost) ∧ 0 ≤ c ∧
        (∃ w, IsWalk g source v w ∧ walk_admissible g mode w ∧ walk_cost g mode w = c) ∧
        (∀ w, IsWalk g source v w → walk_admissible g mode w →
          c ≤ walk_cost g mode w)) := by
  obtain ⟨st', hsi, hti, hnn, hdists, hpreds, hvis, htf, hinv, hdisj⟩ :=
    dijkstra_shortest_path_spec hwf hfs hft hs0 hsN h
  have htfound : res.target_found = true := by
    cases htfv : res.target_found with
    | true => rfl
    | false =>
      exfalso
      have hunv : vGet res.visited target = false :=
        dijkstra_shortest_path_unvisited hwf hft ht0 htN h htfv
      rcases hdisj with ⟨htrue, _, _, _⟩ | ⟨hfalse, hemp, hfr⟩
      · rw [htf, htrue] at htfv
        exact absurd htfv (by simp)
      · obtain ⟨w, hw, hwadm⟩ := hreach
        have hunv' : vGet st'.visited target = false := by
          rw [← hvis]
          exact hunv
        obtain ⟨y, cy, hy0, hyN, hyvis, hcy, _⟩ :=
          unvisited_lower_entry hwf hinv hfr w target hw hwadm hunv'
        have hyne : dGet st'.distances y ≠ ⊤ := by
          rw [hcy]
          exact WithTop.coe_ne_top
        have hmem := hinv.witness y hy0 hyN hyvis hyne
        rw [hemp] at hmem
        exact absurd hmem (by simp)
  have hvist : vGet res.visited target = true := by
    rcases hdisj with ⟨_, _, _, hvt⟩ | ⟨hfalse, _, _⟩
    · rw [hvis]
      exact hvt
    · rw [htf, hfalse] at htfound
      exact absurd htfound (by simp)
  refine ⟨htfound, hvist, ?_⟩
  intro v hv0 hvN hvv
  have hvv' : vGet st'.visited v = true := by
    rw [← hvis]
    exact hvv
  have hfin : dGet st'.distances v ≠ ⊤ := hinv.settled_fin v hv0 hvN hvv'
  obtain ⟨c, hc⟩ := (WithTop.ne_top_iff_exists).mp hfin
  obtain ⟨w0, hw0, hw0adm, hw0cost⟩ := hinv.attain v c hc.symm
  refine ⟨c, by rw [hdists]; exact hc.symm, ?_, ⟨w0, hw0, hw0adm, hw0cost⟩, ?_⟩
  · rw [← hw0cost]
    exact walk_cost_nonneg hw0 hwf.len_pos hw0adm
  · intro w hw hwadm
    have hlb := hinv.settled_lb v hv0 hvN hvv' w hw hwadm
    rw [← hc] at hlb
    exact_mod_cast hlb

theorem C1_amended_witness :
    ∃ res, dijkstra_shortest_path gA 1 3 .DIJKSTRA_SHORTEST_DISTANCE = .ok res ∧
      res.target_found = true := by
  cases hres : dijkstra_shortest_path gA 1 3 .DIJKSTRA_SHORTEST_DISTANCE with
  | error e =>
    have hok : (dijkstra_shortest_path gA 1 3 .DIJKSTRA_SHORTEST_DISTANCE).map
        (fun r => r.target_found) = .ok true := by decide!
    rw [hres] at hok
    have hok' : Except.error (α := Bool) e = Except.ok true := hok
    cases hok'
  | ok res =>
    refine ⟨res, rfl, ?_⟩
    exact (@C1_amended gA 1 3 .DIJKSTRA_SHORTEST_DISTANCE res 0 2 wf_gA (by decide!)
      (by decide!) (by decide!) (by decide!) (by decide!) (by decide!) hres
      ⟨[(0, 0, 1), (1, 1, 2)],
       IsWalk.cons (by decide!) (IsWalk.cons (by decide!) (IsWalk.nil 2)),
       fun s hs hm => absurd hm (by decide)⟩).1

/-- C7: after a successful solve that found the target, `get_shortest_path`
returns a source-to-target index sequence that is the node sequence of an
admissible traversable walk whose total edge cost is exactly the returned
distance. -/
theorem C7_path_validity {g : Graph} {sid tid : ℕ} {mode : DijkstraMode}
    {res : DijkstraResult} {source target : ℤ} (hwf : WFGraph g)
    (hfs : find_node_index g sid = .ok source)
    (hft : find_node_index g tid = .ok target)
    (hs0 : 0 ≤ source) (hsN : source < (g.nodes.length : ℤ))
    (h : dijkstra_shortest_path g sid tid mode = .ok res)
    (htf : res.target_found = true) :
    ∃ (p : List ℤ) (c : ℚ) (w : List (ℕ × ℤ × ℤ)),
      get_shortest_path res = ⟨.ERR_SUCCESS, p.length, p⟩ ∧
      get_shortest_distance res = .ok ((c : ℚ) : Cost) ∧
      p.head? = some source ∧ p.getLast? = some target ∧
      List.Chain' (fun a b => ∃ i, i < g.edges.length ∧ TraversableEdge g i a b ∧
        admissible_edge mode (g.edges.getD i default)) p ∧
      IsWalk g source target w ∧ walk_admissible g mode w ∧
      p = walk_heads w ++ [target] ∧ walk_cost g mode w = c := by
  obtain ⟨st', hsi, hti, hnn, hdists, hpreds, hvis, htfe, hinv, hdisj⟩ :=
    dijkstra_shortest_path_spec hwf hfs hft hs0 hsN h
  rcases hdisj with ⟨_, ht0, htN, hvt⟩ | ⟨hfalse, _, _⟩
  swap
  · rw [htfe, hfalse] at htf
    exact absurd htf (by simp)
  have hfin : dGet st'.distances target ≠ ⊤ := hinv.settled_fin target ht0 htN hvt
  obtain ⟨c, hc⟩ := (WithTop.ne_top_iff_exists).mp hfin
  obtain ⟨w, hw, hwadm, hwcost, hbt⟩ := path_backtrack_spec hinv hpreds hsi
    (drank g st' target) (res.num_nodes + 1) target [] c (le_refl _)
    (by rw [hnn]; have := drank_le g st' target; omega) ht0 htN hc.symm
  refine ⟨walk_heads w ++ [target], c, w, ?_, ?_, walk_nodes_head hw,
    List.getLast?_concat _, walk_chain hw hwadm, hw, hwadm, rfl, hwcost⟩
  · unfold get_shortest_path
    rw [if_neg (by rw [htf]; simp), hti, hbt]
    simp only [List.append_nil]
  · unfold get_shortest_distance
    rw [if_neg (by rw [htf]; simp), hdists, hti, ← hc]

theorem C7_path_validity_witness :
    ∃ (p : List ℤ) (c : ℚ) (w : List (ℕ × ℤ × ℤ)) (res : DijkstraResult),
      dijkstra_shortest_path gA 1 3 .DIJKSTRA_SHORTEST_DISTANCE = .ok res ∧
      get_shortest_path res = ⟨.ERR_SUCCESS, p.length, p⟩ ∧
      get_shortest_distance res = .ok ((c : ℚ) : Cost) ∧
      p.head? = some 0 ∧ p.getLast? = some 2 := by
  cases hres : dijkstra_shortest_path gA 1 3 .DIJKSTRA_SHORTEST_DISTANCE with
  | error e =>
    have hok : (dijkstra_shortest_path gA 1 3 .DIJKSTRA_SHORTEST_DISTANCE).map
        (fun r => r.target_found) = .ok true := by decide!
    rw [hres] at hok
    have hok' : Except.error (α := Bool) e = Except.ok true := hok
    cases hok'
  | ok res =>
    have hok : (dijkstra_shortest_path gA 1 3 .DIJKSTRA_SHORTEST_DISTANCE).map
        (fun r => r.target_found) = .ok true := by decide!
    rw [hres] at hok
    have htf : res.target_found = true := by
      have hok' : Except.ok (ε := error_code_t) res.target_found = .ok true := hok
      injection hok'
    obtain ⟨p, c, w, h1, h2, h3, h4, _⟩ := @C7_path_validity gA 1 3
      .DIJKSTRA_SHORTEST_DISTANCE res 0 2 wf_gA (by decide!) (by decide!) (by decide!)
      (by decide!) hres htf
    exact ⟨p, c, w, res, rfl, h1, h2, h3, h4⟩

lemma find_node_index_congr {g1 g2 : Graph} (hh : g1.node_hash = g2.node_hash)
    (id : ℕ) : find_node_index g1 id = find_node_index g2 id := by
  unfold find_node_index
  rw [hh]

lemma orig_list_congr {g1 g2 : Graph} (he : g1.edges = g2.edges)
    (hh : g1.node_hash = g2.node_hash) (p : ℕ) : orig_list g1 p = orig_list g2 p := by
  unfold orig_list polist
  rw [he]
  congr 1
  apply List.map_congr_left
  intro i _
  unfold per_edge
  have hfs : from_side g1 p i ↔ from_side g2 p i := by
    unfold from_side
    rw [he, find_node_index_congr hh]
  have hts : to_side g1 p i ↔ to_side g2 p i := by
    unfold to_side
    rw [he, find_node_index_congr hh]
  congr 1
  · exact if_congr hfs rfl rfl
  · exact if_congr hts rfl rfl

/-- C8: after a successful `build_csr_representation`, the offsets array is
the prefix sum of the per-node out-degrees (each edge counted for its `from`
endpoint, and again for its `to` endpoint iff bidirectional), each node's
CSR slice is exactly its adjacency contribution list in edge-array order,
and the construction is deterministic. -/
theorem C8_csr_layout {g g2 : Graph}
    (hN : 0 < g.nodes.length) (hlen : ∀ e ∈ g.edges, 0 < e.length)
    (hres : ∀ e ∈ g.edges, edge_resolved g e)
    (hilen : spec_off g g.nodes.length ≤ g.adj_indices.length)
    (hbuild : build_csr_representation g = .ok g2) :
    (∀ p, p ≤ g.nodes.length →
      g2.adj_offsets.getD p 0 = ((List.range p).map (fun q => deg g q)).sum) ∧
    (∀ p, p < g.nodes.length →
      adj_slice g2 (g2.adj_offsets.getD p 0) (g2.adj_offsets.getD (p + 1) 0) =
        orig_list g p) ∧
    (∀ g3, build_csr_representation g = .ok g3 → g3 = g2) := by
  obtain ⟨hnodes, hedges, hhash, holen, hoffs, hilen2, hidx⟩ :=
    build_csr_spec g g2 hres hilen hbuild
  have hNlen : g2.nodes.length = g.nodes.length := by rw [hnodes]
  have horig : ∀ p, orig_list g2 p = orig_list g p :=
    fun p => orig_list_congr hedges hhash p
  have hdeg : ∀ p, deg g2 p = deg g p := by
    intro p
    calc deg g2 p = (orig_list g2 p).length := rfl
    _ = (orig_list g p).length := by rw [horig p]
    _ = deg g p := rfl
  have hspec : ∀ p, spec_off g2 p = spec_off g p := by
    intro p
    unfold spec_off
    congr 1
    exact List.map_congr_left (fun q _ => hdeg q)
  have hwf2 : WFGraph g2 := by
    refine ⟨?_, ?_, ?_, ?_, ?_, ?_⟩
    · rw [hNlen]
      exact hN
    · intro e he
      rw [hedges] at he
      exact hlen e he
    · intro e he
      rw [hedges] at he
      obtain ⟨⟨fi, hfi, hfi0, hfiN⟩, ⟨ti, hti, hti0, htiN⟩⟩ := hres e he
      refine ⟨⟨fi, ?_, hfi0, ?_⟩, ⟨ti, ?_, hti0, ?_⟩⟩
      · rw [find_node_index_congr hhash]
        exact hfi
      · rw [hNlen]
        exact hfiN
      · rw [find_node_index_congr hhash]
        exact hti
      · rw [hNlen]
        exact htiN
    · intro p hp
      rw [hNlen] at hp
      rw [hspec p]
      exact hoffs p hp
    · rw [hNlen, hspec, hilen2]
      exact hilen
    · intro p hp q hq
      rw [hNlen] at hp
      rw [hdeg] at hq
      rw [hspec, horig]
      exact hidx p hp q hq
  refine ⟨?_, ?_, ?_⟩
  · intro p hp
    rw [hoffs p hp]
    rfl
  · intro p hp
    rw [adj_slice_spec hwf2 (p := p) (by rw [hNlen]; exact hp)]
    exact horig p
  · intro g3 hb3
    have := hb3.symm.trans hbuild
    injection this

def g0A : Graph := ⟨nodesA, edgesA, List.replicate 5 0, List.replicate 8 0, gA.node_hash⟩

theorem C8_csr_layout_witness :
    ∃ g2, build_csr_representation g0A = .ok g2 ∧
      ∀ p, p ≤ g0A.nodes.length →
        g2.adj_offsets.getD p 0 = ((List.range p).map (fun q => deg g0A q)).sum := by
  cases hb : build_csr_representation g0A with
  | error e =>
    have hok : (build_csr_representation g0A).map (fun g => g.adj_offsets) =
        .ok [0, 2, 4, 5, 7] := by decide!
    rw [hb] at hok
    have hok' : Except.error (α := List ℕ) e = Except.ok [0, 2, 4, 5, 7] := hok
    cases hok'
  | ok g2 =>
    exact ⟨g2, rfl, (C8_csr_layout (by decide!) (by decide!) (by decide!)
      (by decide!) hb).1⟩
